import Mathlib

/-!
Verification development for the logic-english-app repository.

This file gives a shallow embedding, in Lean 4, of the two translation
engines of the repository:

* the formal-logic side: src/parser/Tokenizer.ts, src/parser/Parser.ts,
  src/parser/exprToString.ts, src/parser/validateAst.ts;
* the controlled-English side: src/englishTemplates/normalize.ts
  (the token-structured variant used by the clause parser),
  src/englishTemplates/dataset.ts, src/englishTemplates/parseEnglishExpr.ts
  and src/englishTemplates/astFromEnglish.ts.

Modelling conventions, used throughout:

* JavaScript strings are modelled by Lean String / List Char.  Every character
  that the program manipulates is in the Basic Multilingual Plane, where one
  JavaScript UTF-16 code unit corresponds to one Lean Char.
* JavaScript numbers that flow through these functions are the values of
  digit-only numeric literals; they are modelled as exact naturals (Nat).
  Decimal-point or exponent literals are floating point and outside the model.
* Thrown exceptions are modelled with Except; a JavaScript function that can
  either return null or throw is modelled as Except e (Option a).
* The module-global mutable phrase dictionary and the localStorage-backed
  phrase-to-predicate table are modelled by explicit state passing.
-/

set_option maxHeartbeats 1600000
set_option maxRecDepth 4096

/-! ### AST node types, from src/parser/Ast.ts

The TypeScript declares predicate arguments as Term[], but the parser
(Parser.ts, parsePredicate / parsePredicateFromName) actually builds the
argument array out of plain strings, and the English clause parser
(parseEnglishExpr.ts, parsePredicate) does the same.  At runtime a predicate
argument is therefore either a Term object or a bare string; the embedding
makes this explicit with the PredArg sum.
-/

/-- Kind of a quantifier: fa models the string tag 'forall', ex models
    'exists' (Ast.ts, QuantifierKind). -/
inductive QuantifierKind where
  | fa
  | ex
deriving DecidableEq, Repr

/-- Binary connective tag (Ast.ts, Binary.op): 'and' | 'or' | 'impl' | 'iff'. -/
inductive BinOp where
  | and
  | or
  | impl
  | iff
deriving DecidableEq, Repr

/-- Domain reference (Ast.ts, Domain): a named domain symbol. -/
structure Domain where
  name : String
deriving DecidableEq, Repr

/-- Terms (Ast.ts, Term = VarTerm | NumTerm | FuncTerm | ParenTerm | ConstTerm).
    NumTerm.value is a JavaScript number; here it is an exact natural, see the
    module conventions. -/
inductive Term where
  | var (name : String)
  | num (value : Nat)
  | const (name : String)
  | func (name : String) (args : List Term)
  | paren (t : Term)
deriving Repr

/-- A runtime predicate argument: either a structured Term (as Ast.ts
    declares) or a plain string (as Parser.ts and parseEnglishExpr.ts
    actually construct). -/
inductive PredArg where
  | term (t : Term)
  | str (s : String)
deriving Repr

/-- Expressions (Ast.ts, Expr).  Relation.op is kept as a string exactly like
    the TypeScript union of operator spellings. -/
inductive Expr where
  | quantifier (q : QuantifierKind) (v : String) (domain : Option Domain) (body : Expr)
  | predicate (name : String) (args : List PredArg)
  | relation (op : String) (left : Term) (right : Term)
  | negation (body : Expr)
  | binary (op : BinOp) (left : Expr) (right : Expr)
deriving Repr

/-- Decidable equality for Term (the derive handler does not support the
    nested List Term occurrence). -/
def Term.deq : (a b : Term) → Decidable (a = b)
  | .var n, .var m =>
      match decEq n m with
      | isTrue h => isTrue (by rw [h])
      | isFalse h => isFalse (by intro hc; cases hc; exact h rfl)
  | .num n, .num m =>
      match decEq n m with
      | isTrue h => isTrue (by rw [h])
      | isFalse h => isFalse (by intro hc; cases hc; exact h rfl)
  | .const n, .const m =>
      match decEq n m with
      | isTrue h => isTrue (by rw [h])
      | isFalse h => isFalse (by intro hc; cases hc; exact h rfl)
  | .func n as, .func m bs =>
      match decEq n m with
      | isTrue h =>
          match listDeq as bs with
          | isTrue h2 => isTrue (by rw [h, h2])
          | isFalse h2 => isFalse (by intro hc; cases hc; exact h2 rfl)
      | isFalse h => isFalse (by intro hc; cases hc; exact h rfl)
  | .paren a, .paren b =>
      match Term.deq a b with
      | isTrue h => isTrue (by rw [h])
      | isFalse h => isFalse (by intro hc; cases hc; exact h rfl)
  | .var _, .num _ => isFalse (by intro h; cases h)
  | .var _, .const _ => isFalse (by intro h; cases h)
  | .var _, .func _ _ => isFalse (by intro h; cases h)
  | .var _, .paren _ => isFalse (by intro h; cases h)
  | .num _, .var _ => isFalse (by intro h; cases h)
  | .num _, .const _ => isFalse (by intro h; cases h)
  | .num _, .func _ _ => isFalse (by intro h; cases h)
  | .num _, .paren _ => isFalse (by intro h; cases h)
  | .const _, .var _ => isFalse (by intro h; cases h)
  | .const _, .num _ => isFalse (by intro h; cases h)
  | .const _, .func _ _ => isFalse (by intro h; cases h)
  | .const _, .paren _ => isFalse (by intro h; cases h)
  | .func _ _, .var _ => isFalse (by intro h; cases h)
  | .func _ _, .num _ => isFalse (by intro h; cases h)
  | .func _ _, .const _ => isFalse (by intro h; cases h)
  | .func _ _, .paren _ => isFalse (by intro h; cases h)
  | .paren _, .var _ => isFalse (by intro h; cases h)
  | .paren _, .num _ => isFalse (by intro h; cases h)
  | .paren _, .const _ => isFalse (by intro h; cases h)
  | .paren _, .func _ _ => isFalse (by intro h; cases h)
where
  listDeq : (as bs : List Term) → Decidable (as = bs)
    | [], [] => isTrue rfl
    | [], _ :: _ => isFalse (by intro h; cases h)
    | _ :: _, [] => isFalse (by intro h; cases h)
    | a :: as, b :: bs =>
        match Term.deq a b with
        | isTrue h =>
            match listDeq as bs with
            | isTrue h2 => isTrue (by rw [h, h2])
            | isFalse h2 => isFalse (by intro hc; cases hc; exact h2 rfl)
        | isFalse h => isFalse (by intro hc; cases hc; exact h rfl)

instance : DecidableEq Term := Term.deq

instance : DecidableEq PredArg := fun a b =>
  match a, b with
  | .term t, .term u =>
      match decEq t u with
      | isTrue h => isTrue (by rw [h])
      | isFalse h => isFalse (by intro hc; cases hc; exact h rfl)
  | .str s, .str u =>
      match decEq s u with
      | isTrue h => isTrue (by rw [h])
      | isFalse h => isFalse (by intro hc; cases hc; exact h rfl)
  | .term _, .str _ => isFalse (by intro h; cases h)
  | .str _, .term _ => isFalse (by intro h; cases h)

/-- Decidable equality for Expr (manual, because of the nested
    List PredArg occurrence). -/
def Expr.deq : (a b : Expr) → Decidable (a = b)
  | .quantifier q v d body, .quantifier q' v' d' body' =>
      match decEq q q', decEq v v', decEq d d', Expr.deq body body' with
      | isTrue h1, isTrue h2, isTrue h3, isTrue h4 => isTrue (by rw [h1, h2, h3, h4])
      | isFalse h1, _, _, _ => isFalse (by intro hc; cases hc; exact h1 rfl)
      | _, isFalse h2, _, _ => isFalse (by intro hc; cases hc; exact h2 rfl)
      | _, _, isFalse h3, _ => isFalse (by intro hc; cases hc; exact h3 rfl)
      | _, _, _, isFalse h4 => isFalse (by intro hc; cases hc; exact h4 rfl)
  | .predicate n as, .predicate m bs =>
      match decEq n m, decEq as bs with
      | isTrue h1, isTrue h2 => isTrue (by rw [h1, h2])
      | isFalse h1, _ => isFalse (by intro hc; cases hc; exact h1 rfl)
      | _, isFalse h2 => isFalse (by intro hc; cases hc; exact h2 rfl)
  | .relation op l r, .relation op' l' r' =>
      match decEq op op', decEq l l', decEq r r' with
      | isTrue h1, isTrue h2, isTrue h3 => isTrue (by rw [h1, h2, h3])
      | isFalse h1, _, _ => isFalse (by intro hc; cases hc; exact h1 rfl)
      | _, isFalse h2, _ => isFalse (by intro hc; cases hc; exact h2 rfl)
      | _, _, isFalse h3 => isFalse (by intro hc; cases hc; exact h3 rfl)
  | .negation a, .negation b =>
      match Expr.deq a b with
      | isTrue h => isTrue (by rw [h])
      | isFalse h => isFalse (by intro hc; cases hc; exact h rfl)
  | .binary op l r, .binary op' l' r' =>
      match decEq op op', Expr.deq l l', Expr.deq r r' with
      | isTrue h1, isTrue h2, isTrue h3 => isTrue (by rw [h1, h2, h3])
      | isFalse h1, _, _ => isFalse (by intro hc; cases hc; exact h1 rfl)
      | _, isFalse h2, _ => isFalse (by intro hc; cases hc; exact h2 rfl)
      | _, _, isFalse h3 => isFalse (by intro hc; cases hc; exact h3 rfl)
  | .quantifier _ _ _ _, .predicate _ _ => isFalse (by intro h; cases h)
  | .quantifier _ _ _ _, .relation _ _ _ => isFalse (by intro h; cases h)
  | .quantifier _ _ _ _, .negation _ => isFalse (by intro h; cases h)
  | .quantifier _ _ _ _, .binary _ _ _ => isFalse (by intro h; cases h)
  | .predicate _ _, .quantifier _ _ _ _ => isFalse (by intro h; cases h)
  | .predicate _ _, .relation _ _ _ => isFalse (by intro h; cases h)
  | .predicate _ _, .negation _ => isFalse (by intro h; cases h)
  | .predicate _ _, .binary _ _ _ => isFalse (by intro h; cases h)
  | .relation _ _ _, .quantifier _ _ _ _ => isFalse (by intro h; cases h)
  | .relation _ _ _, .predicate _ _ => isFalse (by intro h; cases h)
  | .relation _ _ _, .negation _ => isFalse (by intro h; cases h)
  | .relation _ _ _, .binary _ _ _ => isFalse (by intro h; cases h)
  | .negation _, .quantifier _ _ _ _ => isFalse (by intro h; cases h)
  | .negation _, .predicate _ _ => isFalse (by intro h; cases h)
  | .negation _, .relation _ _ _ => isFalse (by intro h; cases h)
  | .negation _, .binary _ _ _ => isFalse (by intro h; cases h)
  | .binary _ _ _, .quantifier _ _ _ _ => isFalse (by intro h; cases h)
  | .binary _ _ _, .predicate _ _ => isFalse (by intro h; cases h)
  | .binary _ _ _, .relation _ _ _ => isFalse (by intro h; cases h)
  | .binary _ _ _, .negation _ => isFalse (by intro h; cases h)

instance : DecidableEq Expr := Expr.deq

/-! ### The printer, from src/parser/exprToString.ts

JavaScript Number.prototype.toString on the (integer) numeric values that
occur here prints the plain decimal digits; natDigitsStr is that model.
-/

/-- The decimal digit character for d (0-9). -/
def digitChar (d : Nat) : Char := Char.ofNat (48 + d)

/-- Decimal digit list of a natural number, most significant first; the fuel
    argument (any bound above the number) only makes the recursion
    structural. -/
def natDigitsAux : Nat → Nat → List Char
  | 0, _ => []
  | fuel + 1, n =>
      if n < 10 then [digitChar n]
      else natDigitsAux fuel (n / 10) ++ [digitChar (n % 10)]

/-- Decimal digit list of a natural number, most significant first. -/
def natDigits (n : Nat) : List Char := natDigitsAux (n + 1) n

/-- Model of JavaScript Number.prototype.toString for the exact naturals used
    as numeric literal values. -/
def natDigitsStr (n : Nat) : String := String.mk (natDigits n)

mutual

/-- termToString from exprToString.ts. -/
def termToString : Term → String
  | .var name => name
  | .num value => natDigitsStr value
  | .const name => name
  | .func name args => name ++ "(" ++ String.intercalate ", " (termToStringMap args) ++ ")"
  | .paren t => "(" ++ termToString t ++ ")"

/-- Pointwise termToString on an argument list (args.map(termToString)). -/
def termToStringMap : List Term → List String
  | [] => []
  | t :: ts => termToString t :: termToStringMap ts

end

/-- termToString applied to a runtime predicate argument.  On a plain string
    argument the JavaScript switch over term.kind matches no case, the
    function returns undefined, and Array.prototype.join renders undefined as
    the empty string; hence the str case maps to "". -/
def predArgToString : PredArg → String
  | .term t => termToString t
  | .str _ => ""

/-- opStr from exprToString.ts. -/
def opStr : BinOp → String
  | .and => "∧"
  | .or => "∨"
  | .impl => "→"
  | .iff => "↔"

/-- exprToString from exprToString.ts.  The quantifier case interpolates
    domainPart, which is "∈" ++ name ++ " " when a domain is present and ""
    otherwise. -/
def exprToString : Expr → String
  | .quantifier q v domain body =>
      let domainPart := match domain with
        | some d => "∈" ++ d.name ++ " "
        | none => ""
      (match q with | .fa => "∀" | .ex => "∃") ++ v ++ domainPart
        ++ "( " ++ exprToString body ++ " )"
  | .negation body => "¬( " ++ exprToString body ++ " )"
  | .binary op left right =>
      "( " ++ exprToString left ++ " ) " ++ opStr op ++ " ( " ++ exprToString right ++ " )"
  | .predicate name args =>
      name ++ "(" ++ String.intercalate ", " (args.map predArgToString) ++ ")"
  | .relation op left right =>
      termToString left ++ " " ++ op ++ " " ++ termToString right

example : exprToString (.quantifier .fa "x" (some ⟨"ℝ"⟩)
    (.quantifier .ex "y" (some ⟨"ℝ"⟩) (.relation "<" (.var "x") (.var "y"))))
    = "∀x∈ℝ ( ∃y∈ℝ ( x < y ) )" := rfl

/-! ### The logic tokenizer, from src/parser/Tokenizer.ts -/

/-- Token types (Tokenizer.ts, TokenType).  forallQ and existsQ model the
    string tags 'forall' and 'exists'. -/
inductive TokenType where
  | forallQ
  | existsQ
  | not
  | and
  | or
  | impl
  | iff
  | lparen
  | rparen
  | comma
  | var
  | ident
  | domain
  | member
  | notmember
  | lt
  | le
  | gt
  | ge
  | eq
  | ne
  | num
  | eof
deriving DecidableEq, Repr

/-- Tokens carry their source position (Tokenizer.ts, Token). -/
structure Token where
  type : TokenType
  value : String
  line : Nat
  column : Nat
deriving DecidableEq, Repr

/-- TokenizerError(message, line, column); the message field holds the base
    message passed to the constructor. -/
structure TokenizerError where
  message : String
  line : Nat
  column : Nat
deriving DecidableEq, Repr

/-- The JavaScript \s character class (ECMAScript WhiteSpace and
    LineTerminator code points). -/
def jsWhitespace (c : Char) : Bool :=
  c.val = 32 || c.val = 9 || c.val = 10 || c.val = 11 || c.val = 12 || c.val = 13 ||
  c.val = 0xa0 || c.val = 0x1680 || (0x2000 ≤ c.val && c.val ≤ 0x200a) ||
  c.val = 0x2028 || c.val = 0x2029 || c.val = 0x202f || c.val = 0x205f ||
  c.val = 0x3000 || c.val = 0xfeff

/-- The regex class [0-9]. -/
def isDigitCh (c : Char) : Bool := 48 ≤ c.val && c.val ≤ 57

/-- The regex class [a-zA-Z_]. -/
def isAlphaUnd (c : Char) : Bool :=
  (97 ≤ c.val && c.val ≤ 122) || (65 ≤ c.val && c.val ≤ 90) || c.val = 95

/-- The regex class [a-zA-Z0-9_]. -/
def isIdentCh (c : Char) : Bool := isAlphaUnd c || isDigitCh c

/-- The regex class [a-z] with the i flag (ASCII letter). -/
def isAsciiLetter (c : Char) : Bool :=
  (97 ≤ c.val && c.val ≤ 122) || (65 ≤ c.val && c.val ≤ 90)

/-- The variable-name convention of Tokenizer.ts:
    /^[a-z]$|^[a-z]\d*$/i.test(buf) || buf === 'x' || buf === 'y' || buf === 'z'
    (a single ASCII letter followed by only digits; the equality disjuncts are
    kept from the source although subsumed). -/
def isVarName (buf : List Char) : Bool :=
  (match buf with
   | c :: rest => isAsciiLetter c && rest.all isDigitCh
   | [] => false)
  || buf = ['x'] || buf = ['y'] || buf = ['z']

/-- Does the pattern occur as a prefix of the character list? -/
def hasPrefixCh : List Char → List Char → Bool
  | _, [] => true
  | [], _ :: _ => false
  | c :: cs, p :: ps => c = p && hasPrefixCh cs ps

/-- The single-character entries of OP_MAP (Tokenizer.ts). -/
def opMapSingle (c : Char) : Option TokenType :=
  if c = '∀' then some .forallQ else if c = '∃' then some .existsQ else if c = '¬' then some
  .not else if c = '!' then some .not else if c = '~' then some .not else if c = '∧' then some
  .and else if c = '&' then some .and else if c = '∨' then some .or else if c = '|' then some
  .or else if c = '→' then some .impl else if c = '↔' then some .iff else if c = '(' then some
  .lparen else if c = ')' then some .rparen else if c = ',' then some .comma else if c = 'ℝ'
  then some .domain else if c = 'ℤ' then some .domain else if c = 'ℚ' then some .domain else
  if c = 'ℕ' then some .domain else if c = 'ℂ' then some .domain else if c = '∈' then some
  .member else if c = '∉' then some .notmember else if c = '<' then some .lt else if c = '≤'
  then some .le else if c = '>' then some .gt else if c = '≥' then some .ge else if c = '='
  then some .eq else if c = '≠' then some .ne else none

/-- The multi-character operators of OP_STRINGS in the order produced by the
    stable descending-length sort (forall, exists, <->, ->, <=, >=, !=),
    with OP_MAP type and the value normalization of tokenize() applied
    (only <=, >=, != are rewritten to their Unicode spelling).
    Returns the matched length, the token type and the token value. -/
def tryMultiOp (cs : List Char) : Option (Nat × TokenType × String) :=
  if hasPrefixCh cs "forall".data then some (6, .forallQ, "forall")
  else if hasPrefixCh cs "exists".data then some (6, .existsQ, "exists")
  else if hasPrefixCh cs "<->".data then some (3, .iff, "<->")
  else if hasPrefixCh cs "->".data then some (2, .impl, "->")
  else if hasPrefixCh cs "<=".data then some (2, .le, "≤")
  else if hasPrefixCh cs ">=".data then some (2, .ge, "≥")
  else if hasPrefixCh cs "!=".data then some (2, .ne, "≠")
  else none

/-- JSON.stringify of a one-character string (quote and backslash escaped;
    control characters do not occur in the inputs considered). -/
def jsonStringifyChar (c : Char) : String :=
  "\"" ++ (if c = '"' then "\\\"" else if c = '\\' then "\\\\" else String.singleton c) ++ "\""

/-- skipWhitespace from tokenize(): consume leading whitespace, tracking
    line and column. -/
def skipWs : List Char → Nat → Nat → (List Char × Nat × Nat)
  | [], l, c => ([], l, c)
  | ch :: rest, l, c =>
      if jsWhitespace ch then
        if ch = '\n' then skipWs rest (l + 1) 1 else skipWs rest l (c + 1)
      else (ch :: rest, l, c)

/-- advance(n) from tokenize(): position update over a consumed chunk. -/
def advancePos (chunk : List Char) (l c : Nat) : Nat × Nat :=
  chunk.foldl (fun p ch => if ch = '\n' then (p.1 + 1, 1) else (p.1, p.2 + 1)) (l, c)

theorem dropWhileLenLe {α : Type} (p : α → Bool) :
    ∀ l : List α, (l.dropWhile p).length ≤ l.length := by
  intro l
  induction l with
  | nil => simp
  | cons a l ih =>
      rw [List.dropWhile_cons]
      split
      · exact le_trans ih (by simp)
      · simp

theorem skipWs_len_le : ∀ (cs : List Char) (l c : Nat), (skipWs cs l c).1.length ≤ cs.length := by
  intro cs
  induction cs with
  | nil => intro l c; simp [skipWs]
  | cons ch rest ih =>
      intro l c
      simp only [skipWs]
      split
      · split
        · exact le_trans (ih _ _) (by simp)
        · exact le_trans (ih _ _) (by simp)
      · simp

theorem tryMultiOp_len (cs : List Char) (n : Nat) (tt : TokenType) (v : String)
    (h : tryMultiOp cs = some (n, tt, v)) : 2 ≤ n := by
  unfold tryMultiOp at h
  repeat' split at h
  all_goals first
    | exact Option.noConfusion h
    | (injection h with h2; cases h2; omega)

/-- One dispatch step of the tokenize() loop (Tokenizer.ts, lines 124-243),
    with the continuation abstracted (tokenizeGo ties the knot below).  acc
    is the tokens array built so far; the branch popping a preceding minus
    token before a numeric literal is the negative-number handling at lines
    200-205. -/
def tokenizeStep
    (next : List Char → Nat → Nat → List Token → Except TokenizerError (List Token))
    (cs : List Char) (line col : Nat) (acc : List Token) :
    Except TokenizerError (List Token) :=
  let s := skipWs cs line col
  match hm : s.1 with
  | [] => .ok (acc ++ [⟨.eof, "", s.2.1, s.2.2⟩])
  | ch :: rest =>
      match hmul : tryMultiOp (ch :: rest) with
      | some (n, tt, v) =>
          let p := advancePos ((ch :: rest).take n) s.2.1 s.2.2
          next ((ch :: rest).drop n) p.1 p.2
            (acc ++ [⟨tt, v, s.2.1, s.2.2⟩])
      | none =>
          match opMapSingle ch with
          | some tt =>
              next rest s.2.1 (s.2.2 + 1)
                (acc ++ [⟨tt, String.singleton ch, s.2.1, s.2.2⟩])
          | none =>
              if hd : isDigitCh ch then
                let buf := (ch :: rest).takeWhile isDigitCh
                let rest' := (ch :: rest).dropWhile isDigitCh
                let p := advancePos buf s.2.1 s.2.2
                match acc.getLast? with
                | some t =>
                    if t.value = "-" then
                      next rest' p.1 p.2
                        (acc.dropLast ++ [⟨.num, "-" ++ String.mk buf, s.2.1, s.2.2⟩])
                    else
                      next rest' p.1 p.2
                        (acc ++ [⟨.num, String.mk buf, s.2.1, s.2.2⟩])
                | none =>
                    next rest' p.1 p.2
                      (acc ++ [⟨.num, String.mk buf, s.2.1, s.2.2⟩])
              else if ha : isAlphaUnd ch then
                let buf := (ch :: rest).takeWhile isIdentCh
                let rest' := (ch :: rest).dropWhile isIdentCh
                let p := advancePos buf s.2.1 s.2.2
                next rest' p.1 p.2
                  (acc ++ [⟨if isVarName buf then .var else .ident, String.mk buf,
                            s.2.1, s.2.2⟩])
              else
                .error ⟨"Unexpected character: " ++ jsonStringifyChar ch, s.2.1, s.2.2⟩

/-- The main loop of tokenize() (Tokenizer.ts, lines 124-243), as a recursion
    over the remaining input with structural fuel (the wrapper passes enough
    fuel that the zero case is unreachable). -/
def tokenizeGo (fuel : Nat) (cs : List Char) (line col : Nat) (acc : List Token) :
    Except TokenizerError (List Token) :=
  match fuel with
  | 0 => .error ⟨"out of fuel", 0, 0⟩
  | fuel + 1 => tokenizeStep (tokenizeGo fuel) cs line col acc

theorem tokenizeGo_zero (cs : List Char) (l c : Nat) (acc : List Token) :
    tokenizeGo 0 cs l c acc = .error ⟨"out of fuel", 0, 0⟩ := rfl

theorem tokenizeGo_succ (n : Nat) (cs : List Char) (l c : Nat) (acc : List Token) :
    tokenizeGo (n + 1) cs l c acc = tokenizeStep (tokenizeGo n) cs l c acc := rfl

/-- tokenize(input) from Tokenizer.ts. -/
def tokenize (input : String) : Except TokenizerError (List Token) :=
  tokenizeGo (input.data.length + 1) input.data 1 1 []

/-! ### The logic parser, from src/parser/Parser.ts

The parser keeps an index into the token array; the embedding carries the
remaining suffix of the token list instead.  current on an empty suffix
models the tokens[this.tokens.length-1] fallback; tokenize always ends the
array with an eof token and advance never consumes eof, so on parser states
reachable from parse() the suffix is never empty.

Each parsing function returns, besides its result and the remaining tokens,
a proof that the remaining suffix is no longer than its input; this field
only serves the termination argument and carries no semantic content.
-/

namespace LogicParser

/-- ParseError(message, line, column, expected?, got?). -/
structure ParseError where
  message : String
  line : Nat
  column : Nat
  expected : Option (List TokenType) := none
  got : Option TokenType := none
deriving DecidableEq, Repr

/-- The TypeScript string tag of a token type (TokenType is a union of
    string literals in Tokenizer.ts). -/
def tokenTypeName : TokenType → String
  | .forallQ => "forall"
  | .existsQ => "exists"
  | .not => "not"
  | .and => "and"
  | .or => "or"
  | .impl => "impl"
  | .iff => "iff"
  | .lparen => "lparen"
  | .rparen => "rparen"
  | .comma => "comma"
  | .var => "var"
  | .ident => "ident"
  | .domain => "domain"
  | .member => "member"
  | .notmember => "notmember"
  | .lt => "lt"
  | .le => "le"
  | .gt => "gt"
  | .ge => "ge"
  | .eq => "eq"
  | .ne => "ne"
  | .num => "num"
  | .eof => "eof"

/-- formatExpectedTokens from Parser.ts. -/
def formatExpectedTokens (types : List TokenType) : String :=
  match types with
  | [] => "nothing"
  | [a] => tokenTypeName a
  | [a, b] => tokenTypeName a ++ " or " ++ tokenTypeName b
  | l =>
      String.intercalate ", " ((l.dropLast).map tokenTypeName)
        ++ ", or " ++ (match l.getLast? with
                       | some a => tokenTypeName a
                       | none => "nothing")

/-- this.current: head of the remaining suffix; the [] fallback models the
    tokens[length-1] default and is unreachable from parse(). -/
def curTok : List Token → Token
  | [] => ⟨.eof, "", 0, 0⟩
  | t :: _ => t

/-- this.advance(): consume one token unless at eof. -/
def adv (ts : List Token) : List Token :=
  if (curTok ts).type = TokenType.eof then ts else ts.tail

theorem adv_len_le (ts : List Token) : (adv ts).length ≤ ts.length := by
  unfold adv
  split
  · exact le_refl _
  · cases ts <;> simp

/-- Result of expect: the consumed token and the remaining suffix. -/
structure KRes (n : Nat) where
  tk : Token
  rest : List Token
  hle : rest.length ≤ n

/-- this.expect(type, expectedAlternatives?). -/
def expect (tt : TokenType) (alts : Option (List TokenType)) (ts : List Token) :
    Except ParseError (KRes ts.length) :=
  let t := curTok ts
  if t.type = tt then
    .ok ⟨t, adv ts, adv_len_le ts⟩
  else
    let expd := match alts with
      | some more => tt :: more
      | none => [tt]
    .error ⟨"Expected " ++ formatExpectedTokens expd ++ ", got " ++ tokenTypeName t.type,
            t.line, t.column, some expd, some t.type⟩

/-- Result of an expression-parsing function. -/
structure PRes (n : Nat) where
  e : Expr
  rest : List Token
  hle : rest.length ≤ n

/-- Result of a term-parsing function. -/
structure TRes (n : Nat) where
  t : Term
  rest : List Token
  hle : rest.length ≤ n

/-- Result of the predicate-argument loop (plain strings, as Parser.ts
    builds them). -/
structure SLRes (n : Nat) where
  args : List String
  rest : List Token
  hle : rest.length ≤ n

/-- Result of the function-argument loop (structured terms). -/
structure TLRes (n : Nat) where
  args : List Term
  rest : List Token
  hle : rest.length ≤ n

/-- canStartTerm: at var, num or lparen. -/
def canStartTerm (ts : List Token) : Bool :=
  (curTok ts).type = TokenType.var || (curTok ts).type = TokenType.num ||
  (curTok ts).type = TokenType.lparen

/-- parseRelOp from Parser.ts: consume a relation-operator token and return
    its canonical spelling, or return null without consuming. -/
def parseRelOp (ts : List Token) : Option String × List Token :=
  if (curTok ts).type = TokenType.lt then (some "<", adv ts)
  else if (curTok ts).type = TokenType.le then (some "≤", adv ts)
  else if (curTok ts).type = TokenType.gt then (some ">", adv ts)
  else if (curTok ts).type = TokenType.ge then (some "≥", adv ts)
  else if (curTok ts).type = TokenType.eq then (some "=", adv ts)
  else if (curTok ts).type = TokenType.ne then (some "≠", adv ts)
  else if (curTok ts).type = TokenType.member then (some "∈", adv ts)
  else if (curTok ts).type = TokenType.notmember then (some "∉", adv ts)
  else (none, ts)

theorem parseRelOp_len (ts : List Token) : (parseRelOp ts).2.length ≤ ts.length := by
  unfold parseRelOp
  repeat' split
  all_goals first | exact adv_len_le ts | exact le_refl _

/-- The optional typed-domain segment of a quantifier header
    (Parser.ts, parseAtom lines 138-155): on a member token, expect a domain
    symbol or fail. -/
def parseQuantDomain (ts : List Token) : Except ParseError (Option Domain × List Token) :=
  if (curTok ts).type = TokenType.member then
    let ts1 := adv ts
    if (curTok ts1).type = TokenType.domain then
      .ok (some ⟨(curTok ts1).value⟩, adv ts1)
    else
      .error ⟨"Expected domain symbol after ∈", (curTok ts1).line, (curTok ts1).column,
              some [TokenType.domain], some (curTok ts1).type⟩
  else .ok (none, ts)

theorem parseQuantDomain_len (ts : List Token) (d : Option Domain) (rest : List Token)
    (h : parseQuantDomain ts = .ok (d, rest)) : rest.length ≤ ts.length := by
  by_cases h1 : (curTok ts).type = TokenType.member
  · by_cases h2 : (curTok (adv ts)).type = TokenType.domain
    · simp only [parseQuantDomain, h1, h2, if_true, Except.ok.injEq, Prod.mk.injEq] at h
      obtain ⟨-, h3⟩ := h
      subst h3
      exact le_trans (adv_len_le _) (adv_len_le _)
    · simp [parseQuantDomain, h1, h2] at h
  · simp only [parseQuantDomain, h1, if_false, Except.ok.injEq, Prod.mk.injEq] at h
    obtain ⟨-, h3⟩ := h
    subst h3
    exact le_refl _

/-- parseFloat on the digit strings emitted by the tokenizer: the exact
    natural value of the leading digit run. -/
def jsParseFloatDigits (s : String) : Nat :=
  (s.data.takeWhile isDigitCh).foldl (fun a c => a * 10 + (c.toNat - 48)) 0

/-- Sentinel for fuel exhaustion; the wrappers pass enough fuel that no run
    reaches it. -/
def fuelParseError : ParseError :=
  ⟨"out of fuel", 0, 0, none, none⟩

mutual

/-- parseTerm from Parser.ts. -/
def parseTerm (fuel : Nat) (ts : List Token) : Except ParseError (TRes ts.length) :=
  match fuel with
  | 0 => .error fuelParseError
  | fuel + 1 =>
    if (curTok ts).type = TokenType.var then
      .ok ⟨.var (curTok ts).value, adv ts, adv_len_le ts⟩
    else if (curTok ts).type = TokenType.num then
      .ok ⟨.num (jsParseFloatDigits (curTok ts).value), adv ts, adv_len_le ts⟩
    else if hlp : (curTok ts).type = TokenType.lparen then
      match hts : ts with
      | [] => (by simp [curTok] at hlp)
      | _ :: rest => do
          let inner ← parseTerm fuel rest
          let r ← expect TokenType.rparen none inner.rest
          return ⟨.paren inner.t, r.rest, by
            have h1 := r.hle
            have h2 := inner.hle
            simp only [List.length_cons]
            omega⟩
    else if hid : (curTok ts).type = TokenType.ident then
      match hts : ts with
      | [] => (by simp [curTok] at hid)
      | t :: rest =>
          if (curTok rest).type = TokenType.lparen then
            let ts2 := adv rest
            if h0 : (curTok ts2).type = TokenType.rparen then do
              let r ← expect TokenType.rparen none ts2
              return ⟨.func t.value [], r.rest, by
                have h1 := r.hle
                have h4 := adv_len_le rest
                have h5 : ts2.length = (adv rest).length := rfl
                simp only [List.length_cons]
                omega⟩
            else do
              let a0 ← parseTerm fuel ts2
              let args ← termArgsLoop fuel [a0.t] a0.rest
              let r ← expect TokenType.rparen none args.rest
              return ⟨.func t.value args.args, r.rest, by
                have h1 := r.hle
                have h2 := args.hle
                have h3 := a0.hle
                have h4 := adv_len_le rest
                have h5 : ts2.length = (adv rest).length := rfl
                simp only [List.length_cons]
                omega⟩
          else
            .ok ⟨.var t.value, rest, by simp⟩
    else
      .error ⟨"Expected term, got " ++ tokenTypeName (curTok ts).type,
              (curTok ts).line, (curTok ts).column,
              some [TokenType.var, TokenType.num, TokenType.ident, TokenType.lparen],
              some (curTok ts).type⟩
/-- The comma-separated argument loop of the function-call case of
    parseTerm. -/
def termArgsLoop (fuel : Nat) (acc : List Term) (ts : List Token) : Except ParseError (TLRes ts.length) :=
  match fuel with
  | 0 => .error fuelParseError
  | fuel + 1 =>
    if hc : (curTok ts).type = TokenType.comma then
      match hts : ts with
      | [] => (by simp [curTok] at hc)
      | _ :: rest => do
          let a ← parseTerm fuel rest
          let r ← termArgsLoop fuel (acc ++ [a.t]) a.rest
          return ⟨r.args, r.rest, by
            have h1 := r.hle
            have h2 := a.hle
            simp only [List.length_cons]
            omega⟩
    else .ok ⟨acc, ts, le_refl _⟩
end

/-- The comma-separated argument loop shared by parsePredicateFromName and
    parsePredicate: while at comma, advance and expect a var token
    (arguments are collected as plain strings). -/
def predArgsLoop (fuel : Nat) (acc : List String) (ts : List Token) : Except ParseError (SLRes ts.length) :=
  match fuel with
  | 0 => .error fuelParseError
  | fuel + 1 =>
    if hc : (curTok ts).type = TokenType.comma then
      match hts : ts with
      | [] => (by simp [curTok] at hc)
      | _ :: rest => do
          let a ← expect TokenType.var none rest
          let r ← predArgsLoop fuel (acc ++ [a.tk.value]) a.rest
          return ⟨r.args, r.rest, by
            have h1 := r.hle
            have h2 := a.hle
            simp only [List.length_cons]
            omega⟩
    else .ok ⟨acc, ts, le_refl _⟩
/-- parsePredicateFromName from Parser.ts: the caller has already parsed
    leftTerm and sees a lparen; the first advance() consumes it.  Predicate
    arguments are plain strings (PredArg.str). -/
def parsePredicateFromName (leftTerm : Term) (ts : List Token) :
    Except ParseError (PRes ts.length) :=
  match leftTerm with
  | .var name => do
      let ts1 := adv ts
      let a0 ← expect TokenType.var none ts1
      let args ← predArgsLoop (a0.rest.length + 1) [a0.tk.value] a0.rest
      let r ← expect TokenType.rparen none args.rest
      return ⟨.predicate name (args.args.map PredArg.str), r.rest, by
        have h1 := r.hle
        have h2 := args.hle
        have h3 := a0.hle
        have h4 := adv_len_le ts
        have h5 : ts1.length = (adv ts).length := rfl
        omega⟩
  | _ =>
      .error ⟨"Predicate name must be a variable", (curTok ts).line, (curTok ts).column,
              some [TokenType.var], some (curTok ts).type⟩

/-- parsePredicate from Parser.ts.  A bare name with no argument list yields
    the unary-looking predicate name(name); otherwise the argument strings
    are collected. -/
def parsePredicate (ts : List Token) : Except ParseError (PRes ts.length) := do
  let ntk ← (if (curTok ts).type = TokenType.ident then expect TokenType.ident none ts
             else expect TokenType.var none ts)
  let name := ntk.tk.value
  if (curTok ntk.rest).type = TokenType.lparen then do
    let ts2 := adv ntk.rest
    let a0 ← expect TokenType.var none ts2
    let args ← predArgsLoop (a0.rest.length + 1) [a0.tk.value] a0.rest
    let r ← expect TokenType.rparen none args.rest
    return ⟨.predicate name (args.args.map PredArg.str), r.rest, by
      have h1 := r.hle
      have h2 := args.hle
      have h3 := a0.hle
      have h4 := adv_len_le ntk.rest
      have h5 : ts2.length = (adv ntk.rest).length := rfl
      have h6 := ntk.hle
      omega⟩
  else
    return ⟨.predicate name [PredArg.str name], ntk.rest, ntk.hle⟩

mutual

/-- parseExpr from Parser.ts. -/
def parseExpr (fuel : Nat) (ts : List Token) : Except ParseError (PRes ts.length) :=
  match fuel with
  | 0 => .error fuelParseError
  | fuel + 1 =>
    parseIff fuel ts
/-- parseIff from Parser.ts: Imp (IFF Imp)*, iterative left accumulation. -/
def parseIff (fuel : Nat) (ts : List Token) : Except ParseError (PRes ts.length) :=
  match fuel with
  | 0 => .error fuelParseError
  | fuel + 1 =>   do
    let left ← parseImp fuel ts
    let r ← iffLoop fuel left.e left.rest
    return ⟨r.e, r.rest, le_trans r.hle left.hle⟩
/-- The while (this.at('iff')) loop of parseIff. -/
def iffLoop (fuel : Nat) (acc : Expr) (ts : List Token) : Except ParseError (PRes ts.length) :=
  match fuel with
  | 0 => .error fuelParseError
  | fuel + 1 =>
    if hi : (curTok ts).type = TokenType.iff then
      match hts : ts with
      | [] => (by simp [curTok] at hi)
      | _ :: rest => do
          let right ← parseImp fuel rest
          let r ← iffLoop fuel (.binary .iff acc right.e) right.rest
          return ⟨r.e, r.rest, by
            have h1 := r.hle
            have h2 := right.hle
            simp only [List.length_cons]
            omega⟩
    else .ok ⟨acc, ts, le_refl _⟩
/-- parseImp from Parser.ts: Or (IMPL Or)*. -/
def parseImp (fuel : Nat) (ts : List Token) : Except ParseError (PRes ts.length) :=
  match fuel with
  | 0 => .error fuelParseError
  | fuel + 1 =>   do
    let left ← parseOr fuel ts
    let r ← impLoop fuel left.e left.rest
    return ⟨r.e, r.rest, le_trans r.hle left.hle⟩
/-- The while (this.at('impl')) loop of parseImp. -/
def impLoop (fuel : Nat) (acc : Expr) (ts : List Token) : Except ParseError (PRes ts.length) :=
  match fuel with
  | 0 => .error fuelParseError
  | fuel + 1 =>
    if hi : (curTok ts).type = TokenType.impl then
      match hts : ts with
      | [] => (by simp [curTok] at hi)
      | _ :: rest => do
          let right ← parseOr fuel rest
          let r ← impLoop fuel (.binary .impl acc right.e) right.rest
          return ⟨r.e, r.rest, by
            have h1 := r.hle
            have h2 := right.hle
            simp only [List.length_cons]
            omega⟩
    else .ok ⟨acc, ts, le_refl _⟩
/-- parseOr from Parser.ts: And (OR And)*. -/
def parseOr (fuel : Nat) (ts : List Token) : Except ParseError (PRes ts.length) :=
  match fuel with
  | 0 => .error fuelParseError
  | fuel + 1 =>   do
    let left ← parseAnd fuel ts
    let r ← orLoop fuel left.e left.rest
    return ⟨r.e, r.rest, le_trans r.hle left.hle⟩
/-- The while (this.at('or')) loop of parseOr. -/
def orLoop (fuel : Nat) (acc : Expr) (ts : List Token) : Except ParseError (PRes ts.length) :=
  match fuel with
  | 0 => .error fuelParseError
  | fuel + 1 =>
    if hi : (curTok ts).type = TokenType.or then
      match hts : ts with
      | [] => (by simp [curTok] at hi)
      | _ :: rest => do
          let right ← parseAnd fuel rest
          let r ← orLoop fuel (.binary .or acc right.e) right.rest
          return ⟨r.e, r.rest, by
            have h1 := r.hle
            have h2 := right.hle
            simp only [List.length_cons]
            omega⟩
    else .ok ⟨acc, ts, le_refl _⟩
/-- parseAnd from Parser.ts: Not (AND Not)*. -/
def parseAnd (fuel : Nat) (ts : List Token) : Except ParseError (PRes ts.length) :=
  match fuel with
  | 0 => .error fuelParseError
  | fuel + 1 =>   do
    let left ← parseNot fuel ts
    let r ← andLoop fuel left.e left.rest
    return ⟨r.e, r.rest, le_trans r.hle left.hle⟩
/-- The while (this.at('and')) loop of parseAnd. -/
def andLoop (fuel : Nat) (acc : Expr) (ts : List Token) : Except ParseError (PRes ts.length) :=
  match fuel with
  | 0 => .error fuelParseError
  | fuel + 1 =>
    if hi : (curTok ts).type = TokenType.and then
      match hts : ts with
      | [] => (by simp [curTok] at hi)
      | _ :: rest => do
          let right ← parseNot fuel rest
          let r ← andLoop fuel (.binary .and acc right.e) right.rest
          return ⟨r.e, r.rest, by
            have h1 := r.hle
            have h2 := right.hle
            simp only [List.length_cons]
            omega⟩
    else .ok ⟨acc, ts, le_refl _⟩
/-- parseNot from Parser.ts: NOT Not | Atom. -/
def parseNot (fuel : Nat) (ts : List Token) : Except ParseError (PRes ts.length) :=
  match fuel with
  | 0 => .error fuelParseError
  | fuel + 1 =>
    if hn : (curTok ts).type = TokenType.not then
      match hts : ts with
      | [] => (by simp [curTok] at hn)
      | _ :: rest => do
          let body ← parseNot fuel rest
          return ⟨.negation body.e, body.rest, by
            have h1 := body.hle
            simp only [List.length_cons]
            omega⟩
    else parseAtom fuel ts
/-- parseAtom from Parser.ts.  The branch order is the source's: quantifier
    header; term-relation attempt whenever a var, num or lparen token is
    next (with predicate fallbacks); parenthesized sub-expression; bare
    predicate; error. -/
def parseAtom (fuel : Nat) (ts : List Token) : Except ParseError (PRes ts.length) :=
  match fuel with
  | 0 => .error fuelParseError
  | fuel + 1 =>
    if hq : (curTok ts).type = TokenType.forallQ ∨ (curTok ts).type = TokenType.existsQ then
      let q : QuantifierKind := if (curTok ts).type = TokenType.forallQ then .fa else .ex
      match hts : ts with
      | [] => (False.elim (by rcases hq with hq | hq <;> simp [curTok] at hq))
      | _ :: rest => do
          let v ← expect TokenType.var none rest
          match hdq : parseQuantDomain v.rest with
          | .error e => .error e
          | .ok (domain, ts2) =>
              if hlp : (curTok ts2).type = TokenType.lparen then
                match hts2 : ts2 with
                | [] => (by simp [curTok] at hlp)
                | _ :: rest2 => do
                    let body ← parseExpr fuel rest2
                    let r ← expect TokenType.rparen none body.rest
                    return ⟨.quantifier q v.tk.value domain body.e, r.rest, by
                      have h1 := r.hle
                      have h2 := body.hle
                      have h3 := parseQuantDomain_len v.rest domain _ hdq
                      have h4 := v.hle
                      simp only [List.length_cons] at h3 ⊢
                      omega⟩
              else do
                let body ← parseAtom fuel ts2
                return ⟨.quantifier q v.tk.value domain body.e, body.rest, by
                  have h1 := body.hle
                  have h3 := parseQuantDomain_len v.rest domain ts2 hdq
                  have h4 := v.hle
                  simp only [List.length_cons]
                  omega⟩
    else if hct : canStartTerm ts then do
      let left ← parseTerm (ts.length + 1) ts
      match hro : parseRelOp left.rest with
      | (some op, ts1) => do
          let right ← parseTerm (ts1.length + 1) ts1
          return ⟨.relation op left.t right.t, right.rest, by
            have h1 := right.hle
            have h2 : ts1.length ≤ left.rest.length := by
              have h := parseRelOp_len left.rest
              rw [hro] at h
              exact h
            have h3 := left.hle
            omega⟩
      | (none, ts1) =>
          if (curTok ts1).type = TokenType.lparen then do
            let r ← parsePredicateFromName left.t ts1
            return ⟨r.e, r.rest, by
              have h1 := r.hle
              have h2 : ts1.length ≤ left.rest.length := by
                have h := parseRelOp_len left.rest
                rw [hro] at h
                exact h
              have h3 := left.hle
              omega⟩
          else
            match left.t with
            | .var name =>
                return ⟨.predicate name [PredArg.str name], ts1, by
                  have h2 : ts1.length ≤ left.rest.length := by
                    have h := parseRelOp_len left.rest
                    rw [hro] at h
                    exact h
                  have h3 := left.hle
                  omega⟩
            | _ =>
                .error ⟨"Unexpected term in atom", (curTok ts1).line, (curTok ts1).column,
                        some [TokenType.lparen, TokenType.var, TokenType.ident],
                        some (curTok ts1).type⟩
    else if hlp2 : (curTok ts).type = TokenType.lparen then
      match hts : ts with
      | [] => (by simp [curTok] at hlp2)
      | _ :: rest => do
          let e ← parseExpr fuel rest
          let r ← expect TokenType.rparen none e.rest
          return ⟨e.e, r.rest, by
            have h1 := r.hle
            have h2 := e.hle
            simp only [List.length_cons]
            omega⟩
    else if (curTok ts).type = TokenType.ident ∨ (curTok ts).type = TokenType.var then
      parsePredicate ts
    else
      .error ⟨"Unexpected token: " ++ tokenTypeName (curTok ts).type,
              (curTok ts).line, (curTok ts).column,
              some [TokenType.forallQ, TokenType.existsQ, TokenType.var, TokenType.ident,
                    TokenType.lparen],
              some (curTok ts).type⟩
end

/-- A parse() call fails either with a TokenizerError or a ParseError. -/
inductive ParseFailure where
  | tokErr (e : TokenizerError)
  | parseErr (e : ParseError)
deriving DecidableEq, Repr

/-- parse(input) from Parser.ts: tokenize, parse an expression, then expect
    eof; returns the AST together with the token array. -/
def parse (input : String) : Except ParseFailure (Expr × List Token) :=
  match tokenize input with
  | .error e => .error (.tokErr e)
  | .ok tokens =>
      match parseExpr ((tokens.length + 1) * 16) tokens with
      | .error e => .error (.parseErr e)
      | .ok r =>
          match expect TokenType.eof none r.rest with
          | .error e => .error (.parseErr e)
          | .ok _ => .ok (r.e, tokens)

end LogicParser

/-! ### The validator, from src/parser/validateAst.ts

The mutable errors array and the global inScopeVars Set are threaded as an
accumulator pair (errors, inScopeVars); JavaScript Sets preserve insertion
order, so they are modelled as duplicate-free lists with add-if-absent.
A plain-string predicate argument falls through the switch in checkTerm
without effect, so PredArg.str contributes nothing.
-/

/-- Set.add: append unless present. -/
def setAdd (l : List String) (x : String) : List String :=
  if x ∈ l then l else l ++ [x]

mutual

/-- checkTerm from validateAst.ts, threading the errors list. -/
def checkTermV : Term → List String → List String → List String
  | .var name, scope, errors =>
      if name ∈ scope then errors else errors ++ ["Unbound variable " ++ name]
  | .num _, _, errors => errors
  | .const _, _, errors => errors
  | .func _ args, scope, errors => checkTermListV args scope errors
  | .paren t, scope, errors => checkTermV t scope errors

/-- The for-loop over function arguments in checkTerm. -/
def checkTermListV : List Term → List String → List String → List String
  | [], _, errors => errors
  | t :: rest, scope, errors => checkTermListV rest scope (checkTermV t scope errors)

end

/-- checkTerm applied to a runtime predicate argument; a plain string matches
    no case of the switch and leaves the state unchanged. -/
def checkArgV : PredArg → List String → List String → List String
  | .term t, scope, errors => checkTermV t scope errors
  | .str _, _, errors => errors

/-- The for-loop over predicate arguments in walkExpr. -/
def checkArgListV : List PredArg → List String → List String → List String
  | [], _, errors => errors
  | a :: rest, scope, errors => checkArgListV rest scope (checkArgV a scope errors)

/-- walkExpr from validateAst.ts; the accumulator is
    (errors, inScopeVars). -/
def walkExprV : Expr → List String → (List String × List String) → (List String × List String)
  | .quantifier _ v _ body, scope, (errors, inScope) =>
      let nextScope := if v ∈ scope then scope else scope ++ [v]
      walkExprV body nextScope (errors, setAdd inScope v)
  | .negation body, scope, acc => walkExprV body scope acc
  | .binary _ left right, scope, acc => walkExprV right scope (walkExprV left scope acc)
  | .relation _ left right, scope, (errors, inScope) =>
      (checkTermV right scope (checkTermV left scope errors), inScope)
  | .predicate _ args, scope, (errors, inScope) =>
      (checkArgListV args scope errors, inScope)

/-- validateAst(ast) from validateAst.ts. -/
structure AstValidationResult where
  ok : Bool
  errors : List String
  inScopeVars : List String
deriving DecidableEq, Repr

/-- validateAst from validateAst.ts: walk from an empty scope; ok iff no
    errors were collected. -/
def validateAst (ast : Expr) : AstValidationResult :=
  let r := walkExprV ast [] ([], [])
  ⟨r.1.length = 0, r.1, r.2⟩

/-! ### English pipeline: string utilities

JavaScript String.prototype.toLowerCase / toUpperCase act on the ASCII
letters that occur in the controlled-English vocabulary; the model lowers
and raises ASCII letters and leaves every other character unchanged.
-/

/-- ASCII toLowerCase model. -/
def asciiLowerChar (c : Char) : Char :=
  if 65 ≤ c.val ∧ c.val ≤ 90 then Char.ofNat (c.toNat + 32) else c

/-- ASCII toUpperCase model. -/
def asciiUpperChar (c : Char) : Char :=
  if 97 ≤ c.val ∧ c.val ≤ 122 then Char.ofNat (c.toNat - 32) else c

/-- String.prototype.toLowerCase. -/
def jsToLower (s : String) : String := String.mk (s.data.map asciiLowerChar)

/-- String.prototype.trim: strip leading and trailing whitespace. -/
def jsTrim (s : String) : String :=
  String.mk (((s.data.dropWhile jsWhitespace).reverse.dropWhile jsWhitespace).reverse)

/-- The regex \w class [A-Za-z0-9_]. -/
def isWordCh (c : Char) : Bool := isIdentCh c

/-- String.prototype.split(/\s+/).filter(Boolean): the whitespace-separated
    words of a string. -/
def splitWsWords (s : String) : List String :=
  ((s.data.splitOnP jsWhitespace).map String.mk).filter (fun w => w ≠ "")

/-! ### A word-sequence regex engine

Every regex used by the live English pipeline has the shape
\b w1 \s+ w2 \s+ ... wn \b with each wi a literal (or a short alternation
such as an?), applied with the global flag and a fixed replacement.  The
engine below implements exactly that fragment: matches are searched left to
right on the original string, are non-overlapping, and replacements are not
rescanned, which is the semantics of String.prototype.replace with a global
regex.  A pattern is a list of elements; each element is a list of
alternative literals tried in order (regex alternation/backtracking order).
-/

/-- Match a word-sequence pattern at the head of the input: literals
    separated by \\s+ (one or more whitespace characters); after the last
    literal the closing \\b requires the next character to not be a word
    character.  Returns the suffix after the matched region. -/
def matchWordSeq : List (List Char) → List Char → Option (List Char)
  | [], rest =>
      match rest with
      | [] => some rest
      | c :: _ => if isWordCh c then none else some rest
  | lit :: more, rest =>
      if hasPrefixCh rest lit then
        let rest' := rest.drop lit.length
        match more with
        | [] =>
            (match rest' with
             | [] => some rest'
             | c :: _ => if isWordCh c then none else some rest')
        | _ :: _ =>
            let restWs := rest'.dropWhile jsWhitespace
            if restWs.length < rest'.length then matchWordSeq more restWs else none
      else none

/-- Try a list of alternative word-sequence patterns in order (regex
    alternation order). -/
def matchAnyPat : List (List (List Char)) → List Char → Option (List Char)
  | [], _ => none
  | p :: ps, cs =>
      match matchWordSeq p cs with
      | some r => some r
      | none => matchAnyPat ps cs

theorem matchWordSeq_le : ∀ (pat : List (List Char)) (cs r : List Char),
    matchWordSeq pat cs = some r → r.length ≤ cs.length := by
  intro pat
  induction pat with
  | nil =>
      intro cs r h
      unfold matchWordSeq at h
      match cs, h with
      | [], h => cases h; exact le_refl _
      | c :: rest, h =>
          simp only at h
          split at h
          · cases h
          · cases h; exact le_refl _
  | cons lit more ih =>
      intro cs r h
      unfold matchWordSeq at h
      split at h
      · split at h
        · match hcs : cs.drop lit.length, h with
          | [], h => cases h; simp
          | c :: tl, h =>
              simp only at h
              split at h
              · cases h
              · cases h
                calc (c :: tl).length = (cs.drop lit.length).length := by rw [hcs]
                _ ≤ cs.length := by simp
        · dsimp only at h
          split at h
          · calc r.length ≤ ((cs.drop lit.length).dropWhile jsWhitespace).length :=
                  ih _ _ h
            _ ≤ (cs.drop lit.length).length := dropWhileLenLe _ _
            _ ≤ cs.length := by simp
          · cases h
      · cases h

theorem matchAnyPat_le : ∀ (pats : List (List (List Char))) (cs r : List Char),
    matchAnyPat pats cs = some r → r.length ≤ cs.length := by
  intro pats
  induction pats with
  | nil => intro cs r h; cases h
  | cons p ps ih =>
      intro cs r h
      unfold matchAnyPat at h
      split at h
      · cases h; exact matchWordSeq_le _ _ _ (by assumption)
      · exact ih _ _ h

/-- One global-replace pass: scan left to right; at every position where the
    preceding character is not a word character (the opening \b), try the
    pattern; on a match emit the replacement and continue after the matched
    region, otherwise emit the character.  The length guard always holds for
    the nonempty patterns used here and only serves termination. -/
def replaceScan (pats : List (List (List Char))) (rep : List Char) :
    Nat → List Char → Bool → List Char
  | 0, _, _ => []
  | _ + 1, [], _ => []
  | fuel + 1, c :: rest, prevW =>
      if prevW then c :: replaceScan pats rep fuel rest (isWordCh c)
      else
        match matchAnyPat pats (c :: rest) with
        | some rest2 =>
            if rest2.length < (c :: rest).length then
              rep ++ replaceScan pats rep fuel rest2 true
            else c :: replaceScan pats rep fuel rest (isWordCh c)
        | none => c :: replaceScan pats rep fuel rest (isWordCh c)

/-- text.replace(regex-with-g, rep) for a list of alternative word-sequence
    patterns (each pattern a list of words); a short alternation inside a
    regex, such as an?, is given as alternative whole patterns in
    backtracking order. -/
def jsReplaceAll (pats : List (List String)) (rep : String) (text : String) : String :=
  String.mk (replaceScan (pats.map (fun ws => ws.map String.data)) rep.data
    (text.data.length + 1) text.data false)

/-- Anchored prefix replace .replace(/^(w1|w2|...)\s+/, rep): try the
    alternatives in order; on a prefix match followed by mandatory
    whitespace, replace the matched region (including the whitespace). -/
def jsReplacePrefixAlt (alts : List String) (rep : String) (text : String) : String :=
  go (alts.map String.data) text.data
where
  go : List (List Char) → List Char → String
    | [], cs => String.mk cs
    | lit :: others, cs =>
        if hasPrefixCh cs lit then
          let rest := cs.drop lit.length
          let restWs := rest.dropWhile jsWhitespace
          if restWs.length < rest.length then String.mk (rep.data ++ restWs)
          else go others cs
        else go others cs

/-! ### Vocabulary tables and phrase-name derivation, from
    src/englishTemplates/dataset.ts

localStorage is external browser state read (never written) by the
functions modelled here; it is passed as an optional already-parsed
association list.  A JavaScript object literal is an association list with
distinct keys; property lookup is lookupObj, and spread-merge is mergeObj.
-/

/-- Property access o[k] on an object with distinct keys. -/
def lookupObj (o : List (String × String)) (k : String) : Option String :=
  (o.find? (fun p => p.1 = k)).map (fun p => p.2)

/-- Spread merge {...base, ...extra}: base keys keep their position (values
    overridden by extra), new extra keys follow in order. -/
def mergeObj (base extra : List (String × String)) : List (String × String) :=
  base.map (fun p => (p.1, (lookupObj extra p.1).getD p.2))
    ++ extra.filter (fun p => (lookupObj base p.1).isNone)

/-- DOMAIN_PHRASES from dataset.ts. -/
def DOMAIN_PHRASES : List (String × String) :=
  [("real numbers", "ℝ"), ("real number", "ℝ"), ("reals", "ℝ"), ("real", "ℝ"), ("r", "ℝ"),
   ("integers", "ℤ"), ("integer", "ℤ"), ("ints", "ℤ"), ("int", "ℤ"), ("z", "ℤ"),
   ("rational numbers", "ℚ"), ("rational number", "ℚ"), ("rationals", "ℚ"),
   ("rational", "ℚ"), ("q", "ℚ"),
   ("natural numbers", "ℕ"), ("natural number", "ℕ"), ("naturals", "ℕ"),
   ("natural", "ℕ"), ("n", "ℕ"),
   ("complex numbers", "ℂ"), ("complex number", "ℂ"), ("complexes", "ℂ"),
   ("complex", "ℂ"), ("c", "ℂ")]

/-- normalizeDomain from dataset.ts (the || null of a missing or empty
    entry yields none). -/
def normalizeDomain (phrase : String) : Option String :=
  let normalized := jsTrim (jsToLower phrase)
  match lookupObj DOMAIN_PHRASES normalized with
  | some v => if v = "" then none else some v
  | none => none

/-- DEFAULT_PHRASE_PREDICATES from dataset.ts. -/
def DEFAULT_PHRASE_PREDICATES : List (String × String) :=
  [("being a tomato", "Tomato"), ("being a fruit", "Fruit"),
   ("being a uatx student", "UATXStudent"), ("being a student", "Student"),
   ("getting a student id", "StudentID"), ("get a student id", "StudentID"),
   ("having a student id", "StudentID"), ("has a student id", "StudentID"),
   ("being a citizen", "Citizen"), ("vote", "Vote"), ("voting", "Vote"),
   ("having a ticket", "HasTicket"), ("entering the concert", "EnterConcert"),
   ("being divisible by 4", "DivisibleBy4"), ("being even", "Even")]

/-- getPhrasePredicateMappings from dataset.ts: defaults merged with the
    stored overrides when localStorage holds any (parse errors fall back to
    the defaults, which the Option already covers). -/
def getPhrasePredicateMappings (storage : Option (List (String × String))) :
    List (String × String) :=
  match storage with
  | some parsed => mergeObj DEFAULT_PHRASE_PREDICATES parsed
  | none => DEFAULT_PHRASE_PREDICATES

/-- phraseToUnaryPredicate from dataset.ts. -/
def phraseToUnaryPredicate (phrase : String) : String :=
  let s0 := jsTrim (jsToLower phrase)
  if s0 = "" then "P"
  else
    let s1 := jsReplacePrefixAlt ["being"] "" s0
    let s2 := stripIsArticle s1
    let s3 := jsReplacePrefixAlt ["a", "an", "the"] "" s2
    let s4 := jsTrim s3
    if s4 = "" then "P"
    else
      String.join ((splitWsWords s4).map capitalizeWord)
where
  /-- .replace(/^is\s+(a|an|the)\s+/, ''). -/
  stripIsArticle (s : String) : String :=
    if hasPrefixCh s.data "is".data then
      let rest := s.data.drop 2
      let restWs := rest.dropWhile jsWhitespace
      if restWs.length < rest.length then
        let after := String.mk restWs
        let stripped := jsReplacePrefixAlt ["a", "an", "the"] "" after
        if stripped = after then s else stripped
      else s
    else s
  /-- w.charAt(0).toUpperCase() + w.slice(1).toLowerCase(). -/
  capitalizeWord (w : String) : String :=
    match w.data with
    | [] => ""
    | c :: rest => String.mk (asciiUpperChar c :: rest.map asciiLowerChar)

/-- normalizeNpPhrase from dataset.ts. -/
def normalizeNpPhrase (phrase : String) : String :=
  let n0 := jsTrim (jsToLower phrase)
  let n1 := jsReplacePrefixAlt ["a", "an", "the"] "" n0
  let n2 := jsReplacePrefixWord "getting" "get " n1
  let n3 := jsReplacePrefixWord "having" "has " n2
  jsTrim n3
where
  /-- .replace(/^w\s+/i, rep). -/
  jsReplacePrefixWord (w rep s : String) : String :=
    if hasPrefixCh s.data w.data then
      let rest := s.data.drop w.data.length
      let restWs := rest.dropWhile jsWhitespace
      if restWs.length < rest.length then String.mk (rep.data ++ restWs) else s
    else s

/-- getPredicateForPhrase from dataset.ts; the truthiness test on the
    dictionary hit makes an empty-string mapping fall through to
    derivation. -/
def getPredicateForPhrase (storage : Option (List (String × String))) (phrase : String) :
    String :=
  let normalized := normalizeNpPhrase phrase
  let mappings := getPhrasePredicateMappings storage
  match lookupObj mappings normalized with
  | some v => if v = "" then phraseToUnaryPredicate phrase else v
  | none => phraseToUnaryPredicate phrase

/-! ### English normalization, from src/englishTemplates/normalize.ts
    (the token-structured variant used by parseEnglishExpr.ts)

normalizeEnglishTokens runs normalizeComparisons on the raw text, low-level
tokenizes, then rewrites multi-token English phrases into single reserved
keyword tokens.
-/

/-- NormalizedToken: KW (reserved canonical keyword), ID (surviving
    identifier, case preserved), NUM, OP. -/
inductive NormalizedToken where
  | KW (value : String)
  | ID (value : String)
  | NUM (value : String)
  | OP (value : String)
deriving DecidableEq, Repr

/-- The value field of a token. -/
def NormalizedToken.value : NormalizedToken → String
  | .KW v => v
  | .ID v => v
  | .NUM v => v
  | .OP v => v

/-- kind === 'ID'. -/
def NormalizedToken.isID : NormalizedToken → Bool
  | .ID _ => true
  | _ => false

/-- An apostrophe character, written by code point to keep the vocabulary
    literals plain. -/
def apoStr : String := String.singleton (Char.ofNat 39)

/-- The ordered replacement rules of normalizeComparisons (normalize.ts):
    each entry is a list of alternative word-sequence patterns and the
    replacement; the an? alternation is expanded into the two alternatives
    in backtracking order. -/
def comparisonRules : List (List (List String) × String) :=
  [([["is", "at", "most"]], "≤"),
   ([["at", "most"]], "≤"),
   ([["is", "less", "than", "or", "equal", "to"]], "≤"),
   ([["less", "than", "or", "equal", "to"]], "≤"),
   ([["is", "not", "greater", "than"]], "≤"),
   ([["not", "greater", "than"]], "≤"),
   ([["is", "at", "least"]], "≥"),
   ([["at", "least"]], "≥"),
   ([["is", "greater", "than", "or", "equal", "to"]], "≥"),
   ([["greater", "than", "or", "equal", "to"]], "≥"),
   ([["is", "not", "less", "than"]], "≥"),
   ([["not", "less", "than"]], "≥"),
   ([["is", "less", "than"]], "<"),
   ([["less", "than"]], "<"),
   ([["smaller", "than"]], "<"),
   ([["lower", "than"]], "<"),
   ([["below"]], "<"),
   ([["is", "greater", "than"]], ">"),
   ([["greater", "than"]], ">"),
   ([["larger", "than"]], ">"),
   ([["higher", "than"]], ">"),
   ([["above"]], ">"),
   ([["is", "equal", "to"]], "="),
   ([["equal", "to"]], "="),
   ([["equals"]], "="),
   ([["is", "the", "same", "as"]], "="),
   ([["same", "as"]], "="),
   ([["is", "equivalent", "to"]], "="),
   ([["is", "not", "equal", "to"]], "≠"),
   ([["not", "equal", "to"]], "≠"),
   ([["does", "not", "equal"]], "≠"),
   ([["is", "different", "from"]], "≠"),
   ([["different", "from"]], "≠"),
   ([["is", "in"]], "∈"),
   ([["in"]], "∈"),
   ([["belongs", "to"]], "∈"),
   ([["is", "an", "element", "of"], ["is", "a", "element", "of"]], "∈"),
   ([["is", "not", "in"]], "∉"),
   ([["not", "in"]], "∉"),
   ([["does", "not", "belong", "to"]], "∉"),
   ([["is", "not"]], "NOT"),
   ([["isn" ++ apoStr ++ "t"]], "NOT"),
   ([["does", "not"]], "NOT"),
   ([["doesn" ++ apoStr ++ "t"]], "NOT"),
   ([["do", "not"]], "NOT"),
   ([["don" ++ apoStr ++ "t"]], "NOT")]

/-- normalizeComparisons from normalize.ts: apply the rules in order. -/
def normalizeComparisons (text : String) : String :=
  comparisonRules.foldl (fun acc r => jsReplaceAll r.1 r.2 acc) text

/-- The punctuation class [.;:!?'"()] of tokenizeEnglish. -/
def isEngPunct (c : Char) : Bool :=
  c = '.' || c = ';' || c = ':' || c = '!' || c = '?' || c.val = 39 || c = '"' ||
  c = '(' || c = ')'

/-- The number-continuation class [0-9.] of tokenizeEnglish. -/
def isNumDotCh (c : Char) : Bool := isDigitCh c || c = '.'

/-- The low-level English tokenizer (tokenizeEnglish from normalize.ts).
    The '!' arm of the operator branch is kept from the source although the
    punctuation class tested before it already consumes '!'. -/
def tokenizeEnglishGo : Nat → List Char → List NormalizedToken
  | 0, _ => []
  | _ + 1, [] => []
  | fuel + 1, ch :: rest =>
      if jsWhitespace ch then tokenizeEnglishGo fuel rest
      else if ch = ',' then .KW "," :: tokenizeEnglishGo fuel rest
      else if ch = '≤' || ch = '≥' || ch = '≠' || ch = '∈' || ch = '∉' then
        .OP (String.singleton ch) :: tokenizeEnglishGo fuel rest
      else if isEngPunct ch then tokenizeEnglishGo fuel rest
      else if ch = '<' || ch = '>' || ch = '=' || ch = '!' then
        match hr : rest with
        | next :: rest2 =>
            if (ch = '<' || ch = '>') && next = '=' then
              .OP (String.mk [ch, next]) :: tokenizeEnglishGo fuel rest2
            else if ch = '!' && next = '=' then
              .OP (String.mk [ch, next]) :: tokenizeEnglishGo fuel rest2
            else .OP (String.singleton ch) :: tokenizeEnglishGo fuel (next :: rest2)
        | [] => .OP (String.singleton ch) :: tokenizeEnglishGo fuel []
      else if isDigitCh ch then
        .NUM (String.mk (ch :: rest.takeWhile isNumDotCh))
          :: tokenizeEnglishGo fuel (rest.dropWhile isNumDotCh)
      else if isAlphaUnd ch then
        .ID (String.mk (ch :: rest.takeWhile isIdentCh))
          :: tokenizeEnglishGo fuel (rest.dropWhile isIdentCh)
      else tokenizeEnglishGo fuel rest

/-- tokenizeEnglish from normalize.ts. -/
def tokenizeEnglish (input : String) : List NormalizedToken :=
  tokenizeEnglishGo (input.data.length + 1) input.data

/-- The lowercased value of the token k positions into the lookahead, when
    that token is an ID. -/
def idAtLower (l : List NormalizedToken) (k : Nat) : Option String :=
  match l.get? k with
  | some (.ID w) => some (jsToLower w)
  | _ => none

/-- some-membership test for the lookahead results. -/
def optIn (o : Option String) (ws : List String) : Bool :=
  match o with
  | some w => ws.contains w
  | none => false

/-- The phrase-rewriting pass of normalizeEnglishTokens (normalize.ts): the
    for-loop over the raw tokens with its branch chain, in source order. -/
def normPass : Nat → List NormalizedToken → List NormalizedToken
  | 0, _ => []
  | _ + 1, [] => []
  | fuel + 1, t :: rest =>
      match t with
      | .NUM v => .NUM v :: normPass fuel rest
      | .OP v =>
          .OP (if v = "<=" then "≤" else if v = ">=" then "≥"
               else if v = "!=" then "≠" else v) :: normPass fuel rest
      | .KW v => .KW v :: normPass fuel rest
      | .ID v =>
          let lower := jsToLower v
          if lower = "for" && optIn (idAtLower rest 0) ["all", "every", "each"] then
            .KW "FORALL" :: normPass fuel (rest.drop 1)
          else if lower = "given" && optIn (idAtLower rest 0) ["any"] then
            .KW "FORALL" :: normPass fuel (rest.drop 1)
          else if lower = "all" || lower = "every" || lower = "any" || lower = "each" then
            .KW "FORALL" :: normPass fuel rest
          else if lower = "there" && optIn (idAtLower rest 0) ["exists", "exist", "is", "are"] then
            .KW "EXISTS" :: normPass fuel (rest.drop 1)
          else if lower = "we" && optIn (idAtLower rest 0) ["can"]
              && optIn (idAtLower rest 1) ["find"] then
            .KW "EXISTS" :: normPass fuel (rest.drop 2)
          else if lower = "some" then
            .KW "EXISTS" :: normPass fuel rest
          else if lower = "such" && optIn (idAtLower rest 0) ["that"] then
            .KW "SUCHTHAT" :: normPass fuel (rest.drop 1)
          else if lower = "so" && optIn (idAtLower rest 0) ["that"] then
            .KW "SUCHTHAT" :: normPass fuel (rest.drop 1)
          else if lower = "where" then
            .KW "SUCHTHAT" :: normPass fuel rest
          else if lower = "with" && optIn (idAtLower rest 0) ["the"]
              && optIn (idAtLower rest 1) ["property"] && optIn (idAtLower rest 2) ["that"] then
            .KW "SUCHTHAT" :: normPass fuel (rest.drop 3)
          else if lower = "and" || lower = "plus" || lower = "also" || lower = "but" then
            .KW "AND" :: normPass fuel rest
          else if lower = "or" then
            .KW "OR" :: normPass fuel rest
          else if lower = "either" then
            normPass fuel rest
          else if lower = "unless" then
            .KW "UNLESS" :: normPass fuel rest
          else if lower = "if" && optIn (idAtLower rest 0) ["and"]
              && optIn (idAtLower rest 1) ["only"] && optIn (idAtLower rest 2) ["if"] then
            .KW "IFF" :: normPass fuel (rest.drop 3)
          else if lower = "iff" then
            .KW "IFF" :: normPass fuel rest
          else if lower = "only" && optIn (idAtLower rest 0) ["if"] then
            .KW "ONLYIF" :: normPass fuel (rest.drop 1)
          else if lower = "whenever" then
            .KW "IF" :: normPass fuel rest
          else if lower = "every" && optIn (idAtLower rest 0) ["time"] then
            .KW "IF" :: normPass fuel (rest.drop 1)
          else if lower = "if" then
            .KW "IF" :: normPass fuel rest
          else if lower = "then" then
            .KW "THEN" :: normPass fuel rest
          else if lower = "necessary" && optIn (idAtLower rest 0) ["and"]
              && optIn (idAtLower rest 1) ["sufficient"] then
            .KW "NECSUFF" :: normPass fuel (rest.drop 2)
          else if lower = "sufficient" then
            .KW "SUFFICIENT" :: normPass fuel rest
          else if lower = "necessary" || lower = "required" || lower = "requires"
              || lower = "depends" then
            .KW "NECESSARY" :: normPass fuel rest
          else if lower = "not" then
            .KW "NOT" :: normPass fuel rest
          else
            .ID v :: normPass fuel rest

/-- normalizeEnglishTokens from normalize.ts: comparison-phrase rewriting,
    low-level tokenization, then the keyword pass. -/
def normalizeEnglishTokens (text : String) : List NormalizedToken :=
  let ts := tokenizeEnglish (normalizeComparisons text)
  normPass (ts.length + 1) ts

/-! ### The English clause parser, from src/englishTemplates/parseEnglishExpr.ts

ParseContext is the optional defaultVar; every construction site either
omits the field or sets a definite string, so Option String is a faithful
model.  Functions that can throw return Except String; a null result is
Option.none inside ok.  The phrase dictionary environment (localStorage) is
passed as the storage parameter.
-/

/-- A quantifier header parsed inside a chain (parseEnglishExpr.ts,
    QuantifierHeader). -/
structure QuantifierHeader where
  q : QuantifierKind
  varName : String
  domain : Option Domain
  nextIndex : Nat
deriving DecidableEq, Repr

/-- The result of a clause recognizer: the expression and the tokens it did
    not consume. -/
structure EngRes where
  expr : Expr
  remainingTokens : List NormalizedToken
deriving DecidableEq, Repr

/-- isReservedToken from parseEnglishExpr.ts. -/
def isReservedToken (token : NormalizedToken) : Bool :=
  match token with
  | .KW v =>
      ["FORALL", "EXISTS", "SUCHTHAT", "AND", "OR", "NOT", "IF", "THEN",
       "ONLYIF", "IFF", "UNLESS", "SUFFICIENT", "NECESSARY", "NECSUFF",
       "<", ">", "≤", "≥", "=", "≠", "∈", "∉"].contains v
  | _ => false

/-- token.kind === 'KW' && token.value === v. -/
def isKwVal (t : NormalizedToken) (v : String) : Bool :=
  match t with
  | .KW w => w = v
  | _ => false

/-- tokensToStrings from parseEnglishExpr.ts: project to the values. -/
def tokensToStrings (tokens : List NormalizedToken) : List String :=
  tokens.map NormalizedToken.value

/-- Array.prototype.findIndex with the element index available to the
    predicate; returns the absolute index. -/
def findIdxAuxP (p : Nat → NormalizedToken → Bool) :
    List NormalizedToken → Nat → Option Nat
  | [], _ => none
  | t :: rest, i => if p i t then some i else findIdxAuxP p rest (i + 1)

theorem findIdxAuxP_bounds (p : Nat → NormalizedToken → Bool) :
    ∀ (l : List NormalizedToken) (i j : Nat), findIdxAuxP p l i = some j →
      i ≤ j ∧ j < i + l.length := by
  intro l
  induction l with
  | nil => intro i j h; cases h
  | cons t rest ih =>
      intro i j h
      unfold findIdxAuxP at h
      split at h
      · cases h; simp
      · have := ih (i + 1) j h
        simp only [List.length_cons]
        omega

/-- tokens.findIndex(t => t.kind === 'KW' && t.value === v). -/
def findKwIdx (tokens : List NormalizedToken) (v : String) : Option Nat :=
  findIdxAuxP (fun _ t => isKwVal t v) tokens 0

theorem findKwIdx_lt (tokens : List NormalizedToken) (v : String) (j : Nat)
    (h : findKwIdx tokens v = some j) : j < tokens.length := by
  have := findIdxAuxP_bounds _ tokens 0 j h
  omega

/-- The manual last-comma search of parseQuantifierChain: the greatest index
    holding a KW "," token. -/
def lastIdxAux (p : NormalizedToken → Bool) :
    List NormalizedToken → Nat → Option Nat → Option Nat
  | [], _, acc => acc
  | t :: rest, i, acc => lastIdxAux p rest (i + 1) (if p t then some i else acc)

/-- The last index of a KW "," token. -/
def lastKwCommaIdx (tokens : List NormalizedToken) : Option Nat :=
  lastIdxAux (fun t => isKwVal t ",") tokens 0 none

/-- The while-loop skipping ID tokens whose lowercased value is in ws,
    starting at index i. -/
def skipIdAux (ws : List String) : List NormalizedToken → Nat → Nat
  | [], i => i
  | t :: rest, i =>
      if t.isID && ws.contains (jsToLower t.value) then skipIdAux ws rest (i + 1)
      else i

/-- The while-loop, phrased over the remaining suffix (tokens[i] is the head
    of tokens.drop i). -/
def skipWhileIdIn (tokens : List NormalizedToken) (ws : List String) (i : Nat) : Nat :=
  skipIdAux ws (tokens.drop i) i

theorem skipIdAux_ge (ws : List String) :
    ∀ (l : List NormalizedToken) (i : Nat), i ≤ skipIdAux ws l i := by
  intro l
  induction l with
  | nil => intro i; exact le_refl _
  | cons t rest ih =>
      intro i
      unfold skipIdAux
      split
      · have := ih (i + 1)
        omega
      · exact le_refl _

theorem skipWhileIdIn_ge (tokens : List NormalizedToken) (ws : List String) :
    ∀ i, i ≤ skipWhileIdIn tokens ws i := by
  intro i
  exact skipIdAux_ge ws (tokens.drop i) i

/-- The 1-to-3-word domain-phrase match at index j: the slice must exist in
    full, consist of ID tokens, and its space-joined value must be a known
    domain phrase. -/
def tryDomainLen (tokens : List NormalizedToken) (j len : Nat) : Option Domain :=
  if j + len ≤ tokens.length then
    let slice := (tokens.drop j).take len
    if slice.all NormalizedToken.isID then
      match normalizeDomain (String.intercalate " " (slice.map NormalizedToken.value)) with
      | some sym => some ⟨sym⟩
      | none => none
    else none
  else none

/-- The for-loop over phrase lengths 1..3 (shortest first, first hit
    wins). -/
def domainMatchAt (tokens : List NormalizedToken) (j : Nat) : Option (Domain × Nat) :=
  match tryDomainLen tokens j 1 with
  | some d => some (d, j + 1)
  | none =>
      match tryDomainLen tokens j 2 with
      | some d => some (d, j + 2)
      | none =>
          match tryDomainLen tokens j 3 with
          | some d => some (d, j + 3)
          | none => none

theorem domainMatchAt_ge (tokens : List NormalizedToken) (j : Nat) (d : Domain) (e : Nat)
    (h : domainMatchAt tokens j = some (d, e)) : j < e ∧ e ≤ tokens.length := by
  unfold domainMatchAt at h
  have hb : ∀ len dd, tryDomainLen tokens j len = some dd → j + len ≤ tokens.length := by
    intro len dd hh
    unfold tryDomainLen at hh
    split at hh
    · assumption
    · cases hh
  repeat' split at h
  all_goals (try cases h)
  · have := hb 1 d (by assumption)
    omega
  · have := hb 2 d (by assumption)
    omega
  · have := hb 3 d (by assumption)
    omega

/-- The tail of parseQuantifierHeader after the optional determiner skip:
    the 1-3-word domain-phrase match followed by the mandatory variable
    identifier. -/
def parseQHAfter (tokens : List NormalizedToken) (q : QuantifierKind) (j1 : Nat) :
    Except String (Option QuantifierHeader) :=
  match domainMatchAt tokens j1 with
  | some (d, e) =>
      (match tokens.get? e with
       | some t =>
           if t.isID then .ok (some ⟨q, t.value, some d, e + 1⟩)
           else .error "Missing variable after domain"
       | none => .error "Missing variable after domain")
  | none =>
      (match tokens.get? j1 with
       | some t =>
           if t.isID then .ok (some ⟨q, t.value, none, j1 + 1⟩)
           else .error "Missing variable after domain"
       | none => .error "Missing variable after domain")

theorem parseQHAfter_next (tokens : List NormalizedToken) (q : QuantifierKind)
    (j1 : Nat) (h : QuantifierHeader) (hh : parseQHAfter tokens q j1 = .ok (some h)) :
    j1 < h.nextIndex ∧ h.nextIndex ≤ tokens.length := by
  unfold parseQHAfter at hh
  split at hh
  · rename_i d e hdm
    have hde := domainMatchAt_ge tokens j1 d e hdm
    split at hh
    · rename_i t hg
      split at hh
      · injection hh with hh2
        injection hh2 with hh3
        subst hh3
        have hlt := (List.get?_eq_some.mp hg).1
        simp only
        omega
      · cases hh
    · cases hh
  · split at hh
    · rename_i t hg
      split at hh
      · injection hh with hh2
        injection hh2 with hh3
        subst hh3
        have hlt := (List.get?_eq_some.mp hg).1
        simp only
        omega
      · cases hh
    · cases hh

/-- parseQuantifierHeader from parseEnglishExpr.ts: a FORALL header goes
    straight to the domain match, an EXISTS header first skips optional
    determiners (a, an, the, some). -/
def parseQuantifierHeader (tokens : List NormalizedToken) (i : Nat) :
    Except String (Option QuantifierHeader) :=
  match tokens.get? i with
  | none => .ok none
  | some first =>
      if isKwVal first "FORALL" then parseQHAfter tokens .fa (i + 1)
      else if isKwVal first "EXISTS" then
        parseQHAfter tokens .ex (skipWhileIdIn tokens ["a", "an", "the", "some"] (i + 1))
      else .ok none

theorem parseQuantifierHeader_next (tokens : List NormalizedToken) (i : Nat)
    (h : QuantifierHeader) (hh : parseQuantifierHeader tokens i = .ok (some h)) :
    i < h.nextIndex ∧ h.nextIndex ≤ tokens.length := by
  unfold parseQuantifierHeader at hh
  split at hh
  · cases hh
  · split at hh
    · have := parseQHAfter_next tokens .fa (i + 1) h hh
      omega
    · split at hh
      · have h1 := parseQHAfter_next tokens .ex _ h hh
        have h2 := skipWhileIdIn_ge tokens ["a", "an", "the", "some"] (i + 1)
        omega
      · injection hh with hh2
        cases hh2

/-- The result of extractQuantifierInfo (varName is never null in the
    source: a missing variable falls back to "x"). -/
structure ExtractInfo where
  varName : String
  domain : Option Domain
  remainingTokens : List NormalizedToken
deriving DecidableEq, Repr

/-- The trailing "in domain" attempt of extractQuantifierInfo: on an ID
    token spelling "in" at index i3, try the domain phrases at i3 + 1,
    overriding the earlier domain on success. -/
def eqiTrailIn (tokens : List NormalizedToken) (domain0 : Option Domain) (i3 : Nat) :
    Option Domain × Nat :=
  match tokens.get? i3 with
  | some t =>
      if t.isID && jsToLower t.value = "in" then
        (match domainMatchAt tokens (i3 + 1) with
         | some (d, e) => (some d, e)
         | none => (domain0, i3))
      else (domain0, i3)
  | none => (domain0, i3)

/-- The last steps of extractQuantifierInfo: the "x" variable fallback, the
    optional SUCHTHAT skip and the final slice. -/
def eqiFinish (tokens : List NormalizedToken) (varName0 : Option String)
    (d2 : Option Domain) (i4 : Nat) : ExtractInfo :=
  let i5 :=
    match tokens.get? i4 with
    | some t => if isKwVal t "SUCHTHAT" then i4 + 1 else i4
    | none => i4
  ⟨varName0.getD "x", d2, tokens.drop i5⟩

/-- Stage of extractQuantifierInfo after the variable attempt. -/
def eqiStage3 (tokens : List NormalizedToken) (domain0 : Option Domain)
    (varName0 : Option String) (i3 : Nat) : ExtractInfo :=
  let di := eqiTrailIn tokens domain0 i3
  eqiFinish tokens varName0 di.1 di.2

/-- Stage of extractQuantifierInfo from the variable attempt on. -/
def eqiStage2 (tokens : List NormalizedToken) (domain0 : Option Domain) (i2 : Nat) :
    ExtractInfo :=
  match tokens.get? i2 with
  | some t =>
      if t.isID && !isReservedToken t then eqiStage3 tokens domain0 (some t.value) (i2 + 1)
      else eqiStage3 tokens domain0 none i2
  | none => eqiStage3 tokens domain0 none i2

/-- Stage of extractQuantifierInfo from the domain-phrase attempt on. -/
def eqiStage1 (tokens : List NormalizedToken) (i1 : Nat) : ExtractInfo :=
  match domainMatchAt tokens i1 with
  | some (d, e) => eqiStage2 tokens (some d) (skipWhileIdIn tokens ["a", "an", "the"] e)
  | none => eqiStage2 tokens none i1

/-- extractQuantifierInfo from parseEnglishExpr.ts. -/
def extractQuantifierInfo (tokens : List NormalizedToken) (quantifierType : String) :
    Option ExtractInfo :=
  match tokens with
  | [] => none
  | first :: _ =>
      if isKwVal first quantifierType then
        some (eqiStage1 tokens (skipWhileIdIn tokens ["a", "an", "the"] 1))
      else none

theorem eqiTrailIn_ge (tokens : List NormalizedToken) (domain0 : Option Domain) (i3 : Nat) :
    i3 ≤ (eqiTrailIn tokens domain0 i3).2 := by
  unfold eqiTrailIn
  split
  · split
    · split
      · rename_i d e hdm
        have := domainMatchAt_ge tokens (i3 + 1) d e hdm
        show i3 ≤ e
        omega
      · show i3 ≤ i3
        omega
    · show i3 ≤ i3
      omega
  · show i3 ≤ i3
    omega

theorem eqiFinish_len (tokens : List NormalizedToken) (varName0 : Option String)
    (d2 : Option Domain) (i4 : Nat) :
    (eqiFinish tokens varName0 d2 i4).remainingTokens.length ≤ tokens.length - i4 := by
  unfold eqiFinish
  split
  · split
    · show (tokens.drop (i4 + 1)).length ≤ tokens.length - i4
      simp only [List.length_drop]
      omega
    · show (tokens.drop i4).length ≤ tokens.length - i4
      simp only [List.length_drop]
      omega
  · show (tokens.drop i4).length ≤ tokens.length - i4
    simp only [List.length_drop]
    omega

theorem eqiStage3_len (tokens : List NormalizedToken) (domain0 : Option Domain)
    (varName0 : Option String) (i3 : Nat) :
    (eqiStage3 tokens domain0 varName0 i3).remainingTokens.length ≤ tokens.length - i3 := by
  have h1 := eqiTrailIn_ge tokens domain0 i3
  have h2 := eqiFinish_len tokens varName0 (eqiTrailIn tokens domain0 i3).1
    (eqiTrailIn tokens domain0 i3).2
  show (eqiFinish tokens varName0 (eqiTrailIn tokens domain0 i3).1
    (eqiTrailIn tokens domain0 i3).2).remainingTokens.length ≤ tokens.length - i3
  omega

theorem eqiStage2_len (tokens : List NormalizedToken) (domain0 : Option Domain) (i2 : Nat) :
    (eqiStage2 tokens domain0 i2).remainingTokens.length ≤ tokens.length - i2 := by
  unfold eqiStage2
  split
  · rename_i t ht
    split
    · have := eqiStage3_len tokens domain0 (some t.value) (i2 + 1)
      omega
    · exact eqiStage3_len tokens domain0 none i2
  · exact eqiStage3_len tokens domain0 none i2

theorem eqiStage1_len (tokens : List NormalizedToken) (i1 : Nat) :
    (eqiStage1 tokens i1).remainingTokens.length ≤ tokens.length - i1 := by
  unfold eqiStage1
  split
  · rename_i d e hdm
    have h1 := domainMatchAt_ge tokens i1 d e hdm
    have h2 := skipWhileIdIn_ge tokens ["a", "an", "the"] e
    have h3 := eqiStage2_len tokens (some d) (skipWhileIdIn tokens ["a", "an", "the"] e)
    omega
  · exact eqiStage2_len tokens none i1

theorem extractQuantifierInfo_len (tokens : List NormalizedToken) (qt : String)
    (info : ExtractInfo) (h : extractQuantifierInfo tokens qt = some info) :
    info.remainingTokens.length < tokens.length := by
  unfold extractQuantifierInfo at h
  split at h
  · cases h
  · rename_i first rest
    split at h
    · injection h with h2
      subst h2
      have h1 := skipWhileIdIn_ge (first :: rest) ["a", "an", "the"] 1
      have h2 := eqiStage1_len (first :: rest) (skipWhileIdIn (first :: rest) ["a", "an", "the"] 1)
      simp only [List.length_cons] at h2 ⊢
      omega
    · cases h

/-- parseFloat on a token value, in the exact-natural model: defined exactly
    when the string starts with a digit, as the value of the leading digit
    run.  Identifier-shaped tokens (including Infinity) yield none, matching
    the !isNaN && isFinite guard; fractional literals are floating point and
    outside the model. -/
def jsParseFloatOpt (s : String) : Option Nat :=
  match s.data with
  | c :: _ =>
      if isDigitCh c then
        some ((s.data.takeWhile isDigitCh).foldl (fun a d => a * 10 + (d.toNat - 48)) 0)
      else none
  | [] => none

/-- parseTerm from astFromEnglish.ts (exported for parseEnglishExpr.ts):
    one token parses as a number or else a variable; several tokens are
    joined and tried as a number, else the first token names a variable. -/
def parseTerm (tokens : List String) : Option Term :=
  match tokens with
  | [] => none
  | [token] =>
      (match jsParseFloatOpt token with
       | some n => some (.num n)
       | none => some (.var token))
  | t0 :: _ =>
      let joined := String.join tokens
      (match jsParseFloatOpt joined with
       | some n => some (.num n)
       | none => some (.var t0))

/-- The relation operators recognized by parseRelationExpr. -/
def relOpsE : List String := ["<", ">", "≤", "≥", "=", "≠", "∈", "∉"]

/-- The domain symbols accepted on the right of a membership operator. -/
def domainSymbolsE : List String := ["ℝ", "ℤ", "ℚ", "ℕ", "ℂ"]

/-- token.kind === 'OP' && relOps.includes(token.value). -/
def isRelOpTok (t : NormalizedToken) : Bool :=
  match t with
  | .OP v => relOpsE.contains v
  | _ => false

/-- The scan loop of parseRelationExpr (parseEnglishExpr.ts): for each
    interior index, try a relation-operator token (with the
    membership-domain special case), then the unnormalized "less than"
    phrase; a failing left term continues the scan directly. -/
def parseRelationLoop (fuel : Nat) (tokens : List NormalizedToken) (i : Nat) : Option EngRes :=
  match fuel with
  | 0 => none
  | fuel + 1 =>
    if hi : i < tokens.length - 1 then
      let token := (tokens.get? i).getD (.ID "")
      if isRelOpTok token then
        match parseTerm (tokensToStrings (tokens.take i)) with
        | none => parseRelationLoop fuel tokens (i + 1)
        | some leftTerm =>
            let rightTokens := tokens.drop (i + 1)
            if (token.value = "∈" || token.value = "∉") && rightTokens.length = 1
                && ((rightTokens.get? 0).getD (.ID "")).isID
                && domainSymbolsE.contains (((rightTokens.get? 0).getD (.ID "")).value) then
              some ⟨.relation token.value leftTerm
                      (.var (((rightTokens.get? 0).getD (.ID "")).value)), []⟩
            else
              match parseTerm (tokensToStrings rightTokens) with
              | some rightTerm => some ⟨.relation token.value leftTerm rightTerm, []⟩
              | none =>
                  if token.isID && jsToLower token.value = "less"
                      && optIn (idAtLower tokens (i + 1)) ["than"] then
                    match parseTerm (tokensToStrings (tokens.take i)),
                          parseTerm (tokensToStrings (tokens.drop (i + 2))) with
                    | some l, some r => some ⟨.relation "<" l r, []⟩
                    | _, _ => parseRelationLoop fuel tokens (i + 1)
                  else parseRelationLoop fuel tokens (i + 1)
      else
        if token.isID && jsToLower token.value = "less"
            && optIn (idAtLower tokens (i + 1)) ["than"] then
          match parseTerm (tokensToStrings (tokens.take i)),
                parseTerm (tokensToStrings (tokens.drop (i + 2))) with
          | some l, some r => some ⟨.relation "<" l r, []⟩
          | _, _ => parseRelationLoop fuel tokens (i + 1)
        else parseRelationLoop fuel tokens (i + 1)
    else none

/-- parseRelationExpr from parseEnglishExpr.ts (the context parameter is
    declared and unused in the source). -/
def parseRelationExpr (tokens : List NormalizedToken) (context : Option String) :
    Option EngRes :=
  let _ := context
  if tokens.length < 3 then none
  else parseRelationLoop (tokens.length + 1) tokens 1

/-- The effective default variable context.defaultVar || 'x' (the || guards
    against both a missing and an empty value). -/
def ctxVar (context : Option String) : String :=
  match context with
  | some v => if v = "" then "x" else v
  | none => "x"

/-- parsePredicate from parseEnglishExpr.ts: the "is adjective",
    "has noun" and bare noun-phrase patterns, applied to the context
    default variable (argument built as a plain string). -/
def parsePredicateEng (storage : Option (List (String × String)))
    (tokens : List NormalizedToken) (context : Option String) : Option EngRes :=
  match tokens with
  | [] => none
  | t0 :: rest =>
      let defaultVar := ctxVar context
      if t0.isID && jsToLower t0.value = "is" && rest.length > 0 then
        let adjective := String.intercalate " " (rest.map NormalizedToken.value)
        some ⟨.predicate (getPredicateForPhrase storage adjective) [.str defaultVar], []⟩
      else if t0.isID && jsToLower t0.value = "has" && rest.length > 0 then
        let noun := String.intercalate " " (rest.map NormalizedToken.value)
        some ⟨.predicate ("Has" ++ getPredicateForPhrase storage noun) [.str defaultVar], []⟩
      else
        some ⟨.predicate
                (getPredicateForPhrase storage
                  (String.intercalate " " ((t0 :: rest).map NormalizedToken.value)))
                [.str defaultVar], []⟩

theorem lastIdxAux_bound (p : NormalizedToken → Bool) :
    ∀ (l : List NormalizedToken) (i : Nat) (acc : Option Nat) (j : Nat),
      (∀ a, acc = some a → a < i) → lastIdxAux p l i acc = some j → j < i + l.length := by
  intro l
  induction l with
  | nil =>
      intro i acc j hacc h
      unfold lastIdxAux at h
      have := hacc j h
      omega
  | cons t rest ih =>
      intro i acc j hacc h
      unfold lastIdxAux at h
      have := ih (i + 1) (if p t then some i else acc) j (by
        intro a ha
        split at ha
        · injection ha with ha2; omega
        · have := hacc a ha; omega) h
      simp only [List.length_cons]
      omega

theorem lastKwCommaIdx_lt (tokens : List NormalizedToken) (j : Nat)
    (h : lastKwCommaIdx tokens = some j) : j < tokens.length := by
  have := lastIdxAux_bound (fun t => isKwVal t ",") tokens 0 none j (by intro a ha; cases ha) h
  omega

/-- tokens.findIndex((t, idx) => idx > lo && t.kind === 'KW' && t.value === v). -/
def findKwIdxAfter (tokens : List NormalizedToken) (v : String) (lo : Nat) : Option Nat :=
  findIdxAuxP (fun idx t => decide (lo < idx) && isKwVal t v) tokens 0

theorem findKwIdxAfter_lt (tokens : List NormalizedToken) (v : String) (lo j : Nat)
    (h : findKwIdxAfter tokens v lo = some j) : j < tokens.length := by
  have := findIdxAuxP_bounds _ tokens 0 j h
  omega

/-- The header-collection loop of parseQuantifierChain: skip commas, parse
    headers with parseQuantifierHeader until it yields none (break) or
    throws, and report the resting index. -/
def collectHeaders (fuel : Nat) (headerTokens : List NormalizedToken) (i : Nat)
    (acc : List QuantifierHeader) : Except String (List QuantifierHeader × Nat) :=
  match fuel with
  | 0 => .error "out of fuel"
  | fuel + 1 =>
    if hi : i < headerTokens.length then
      if isKwVal ((headerTokens.get? i).getD (.ID "")) "," then
        collectHeaders fuel headerTokens (i + 1) acc
      else
        match hh : parseQuantifierHeader headerTokens i with
        | .error e => .error e
        | .ok none => .ok (acc, i)
        | .ok (some header) => collectHeaders fuel headerTokens header.nextIndex (acc ++ [header])
    else .ok (acc, i)

mutual

/-- parseClause from parseEnglishExpr.ts: the priority cascade quantifier
    chain, single quantifiers, quantifier-keyword error, relations,
    conditions, conditionals, binary operators, negation, predicate
    fallback, final error. -/
def parseClause (fuel : Nat) (storage : Option (List (String × String)))
    (tokens : List NormalizedToken) (context : Option String) :
    Except String (Option EngRes) :=
  match fuel with
  | 0 => .error "out of fuel"
  | fuel + 1 =>
    if tokens.length = 0 then .ok none
    else
      match parseQuantifierChain fuel storage tokens context with
      | .error e => .error e
      | .ok (some r) => .ok (some r)
      | .ok none =>
          match parseUniversalQuantifier fuel storage tokens context with
          | .error e => .error e
          | .ok (some r) => .ok (some r)
          | .ok none =>
              match parseExistentialQuantifier fuel storage tokens context with
              | .error e => .error e
              | .ok (some r) => .ok (some r)
              | .ok none =>
                  if tokens.any (fun t => isKwVal t "FORALL" || isKwVal t "EXISTS") then
                    .error ("Could not parse quantifier phrase near \"" ++
                      String.intercalate " " (tokensToStrings tokens) ++
                      "\". Make sure each quantified variable has a clear domain and name.")
                  else
                    match parseRelationExpr tokens context with
                    | some r => .ok (some r)
                    | none =>
                        match parseConditionExpr fuel storage tokens context with
                        | .error e => .error e
                        | .ok (some r) => .ok (some r)
                        | .ok none =>
                            match parseConditionalExpr fuel storage tokens context with
                            | .error e => .error e
                            | .ok (some r) => .ok (some r)
                            | .ok none =>
                                match parseBinaryOperators fuel storage tokens context with
                                | .error e => .error e
                                | .ok (some r) => .ok (some r)
                                | .ok none =>
                                    match parseNegation fuel storage tokens context with
                                    | .error e => .error e
                                    | .ok (some r) => .ok (some r)
                                    | .ok none =>
                                        match parsePredicateEng storage tokens context with
                                        | some r => .ok (some r)
                                        | none =>
                                            .error ("Could not parse clause: \"" ++
                                              String.intercalate " " (tokensToStrings tokens) ++
                                              "\". Try expressing it as: a quantifier (FORALL/EXISTS), a relation (<, >, =, etc.), a conditional (IF...THEN), or a predicate.")

/-- parseQuantifierChain from parseEnglishExpr.ts: split headers from body
    at SUCHTHAT or at the last comma; with neither separator, yield null. -/
def parseQuantifierChain (fuel : Nat) (storage : Option (List (String × String)))
    (tokens : List NormalizedToken) (context : Option String) :
    Except String (Option EngRes) :=
  match fuel with
  | 0 => .error "out of fuel"
  | fuel + 1 =>
    if tokens.length = 0 then .ok none
    else
      match hst : findKwIdx tokens "SUCHTHAT" with
      | some k =>
          parseQuantChainSplit fuel storage tokens context k (k + 1)
      | none =>
          match hc : lastKwCommaIdx tokens with
          | some k =>
              parseQuantChainSplit fuel storage tokens context k (k + 1)
          | none => .ok none

/-- The remainder of parseQuantifierChain once headerEnd and bodyStart are
    fixed: collect headers, reject leftover non-comma header tokens, require
    a nonempty body, parse it under the inner context and wrap the
    quantifiers from last to first.  The inner context puts the last
    header's variable BEFORE the spread of the incoming context, so an
    incoming defaultVar overrides it. -/
def parseQuantChainSplit (fuel : Nat) (storage : Option (List (String × String)))
    (tokens : List NormalizedToken) (context : Option String)
    (headerEnd bodyStart : Nat) :
    Except String (Option EngRes) :=
  match fuel with
  | 0 => .error "out of fuel"
  | fuel + 1 =>
    let headerTokens := tokens.take headerEnd
    match collectHeaders (headerTokens.length + 1) headerTokens 0 [] with
    | .error e => .error e
    | .ok (headers, i) =>
        if headers.isEmpty then .ok none
        else if !(headerTokens.drop i).all (fun t => isKwVal t ",") then
          .error ("Could not parse quantifier headers near \"" ++
            String.intercalate " " (tokensToStrings headerTokens) ++
            "\". Make sure each quantifier has the form \"for all ...\" or \"there exists ...\".")
        else
          let bodyTokens := tokens.drop bodyStart
          if bodyTokens.isEmpty then
            .error ("Missing body after " ++ apoStr ++ "such that" ++ apoStr ++ " or comma")
          else
            let innerContext : Option String :=
              match context with
              | some v => some v
              | none => some (((headers.getLast?).map QuantifierHeader.varName).getD "x")
            match parseClause fuel storage bodyTokens innerContext with
            | .error e => .error e
            | .ok none =>
                .error ("Missing or invalid body after quantifiers near \"" ++
                  String.intercalate " " (tokensToStrings bodyTokens) ++ "\".")
            | .ok (some bodyRes) =>
                .ok (some ⟨headers.foldr
                      (fun hq e => Expr.quantifier hq.q hq.varName hq.domain e)
                      bodyRes.expr,
                    bodyRes.remainingTokens⟩)

/-- parseUniversalQuantifier from parseEnglishExpr.ts: extract a FORALL
    header semantically and parse the rest as the body, overriding the
    context default variable with the bound variable. -/
def parseUniversalQuantifier (fuel : Nat) (storage : Option (List (String × String)))
    (tokens : List NormalizedToken) (context : Option String) :
    Except String (Option EngRes) :=
  match fuel with
  | 0 => .error "out of fuel"
  | fuel + 1 =>
    let _ := context
    match hinfo : extractQuantifierInfo tokens "FORALL" with
    | none => .ok none
    | some info =>
        if info.varName = "" then .ok none
        else
          match parseClause fuel storage info.remainingTokens (some info.varName) with
          | .error e => .error e
          | .ok none => .ok none
          | .ok (some b) =>
              .ok (some ⟨.quantifier .fa info.varName info.domain b.expr, b.remainingTokens⟩)

/-- parseExistentialQuantifier from parseEnglishExpr.ts. -/
def parseExistentialQuantifier (fuel : Nat) (storage : Option (List (String × String)))
    (tokens : List NormalizedToken) (context : Option String) :
    Except String (Option EngRes) :=
  match fuel with
  | 0 => .error "out of fuel"
  | fuel + 1 =>
    let _ := context
    match hinfo : extractQuantifierInfo tokens "EXISTS" with
    | none => .ok none
    | some info =>
        if info.varName = "" then .ok none
        else
          match parseClause fuel storage info.remainingTokens (some info.varName) with
          | .error e => .error e
          | .ok none => .ok none
          | .ok (some b) =>
              .ok (some ⟨.quantifier .ex info.varName info.domain b.expr, b.remainingTokens⟩)

/-- parseConditionExpr from parseEnglishExpr.ts: the NECSUFF branch (no
    position guard), then the SUFFICIENT branch (index > 0), then the
    NECESSARY branch; each returns null rather than falling through when a
    side fails to parse. -/
def parseConditionExpr (fuel : Nat) (storage : Option (List (String × String)))
    (tokens : List NormalizedToken) (context : Option String) :
    Except String (Option EngRes) :=
  match fuel with
  | 0 => .error "out of fuel"
  | fuel + 1 =>
    let defaultVar := ctxVar context
    match hns : findKwIdx tokens "NECSUFF" with
    | some k =>
        (match parseClause fuel storage (tokens.take k) context with
         | .error e => .error e
         | .ok lo =>
             match parseClause fuel storage (tokens.drop (k + 1)) context with
             | .error e => .error e
             | .ok ro =>
                 match lo, ro with
                 | some l, some r =>
                     .ok (some ⟨.quantifier .fa defaultVar none (.binary .iff l.expr r.expr), []⟩)
                 | _, _ => .ok none)
    | none =>
        match hs : findKwIdx tokens "SUFFICIENT" with
        | some k =>
            if 0 < k then
              match parseClause fuel storage (tokens.take k) context with
              | .error e => .error e
              | .ok lo =>
                  match parseClause fuel storage (tokens.drop (k + 1)) context with
                  | .error e => .error e
                  | .ok ro =>
                      match lo, ro with
                      | some l, some r =>
                          .ok (some ⟨.quantifier .fa defaultVar none
                                (.binary .impl l.expr r.expr), []⟩)
                      | _, _ => .ok none
            else parseConditionNec fuel storage tokens context
        | none => parseConditionNec fuel storage tokens context

/-- The NECESSARY branch of parseConditionExpr: A NECESSARY B becomes
    forall defaultVar (B -> A), with the operands reversed. -/
def parseConditionNec (fuel : Nat) (storage : Option (List (String × String)))
    (tokens : List NormalizedToken) (context : Option String) :
    Except String (Option EngRes) :=
  match fuel with
  | 0 => .error "out of fuel"
  | fuel + 1 =>
    let defaultVar := ctxVar context
    match hn : findKwIdx tokens "NECESSARY" with
    | some k =>
        if 0 < k then
          match parseClause fuel storage (tokens.take k) context with
          | .error e => .error e
          | .ok lo =>
              match parseClause fuel storage (tokens.drop (k + 1)) context with
              | .error e => .error e
              | .ok ro =>
                  match lo, ro with
                  | some l, some r =>
                      .ok (some ⟨.quantifier .fa defaultVar none
                            (.binary .impl r.expr l.expr), []⟩)
                  | _, _ => .ok none
        else .ok none
    | none => .ok none

/-- parseConditionalExpr from parseEnglishExpr.ts, first attempt: the IFF
    split (interior index), falling through to the ONLYIF attempt when the
    guard or either side fails. -/
def parseConditionalExpr (fuel : Nat) (storage : Option (List (String × String)))
    (tokens : List NormalizedToken) (context : Option String) :
    Except String (Option EngRes) :=
  match fuel with
  | 0 => .error "out of fuel"
  | fuel + 1 =>
    match hi : findKwIdx tokens "IFF" with
    | some k =>
        if 0 < k ∧ k < tokens.length - 1 then
          match parseClause fuel storage (tokens.take k) context with
          | .error e => .error e
          | .ok lo =>
              match parseClause fuel storage (tokens.drop (k + 1)) context with
              | .error e => .error e
              | .ok ro =>
                  match lo, ro with
                  | some l, some r => .ok (some ⟨.binary .iff l.expr r.expr, []⟩)
                  | _, _ => parseCondOnlyIf fuel storage tokens context
        else parseCondOnlyIf fuel storage tokens context
    | none => parseCondOnlyIf fuel storage tokens context

/-- The ONLYIF attempt of parseConditionalExpr: A ONLYIF B becomes A -> B. -/
def parseCondOnlyIf (fuel : Nat) (storage : Option (List (String × String)))
    (tokens : List NormalizedToken) (context : Option String) :
    Except String (Option EngRes) :=
  match fuel with
  | 0 => .error "out of fuel"
  | fuel + 1 =>
    match ho : findKwIdx tokens "ONLYIF" with
    | some k =>
        if 0 < k ∧ k < tokens.length - 1 then
          match parseClause fuel storage (tokens.take k) context with
          | .error e => .error e
          | .ok lo =>
              match parseClause fuel storage (tokens.drop (k + 1)) context with
              | .error e => .error e
              | .ok ro =>
                  match lo, ro with
                  | some l, some r => .ok (some ⟨.binary .impl l.expr r.expr, []⟩)
                  | _, _ => parseCondIfThen fuel storage tokens context
        else parseCondIfThen fuel storage tokens context
    | none => parseCondIfThen fuel storage tokens context

/-- The IF...THEN attempt of parseConditionalExpr: IF A THEN B becomes
    A -> B (the THEN is searched strictly after the IF). -/
def parseCondIfThen (fuel : Nat) (storage : Option (List (String × String)))
    (tokens : List NormalizedToken) (context : Option String) :
    Except String (Option EngRes) :=
  match fuel with
  | 0 => .error "out of fuel"
  | fuel + 1 =>
    match hif : findKwIdx tokens "IF" with
    | some fi =>
        (match hth : findKwIdxAfter tokens "THEN" fi with
         | some ti =>
             match parseClause fuel storage ((tokens.take ti).drop (fi + 1)) context with
             | .error e => .error e
             | .ok lo =>
                 match parseClause fuel storage (tokens.drop (ti + 1)) context with
                 | .error e => .error e
                 | .ok ro =>
                     match lo, ro with
                     | some l, some r => .ok (some ⟨.binary .impl l.expr r.expr, []⟩)
                     | _, _ => parseCondIfRev fuel storage tokens context
         | none => parseCondIfRev fuel storage tokens context)
    | none => parseCondIfRev fuel storage tokens context

/-- The IF-without-THEN attempt of parseConditionalExpr: A IF B becomes
    B -> A (reversed), only when no THEN occurs anywhere. -/
def parseCondIfRev (fuel : Nat) (storage : Option (List (String × String)))
    (tokens : List NormalizedToken) (context : Option String) :
    Except String (Option EngRes) :=
  match fuel with
  | 0 => .error "out of fuel"
  | fuel + 1 =>
    match hif : findKwIdx tokens "IF" with
    | some fi =>
        if 0 < fi then
          match findKwIdx tokens "THEN" with
          | some _ => .ok none
          | none =>
              match parseClause fuel storage (tokens.take fi) context with
              | .error e => .error e
              | .ok lo =>
                  match parseClause fuel storage (tokens.drop (fi + 1)) context with
                  | .error e => .error e
                  | .ok ro =>
                      match lo, ro with
                      | some l, some r => .ok (some ⟨.binary .impl r.expr l.expr, []⟩)
                      | _, _ => .ok none
        else .ok none
    | none => .ok none

/-- parseBinaryOperators from parseEnglishExpr.ts, first attempt: the OR
    split at an interior index, falling through to the AND attempt. -/
def parseBinaryOperators (fuel : Nat) (storage : Option (List (String × String)))
    (tokens : List NormalizedToken) (context : Option String) :
    Except String (Option EngRes) :=
  match fuel with
  | 0 => .error "out of fuel"
  | fuel + 1 =>
    match hor : findKwIdx tokens "OR" with
    | some k =>
        if 0 < k ∧ k < tokens.length - 1 then
          match parseClause fuel storage (tokens.take k) context with
          | .error e => .error e
          | .ok lo =>
              match parseClause fuel storage (tokens.drop (k + 1)) context with
              | .error e => .error e
              | .ok ro =>
                  match lo, ro with
                  | some l, some r => .ok (some ⟨.binary .or l.expr r.expr, []⟩)
                  | _, _ => parseBinaryAnd fuel storage tokens context
        else parseBinaryAnd fuel storage tokens context
    | none => parseBinaryAnd fuel storage tokens context

/-- The AND attempt of parseBinaryOperators. -/
def parseBinaryAnd (fuel : Nat) (storage : Option (List (String × String)))
    (tokens : List NormalizedToken) (context : Option String) :
    Except String (Option EngRes) :=
  match fuel with
  | 0 => .error "out of fuel"
  | fuel + 1 =>
    match ha : findKwIdx tokens "AND" with
    | some k =>
        if 0 < k ∧ k < tokens.length - 1 then
          match parseClause fuel storage (tokens.take k) context with
          | .error e => .error e
          | .ok lo =>
              match parseClause fuel storage (tokens.drop (k + 1)) context with
              | .error e => .error e
              | .ok ro =>
                  match lo, ro with
                  | some l, some r => .ok (some ⟨.binary .and l.expr r.expr, []⟩)
                  | _, _ => .ok none
        else .ok none
    | none => .ok none

/-- parseNegation from parseEnglishExpr.ts: a leading KW NOT negates the
    clause parsed from the rest. -/
def parseNegation (fuel : Nat) (storage : Option (List (String × String)))
    (tokens : List NormalizedToken) (context : Option String) :
    Except String (Option EngRes) :=
  match fuel with
  | 0 => .error "out of fuel"
  | fuel + 1 =>
    match tokens with
    | [] => .ok none
    | t0 :: rest =>
        if isKwVal t0 "NOT" then
          match parseClause fuel storage rest context with
          | .error e => .error e
          | .ok none => .ok none
          | .ok (some b) => .ok (some ⟨.negation b.expr, b.remainingTokens⟩)
        else .ok none

end

/-- DEFAULT_DICTIONARY from astFromEnglish.ts. -/
def DEFAULT_DICTIONARY : List (String × String) :=
  [("computer program", "Program"), ("program", "Program"), ("student", "Student"),
   ("bug", "Bug"), ("executable", "Executable")]

/-- The mutable module state of astFromEnglish.ts, together with the browser
    localStorage read by dataset.ts (none models an absent or throwing
    storage). -/
structure EngState where
  phraseDictionary : List (String × String)
  storage : Option (List (String × String))
deriving Repr

/-- The initial module state: phraseDictionary = { ...DEFAULT_DICTIONARY }. -/
def initialEngState (storage : Option (List (String × String))) : EngState :=
  ⟨mergeObj DEFAULT_DICTIONARY [], storage⟩

/-- setPhraseDictionary from astFromEnglish.ts: replace the module-global
    dictionary by the defaults spread-merged with the argument. -/
def setPhraseDictionary (dict : List (String × String)) (st : EngState) : EngState :=
  { st with phraseDictionary := mergeObj DEFAULT_DICTIONARY dict }

/-- englishToAst from astFromEnglish.ts: optionally replace the module
    dictionary, then normalize and run parseClause with defaultVar "x";
    thrown errors propagate (the catch only re-throws them).  The returned
    state exposes the side effect on the module dictionary. -/
def englishToAst (englishText : String) (dictionary : Option (List (String × String)))
    (st : EngState) : Except String (Option Expr) × EngState :=
  let st2 := match dictionary with
    | some d => setPhraseDictionary d st
    | none => st
  let tokens := normalizeEnglishTokens englishText
  if tokens.length = 0 then (.ok none, st2)
  else
    match parseClause ((tokens.length + 1) * 16) st2.storage tokens (some "x") with
    | .error e => (.error e, st2)
    | .ok none => (.ok none, st2)
    | .ok (some r) => (.ok (some r.expr), st2)

/-! ### Claim theorems -/

/-- C5: conjunction binds tighter than disjunction; the mixed chain parses
    as (P(x) and Q(x)) or R(x), with the or node on top and the and node as
    its left child. -/
theorem C5_and_binds_tighter_than_or :
    (LogicParser.parse "P(x) ∧ Q(x) ∨ R(x)").map Prod.fst =
      .ok (.binary .or
        (.binary .and (.predicate "P" [.str "x"]) (.predicate "Q" [.str "x"]))
        (.predicate "R" [.str "x"])) := by
  have h1 : tokenize "P(x) ∧ Q(x) ∨ R(x)" = .ok
      [⟨.var, "P", 1, 1⟩, ⟨.lparen, "(", 1, 2⟩, ⟨.var, "x", 1, 3⟩, ⟨.rparen, ")", 1, 4⟩,
       ⟨.and, "∧", 1, 6⟩, ⟨.var, "Q", 1, 8⟩, ⟨.lparen, "(", 1, 9⟩, ⟨.var, "x", 1, 10⟩,
       ⟨.rparen, ")", 1, 11⟩, ⟨.or, "∨", 1, 13⟩, ⟨.var, "R", 1, 15⟩, ⟨.lparen, "(", 1, 16⟩,
       ⟨.var, "x", 1, 17⟩, ⟨.rparen, ")", 1, 18⟩, ⟨.eof, "", 1, 19⟩] := by rfl
  unfold LogicParser.parse
  rw [h1]
  rfl

/-- C7: of the ASCII operator aliases only the relation spellings are
    value-normalized to Unicode: le, ge and ne tokens carry values of the
    canonical symbols, while forall, exists, negation, conjunction,
    disjunction, implication and biconditional aliases keep their ASCII
    spelling in the value field (the token type is canonical throughout). -/
theorem C7_alias_token_values :
    tokenize "forall" = .ok [⟨.forallQ, "forall", 1, 1⟩, ⟨.eof, "", 1, 7⟩] ∧
    tokenize "exists" = .ok [⟨.existsQ, "exists", 1, 1⟩, ⟨.eof, "", 1, 7⟩] ∧
    tokenize "!" = .ok [⟨.not, "!", 1, 1⟩, ⟨.eof, "", 1, 2⟩] ∧
    tokenize "~" = .ok [⟨.not, "~", 1, 1⟩, ⟨.eof, "", 1, 2⟩] ∧
    tokenize "&" = .ok [⟨.and, "&", 1, 1⟩, ⟨.eof, "", 1, 2⟩] ∧
    tokenize "|" = .ok [⟨.or, "|", 1, 1⟩, ⟨.eof, "", 1, 2⟩] ∧
    tokenize "->" = .ok [⟨.impl, "->", 1, 1⟩, ⟨.eof, "", 1, 3⟩] ∧
    tokenize "<->" = .ok [⟨.iff, "<->", 1, 1⟩, ⟨.eof, "", 1, 4⟩] ∧
    tokenize "<=" = .ok [⟨.le, "≤", 1, 1⟩, ⟨.eof, "", 1, 3⟩] ∧
    tokenize ">=" = .ok [⟨.ge, "≥", 1, 1⟩, ⟨.eof, "", 1, 3⟩] ∧
    tokenize "!=" = .ok [⟨.ne, "≠", 1, 1⟩, ⟨.eof, "", 1, 3⟩] :=
  ⟨rfl, rfl, rfl, rfl, rfl, rfl, rfl, rfl, rfl, rfl, rfl⟩

/-- C7 counterexample: the implication alias emits a token whose value is
    the ASCII spelling itself, not the Unicode canonical arrow. -/
theorem C7_alias_counterexample :
    tokenize "->" = .ok [⟨.impl, "->", 1, 1⟩, ⟨.eof, "", 1, 3⟩] ∧ "->" ≠ "→" :=
  ⟨rfl, by decide⟩

/-- C2: on the exact spec input the parser throws instead of succeeding:
    the shortest-first domain loop reads the single word real as the domain,
    takes numbers as the bound variable, and the leftover x makes the header
    loop fail. -/
theorem C2_quantifier_chain_error :
    (englishToAst "for all real numbers x, there exists a real number y such that x < y"
      none (initialEngState none)).1 =
    .error ("Could not parse quantifier headers near \"FORALL real numbers x , EXISTS a real number y\". Make sure each quantifier has the form \"for all ...\" or \"there exists ...\".") := by
  rfl

/-- C3: the necessity sentence does not yield a bare impl node: the
    NECESSARY branch wraps the (correctly reversed) implication in a
    universal quantifier over the default variable, and the operands are
    predicates read from the raw fragments. -/
theorem C3_necessary_not_bare_impl :
    (englishToAst "p is necessary for q" none (initialEngState none)).1 =
    .ok (some (.quantifier .fa "x" none
      (.binary .impl (.predicate "ForQ" [.str "x"]) (.predicate "PIs" [.str "x"])))) := by
  rfl

/-- C4: the quantifier-chain body is parsed with the callers defaultVar,
    not the innermost quantifier variable: englishToAst always passes
    defaultVar x, so the body predicate of a chain over n is applied to x. -/
theorem C4_chain_body_uses_caller_var :
    (englishToAst "for all integers n, is even" none (initialEngState none)).1 =
    .ok (some (.quantifier .fa "n" (some ⟨"ℤ"⟩) (.predicate "Even" [.str "x"]))) := by
  rfl

/-- C9: passing a dictionary replaces the module dictionary (defaults
    spread-merged with the entries) and the replacement persists in the
    module state; a call without a dictionary leaves the state untouched;
    but the parse result never depends on the dictionary or on the prior
    state, only on the text and the storage. -/
theorem C9_dictionary_side_effect :
    (∀ text dict st, (englishToAst text (some dict) st).2 =
        { st with phraseDictionary := mergeObj DEFAULT_DICTIONARY dict }) ∧
    (∀ text st, (englishToAst text none st).2 = st) ∧
    (∀ text d1 d2 st1 st2, st1.storage = st2.storage →
        (englishToAst text d1 st1).1 = (englishToAst text d2 st2).1) := by
  have hsnd : ∀ text dictionary st, (englishToAst text dictionary st).2 =
      (match dictionary with | some d => setPhraseDictionary d st | none => st) := by
    intro text dictionary st
    unfold englishToAst
    dsimp only
    split
    · rfl
    · split <;> rfl
  refine ⟨?_, ?_, ?_⟩
  · intro text dict st
    exact hsnd text (some dict) st
  · intro text st
    exact hsnd text none st
  · intro text d1 d2 st1 st2 hst
    unfold englishToAst
    dsimp only
    have e1 : (match d1 with
        | some d => setPhraseDictionary d st1
        | none => st1 : EngState).storage = st1.storage := by cases d1 <;> rfl
    have e2 : (match d2 with
        | some d => setPhraseDictionary d st2
        | none => st2 : EngState).storage = st2.storage := by cases d2 <;> rfl
    rw [e1, e2, hst]
    split
    · rfl
    · cases hp : parseClause (((normalizeEnglishTokens text).length + 1) * 16)
          st2.storage (normalizeEnglishTokens text) (some "x") with
      | error e => rfl
      | ok o => cases o <;> rfl

/-- C9 counterexample: an earlier call installing a dictionary entry for
    tall persists in the module state, yet a later call without a dictionary
    still resolves the predicate from the defaults, not from the installed
    entry. -/
theorem C9_dictionary_counterexample :
    ((englishToAst "is tall" (some [("tall", "Giant")]) (initialEngState none)).2.phraseDictionary
      = mergeObj DEFAULT_DICTIONARY [("tall", "Giant")]) ∧
    ((englishToAst "is tall" none
        (englishToAst "is tall" (some [("tall", "Giant")]) (initialEngState none)).2).1
      = .ok (some (.predicate "Tall" [.str "x"]))) := by
  exact ⟨by rfl, by rfl⟩

/-- C9 witness: the result-independence part applied at a concrete text,
    dictionary and state pair. -/
theorem C9_dictionary_witness :
    ((initialEngState none).storage = (initialEngState none).storage) ∧
    (englishToAst "is tall" (some [("tall", "Giant")]) (initialEngState none)).1 =
      (englishToAst "is tall" none (initialEngState none)).1 :=
  ⟨rfl, C9_dictionary_side_effect.2.2 "is tall" (some [("tall", "Giant")]) none
    (initialEngState none) (initialEngState none) rfl⟩

/-! ### C8 support: a specification-level collector of unbound occurrences -/

mutual

/-- The unbound-variable messages a term contributes, one per occurrence
    site in depth-first order (the validator semantics restated). -/
def specUnboundTerm (scope : List String) : Term → List String
  | .var name => if name ∈ scope then [] else ["Unbound variable " ++ name]
  | .num _ => []
  | .const _ => []
  | .func _ args => specUnboundTermList scope args
  | .paren t => specUnboundTerm scope t

/-- The messages of a term list, in order. -/
def specUnboundTermList (scope : List String) : List Term → List String
  | [] => []
  | t :: rest => specUnboundTerm scope t ++ specUnboundTermList scope rest

end

/-- The messages of a predicate argument (a plain string contributes
    nothing). -/
def specUnboundArg (scope : List String) : PredArg → List String
  | .term t => specUnboundTerm scope t
  | .str _ => []

/-- The messages of an argument list, in order. -/
def specUnboundArgList (scope : List String) : List PredArg → List String
  | [] => []
  | a :: rest => specUnboundArg scope a ++ specUnboundArgList scope rest

/-- The unbound-variable messages of an expression under a scope, one entry
    per unbound occurrence, in walk order, without deduplication. -/
def specUnboundExpr : Expr → List String → List String
  | .quantifier _ v _ body, scope =>
      specUnboundExpr body (if v ∈ scope then scope else scope ++ [v])
  | .negation body, scope => specUnboundExpr body scope
  | .binary _ left right, scope => specUnboundExpr left scope ++ specUnboundExpr right scope
  | .relation _ left right, scope => specUnboundTerm scope left ++ specUnboundTerm scope right
  | .predicate _ args, scope => specUnboundArgList scope args

mutual

theorem checkTermV_spec : ∀ (t : Term) (scope errors : List String),
    checkTermV t scope errors = errors ++ specUnboundTerm scope t
  | .var n, scope, errors => by
      unfold checkTermV specUnboundTerm
      split <;> simp
  | .num _, _, errors => by
      unfold checkTermV specUnboundTerm
      simp
  | .const _, _, errors => by
      unfold checkTermV specUnboundTerm
      simp
  | .func n args, scope, errors => by
      unfold checkTermV specUnboundTerm
      exact checkTermListV_spec args scope errors
  | .paren t, scope, errors => by
      unfold checkTermV specUnboundTerm
      exact checkTermV_spec t scope errors

theorem checkTermListV_spec : ∀ (l : List Term) (scope errors : List String),
    checkTermListV l scope errors = errors ++ specUnboundTermList scope l
  | [], _, errors => by
      unfold checkTermListV specUnboundTermList
      simp
  | t :: rest, scope, errors => by
      unfold checkTermListV specUnboundTermList
      rw [checkTermV_spec t scope errors, checkTermListV_spec rest scope (errors ++ specUnboundTerm scope t)]
      simp

end

theorem checkArgV_spec (a : PredArg) (scope errors : List String) :
    checkArgV a scope errors = errors ++ specUnboundArg scope a := by
  cases a with
  | term t =>
      unfold checkArgV specUnboundArg
      exact checkTermV_spec t scope errors
  | str s =>
      unfold checkArgV specUnboundArg
      simp

theorem checkArgListV_spec : ∀ (l : List PredArg) (scope errors : List String),
    checkArgListV l scope errors = errors ++ specUnboundArgList scope l
  | [], _, errors => by
      unfold checkArgListV specUnboundArgList
      simp
  | a :: rest, scope, errors => by
      unfold checkArgListV specUnboundArgList
      rw [checkArgV_spec a scope errors,
          checkArgListV_spec rest scope (errors ++ specUnboundArg scope a)]
      simp

theorem walkExprV_fst : ∀ (e : Expr) (scope : List String)
    (acc : List String × List String),
    (walkExprV e scope acc).1 = acc.1 ++ specUnboundExpr e scope
  | .quantifier q v d body, scope, (errors, inScope) => by
      unfold walkExprV specUnboundExpr
      exact walkExprV_fst body _ _
  | .negation body, scope, acc => by
      unfold walkExprV specUnboundExpr
      exact walkExprV_fst body scope acc
  | .binary op l r, scope, acc => by
      unfold walkExprV specUnboundExpr
      rw [walkExprV_fst r scope (walkExprV l scope acc), walkExprV_fst l scope acc]
      simp
  | .relation op l r, scope, (errors, inScope) => by
      unfold walkExprV specUnboundExpr
      rw [checkTermV_spec r scope (checkTermV l scope errors), checkTermV_spec l scope errors]
      simp
  | .predicate n args, scope, (errors, inScope) => by
      unfold walkExprV specUnboundExpr
      exact checkArgListV_spec args scope errors

/-- C8: validating x < y with no quantifiers reports exactly the two
    unbound occurrences in order; the doubly quantified form validates
    cleanly with both variables recorded in scope; and in general the
    errors list is exactly the per-occurrence unbound collector (one entry
    per occurrence site, no deduplication), with ok its emptiness test. -/
theorem C8_validate_unbound_occurrences :
    ((match LogicParser.parse "x < y" with
      | .ok (e, _) => some (validateAst e)
      | .error _ => none) =
        some ⟨false, ["Unbound variable x", "Unbound variable y"], []⟩) ∧
    ((match LogicParser.parse "∀x ( ∃y ( x < y ) )" with
      | .ok (e, _) => some (validateAst e)
      | .error _ => none) = some ⟨true, [], ["x", "y"]⟩) ∧
    (∀ ast : Expr, (validateAst ast).errors = specUnboundExpr ast []) ∧
    (∀ ast : Expr, (validateAst ast).ok = decide ((specUnboundExpr ast []).length = 0)) := by
  have t1 : tokenize "x < y" = .ok
      [⟨.var, "x", 1, 1⟩, ⟨.lt, "<", 1, 3⟩, ⟨.var, "y", 1, 5⟩, ⟨.eof, "", 1, 6⟩] := by rfl
  have t2 : tokenize "∀x ( ∃y ( x < y ) )" = .ok
      [⟨.forallQ, "∀", 1, 1⟩, ⟨.var, "x", 1, 2⟩, ⟨.lparen, "(", 1, 4⟩,
       ⟨.existsQ, "∃", 1, 6⟩, ⟨.var, "y", 1, 7⟩, ⟨.lparen, "(", 1, 9⟩,
       ⟨.var, "x", 1, 11⟩, ⟨.lt, "<", 1, 13⟩, ⟨.var, "y", 1, 15⟩,
       ⟨.rparen, ")", 1, 17⟩, ⟨.rparen, ")", 1, 19⟩, ⟨.eof, "", 1, 20⟩] := by rfl
  refine ⟨?_, ?_, ?_, ?_⟩
  · unfold LogicParser.parse
    rw [t1]
    rfl
  · unfold LogicParser.parse
    rw [t2]
    rfl
  · intro ast
    unfold validateAst
    dsimp only
    rw [walkExprV_fst ast [] ([], [])]
    simp
  · intro ast
    unfold validateAst
    dsimp only
    rw [walkExprV_fst ast [] ([], [])]
    simp

/-! ### C6 support: the operator loops accumulate on the left -/

theorem iffLoop_foldl : ∀ (fuel : Nat) (acc : Expr) (ts : List Token)
    (r : LogicParser.PRes ts.length),
    LogicParser.iffLoop fuel acc ts = .ok r →
    ∃ es : List Expr, r.e = es.foldl (fun a b => Expr.binary BinOp.iff a b) acc := by
  intro fuel
  induction fuel with
  | zero =>
      intro acc ts r h
      unfold LogicParser.iffLoop at h
      simp at h
  | succ n ih =>
      intro acc ts r h
      unfold LogicParser.iffLoop at h
      split at h
      · rename_i hi
        split at h
        · rename_i hia hib
          simp [LogicParser.curTok] at hib
        · rename_i head rest hi2 hts2
          cases hro : LogicParser.parseImp n rest with
          | error e =>
              rw [hro] at h
              simp only [bind, Except.bind] at h
              cases h
          | ok right =>
              rw [hro] at h
              simp only [bind, Except.bind] at h
              cases hlp : LogicParser.iffLoop n (.binary .iff acc right.e) right.rest with
              | error e =>
                  rw [hlp] at h
                  cases h
              | ok r2 =>
                  rw [hlp] at h
                  obtain ⟨es2, he⟩ := ih (.binary .iff acc right.e) right.rest r2 hlp
                  simp only [pure, Except.pure, Except.ok.injEq] at h
                  obtain ⟨rfl⟩ := h
                  exact ⟨right.e :: es2, by simpa using he⟩
      · simp only [Except.ok.injEq] at h
        obtain ⟨rfl⟩ := h
        exact ⟨[], rfl⟩

theorem impLoop_foldl : ∀ (fuel : Nat) (acc : Expr) (ts : List Token)
    (r : LogicParser.PRes ts.length),
    LogicParser.impLoop fuel acc ts = .ok r →
    ∃ es : List Expr, r.e = es.foldl (fun a b => Expr.binary BinOp.impl a b) acc := by
  intro fuel
  induction fuel with
  | zero =>
      intro acc ts r h
      unfold LogicParser.impLoop at h
      simp at h
  | succ n ih =>
      intro acc ts r h
      unfold LogicParser.impLoop at h
      split at h
      · rename_i hi
        split at h
        · rename_i hia hib
          simp [LogicParser.curTok] at hib
        · rename_i head rest hi2 hts2
          cases hro : LogicParser.parseOr n rest with
          | error e =>
              rw [hro] at h
              simp only [bind, Except.bind] at h
              cases h
          | ok right =>
              rw [hro] at h
              simp only [bind, Except.bind] at h
              cases hlp : LogicParser.impLoop n (.binary .impl acc right.e) right.rest with
              | error e =>
                  rw [hlp] at h
                  cases h
              | ok r2 =>
                  rw [hlp] at h
                  obtain ⟨es2, he⟩ := ih (.binary .impl acc right.e) right.rest r2 hlp
                  simp only [pure, Except.pure, Except.ok.injEq] at h
                  obtain ⟨rfl⟩ := h
                  exact ⟨right.e :: es2, by simpa using he⟩
      · simp only [Except.ok.injEq] at h
        obtain ⟨rfl⟩ := h
        exact ⟨[], rfl⟩

theorem orLoop_foldl : ∀ (fuel : Nat) (acc : Expr) (ts : List Token)
    (r : LogicParser.PRes ts.length),
    LogicParser.orLoop fuel acc ts = .ok r →
    ∃ es : List Expr, r.e = es.foldl (fun a b => Expr.binary BinOp.or a b) acc := by
  intro fuel
  induction fuel with
  | zero =>
      intro acc ts r h
      unfold LogicParser.orLoop at h
      simp at h
  | succ n ih =>
      intro acc ts r h
      unfold LogicParser.orLoop at h
      split at h
      · rename_i hi
        split at h
        · rename_i hia hib
          simp [LogicParser.curTok] at hib
        · rename_i head rest hi2 hts2
          cases hro : LogicParser.parseAnd n rest with
          | error e =>
              rw [hro] at h
              simp only [bind, Except.bind] at h
              cases h
          | ok right =>
              rw [hro] at h
              simp only [bind, Except.bind] at h
              cases hlp : LogicParser.orLoop n (.binary .or acc right.e) right.rest with
              | error e =>
                  rw [hlp] at h
                  cases h
              | ok r2 =>
                  rw [hlp] at h
                  obtain ⟨es2, he⟩ := ih (.binary .or acc right.e) right.rest r2 hlp
                  simp only [pure, Except.pure, Except.ok.injEq] at h
                  obtain ⟨rfl⟩ := h
                  exact ⟨right.e :: es2, by simpa using he⟩
      · simp only [Except.ok.injEq] at h
        obtain ⟨rfl⟩ := h
        exact ⟨[], rfl⟩

theorem andLoop_foldl : ∀ (fuel : Nat) (acc : Expr) (ts : List Token)
    (r : LogicParser.PRes ts.length),
    LogicParser.andLoop fuel acc ts = .ok r →
    ∃ es : List Expr, r.e = es.foldl (fun a b => Expr.binary BinOp.and a b) acc := by
  intro fuel
  induction fuel with
  | zero =>
      intro acc ts r h
      unfold LogicParser.andLoop at h
      simp at h
  | succ n ih =>
      intro acc ts r h
      unfold LogicParser.andLoop at h
      split at h
      · rename_i hi
        split at h
        · rename_i hia hib
          simp [LogicParser.curTok] at hib
        · rename_i head rest hi2 hts2
          cases hro : LogicParser.parseNot n rest with
          | error e =>
              rw [hro] at h
              simp only [bind, Except.bind] at h
              cases h
          | ok right =>
              rw [hro] at h
              simp only [bind, Except.bind] at h
              cases hlp : LogicParser.andLoop n (.binary .and acc right.e) right.rest with
              | error e =>
                  rw [hlp] at h
                  cases h
              | ok r2 =>
                  rw [hlp] at h
                  obtain ⟨es2, he⟩ := ih (.binary .and acc right.e) right.rest r2 hlp
                  simp only [pure, Except.pure, Except.ok.injEq] at h
                  obtain ⟨rfl⟩ := h
                  exact ⟨right.e :: es2, by simpa using he⟩
      · simp only [Except.ok.injEq] at h
        obtain ⟨rfl⟩ := h
        exact ⟨[], rfl⟩

/-- C6: all four binary operators accumulate iteratively on the left: every
    successful loop run returns a left fold of its iterates over the initial
    accumulator, so A op B op C parses as (A op B) op C; concretely the
    mixed chain parses as an iff whose left child is the impl P -> Q. -/
theorem C6_left_associative :
    ((LogicParser.parse "P(x) → Q(x) ↔ R(x)").map Prod.fst =
      .ok (.binary .iff
        (.binary .impl (.predicate "P" [.str "x"]) (.predicate "Q" [.str "x"]))
        (.predicate "R" [.str "x"]))) ∧
    (∀ (fuel : Nat) (acc : Expr) (ts : List Token) (r : LogicParser.PRes ts.length),
      LogicParser.iffLoop fuel acc ts = .ok r →
      ∃ es : List Expr, r.e = es.foldl (fun a b => Expr.binary BinOp.iff a b) acc) ∧
    (∀ (fuel : Nat) (acc : Expr) (ts : List Token) (r : LogicParser.PRes ts.length),
      LogicParser.impLoop fuel acc ts = .ok r →
      ∃ es : List Expr, r.e = es.foldl (fun a b => Expr.binary BinOp.impl a b) acc) ∧
    (∀ (fuel : Nat) (acc : Expr) (ts : List Token) (r : LogicParser.PRes ts.length),
      LogicParser.orLoop fuel acc ts = .ok r →
      ∃ es : List Expr, r.e = es.foldl (fun a b => Expr.binary BinOp.or a b) acc) ∧
    (∀ (fuel : Nat) (acc : Expr) (ts : List Token) (r : LogicParser.PRes ts.length),
      LogicParser.andLoop fuel acc ts = .ok r →
      ∃ es : List Expr, r.e = es.foldl (fun a b => Expr.binary BinOp.and a b) acc) := by
  refine ⟨?_, iffLoop_foldl, impLoop_foldl, orLoop_foldl, andLoop_foldl⟩
  have h1 : tokenize "P(x) → Q(x) ↔ R(x)" = .ok
      [⟨.var, "P", 1, 1⟩, ⟨.lparen, "(", 1, 2⟩, ⟨.var, "x", 1, 3⟩, ⟨.rparen, ")", 1, 4⟩,
       ⟨.impl, "→", 1, 6⟩, ⟨.var, "Q", 1, 8⟩, ⟨.lparen, "(", 1, 9⟩, ⟨.var, "x", 1, 10⟩,
       ⟨.rparen, ")", 1, 11⟩, ⟨.iff, "↔", 1, 13⟩, ⟨.var, "R", 1, 15⟩, ⟨.lparen, "(", 1, 16⟩,
       ⟨.var, "x", 1, 17⟩, ⟨.rparen, ")", 1, 18⟩, ⟨.eof, "", 1, 19⟩] := by rfl
  unfold LogicParser.parse
  rw [h1]
  rfl

/-- C6 witness: the andLoop clause applied to a concrete loop run that
    stops immediately at eof. -/
theorem C6_left_associative_witness :
    ∃ es : List Expr,
      (Expr.predicate "P" [.str "x"]) =
        es.foldl (fun a b => Expr.binary BinOp.and a b) (Expr.predicate "P" [.str "x"]) :=
  C6_left_associative.2.2.2.2 1 (Expr.predicate "P" [.str "x"]) [⟨.eof, "", 1, 1⟩]
    ⟨Expr.predicate "P" [.str "x"], [⟨.eof, "", 1, 1⟩], Nat.le_refl _⟩ (by rfl)

/-! ### C10 support: lone minus signs and the unreachable pop branch -/

/-- Every occurrence of the minus character is immediately followed by a
    greater-than sign (i.e. the minus is part of an arrow spelling). -/
def minusOk : List Char → Bool
  | [] => true
  | c :: rest =>
      if c = '-' then
        (match rest with
         | d :: _ => d = '>' && minusOk rest
         | [] => false)
      else minusOk rest

theorem minusOk_cons_ne {c : Char} (h : ¬ c = '-') (rest : List Char) :
    minusOk (c :: rest) = minusOk rest := by
  simp [minusOk, h]

theorem minusOk_append_clean : ∀ (l t : List Char), (∀ c ∈ l, ¬ c = '-') →
    minusOk t = true → minusOk (l ++ t) = true := by
  intro l
  induction l with
  | nil => intro t _ ht; simpa using ht
  | cons c l2 ih =>
      intro t hc ht
      rw [List.cons_append, minusOk_cons_ne (hc c (by simp))]
      exact ih t (fun d hd => hc d (by simp [hd])) ht

theorem jsWhitespace_ne_minus (c : Char) (h : jsWhitespace c = true) : ¬ c = '-' := by
  intro hc
  subst hc
  revert h
  decide

theorem skipWs_minusOk : ∀ (cs : List Char) (l c : Nat),
    minusOk (skipWs cs l c).1 = true → minusOk cs = true := by
  intro cs
  induction cs with
  | nil => intro l c h; exact h
  | cons ch rest ih =>
      intro l c h
      unfold skipWs at h
      split at h
      · rename_i hws
        split at h
        · rw [minusOk_cons_ne (jsWhitespace_ne_minus ch hws)]
          exact ih _ _ h
        · rw [minusOk_cons_ne (jsWhitespace_ne_minus ch hws)]
          exact ih _ _ h
      · exact h

theorem hasPrefixCh_decomp : ∀ (p cs : List Char), hasPrefixCh cs p = true →
    cs = p ++ cs.drop p.length := by
  intro p
  induction p with
  | nil => intro cs _; simp
  | cons x ps ih =>
      intro cs h
      cases cs with
      | nil => simp [hasPrefixCh] at h
      | cons c cs2 =>
          simp only [hasPrefixCh, Bool.and_eq_true, decide_eq_true_eq] at h
          obtain ⟨rfl, h2⟩ := h
          simp only [List.cons_append, List.length_cons, List.drop_succ_cons, List.cons.injEq,
            true_and]
          exact ih cs2 h2

theorem tryMultiOp_minusOk (cs : List Char) (n : Nat) (tt : TokenType) (v : String)
    (h : tryMultiOp cs = some (n, tt, v)) (ht : minusOk (cs.drop n) = true) :
    minusOk cs = true := by
  unfold tryMultiOp at h
  split at h
  · rename_i hp
    injection h with h2; injection h2 with ha hb; subst ha
    rw [hasPrefixCh_decomp _ _ hp]
    exact minusOk_append_clean _ _ (by decide) (by simpa using ht)
  · split at h
    · rename_i hp
      injection h with h2; injection h2 with ha hb; subst ha
      rw [hasPrefixCh_decomp _ _ hp]
      exact minusOk_append_clean _ _ (by decide) (by simpa using ht)
    · split at h
      · rename_i hp
        injection h with h2; injection h2 with ha hb; subst ha
        rw [hasPrefixCh_decomp _ _ hp]
        have ht2 : minusOk (cs.drop 3) = true := by simpa using ht
        show minusOk (Char.ofNat 60 :: Char.ofNat 45 :: Char.ofNat 62 :: cs.drop 3) = true
        rw [show minusOk (Char.ofNat 60 :: Char.ofNat 45 :: Char.ofNat 62 :: cs.drop 3)
              = minusOk (cs.drop 3) from by simp [minusOk]]
        exact ht2
      · split at h
        · rename_i hp
          injection h with h2; injection h2 with ha hb; subst ha
          rw [hasPrefixCh_decomp _ _ hp]
          have ht2 : minusOk (cs.drop 2) = true := by simpa using ht
          show minusOk (Char.ofNat 45 :: Char.ofNat 62 :: cs.drop 2) = true
          rw [show minusOk (Char.ofNat 45 :: Char.ofNat 62 :: cs.drop 2)
                = minusOk (cs.drop 2) from by simp [minusOk]]
          exact ht2
        · split at h
          · rename_i hp
            injection h with h2; injection h2 with ha hb; subst ha
            rw [hasPrefixCh_decomp _ _ hp]
            exact minusOk_append_clean _ _ (by decide) (by simpa using ht)
          · split at h
            · rename_i hp
              injection h with h2; injection h2 with ha hb; subst ha
              rw [hasPrefixCh_decomp _ _ hp]
              exact minusOk_append_clean _ _ (by decide) (by simpa using ht)
            · split at h
              · rename_i hp
                injection h with h2; injection h2 with ha hb; subst ha
                rw [hasPrefixCh_decomp _ _ hp]
                exact minusOk_append_clean _ _ (by decide) (by simpa using ht)
              · cases h

theorem opMapSingle_ne_minus (ch : Char) (tt : TokenType) (h : opMapSingle ch = some tt) :
    ¬ ch = '-' := by
  intro hc
  subst hc
  exact Option.noConfusion (show (none : Option TokenType) = some tt from h)

theorem isDigitCh_ne_minus (c : Char) (h : isDigitCh c = true) : ¬ c = '-' := by
  intro hc
  subst hc
  revert h
  decide

theorem isIdentCh_ne_minus (c : Char) (h : isIdentCh c = true) : ¬ c = '-' := by
  intro hc
  subst hc
  revert h
  decide

theorem takeWhile_ne_minus (p : Char → Bool) (hp : ∀ c, p c = true → ¬ c = '-')
    (l : List Char) : ∀ c ∈ l.takeWhile p, ¬ c = '-' := by
  intro c hc
  exact hp c (List.mem_takeWhile_imp hc)


theorem tokenizeGo_ok_minusOk : ∀ (fuel : Nat) (cs : List Char) (l c : Nat)
    (acc ts : List Token), tokenizeGo fuel cs l c acc = .ok ts → minusOk cs = true := by
  intro fuel
  induction fuel with
  | zero =>
      intro cs l c acc ts h
      rw [tokenizeGo_zero] at h
      cases h
  | succ n ih =>
      intro cs l c acc ts h
      rw [tokenizeGo_succ] at h
      unfold tokenizeStep at h
      dsimp only at h
      apply skipWs_minusOk cs l c
      revert h
      generalize (skipWs cs l c).1 = cs2
      intro h
      match cs2 with
      | [] => rfl
      | ch :: rest =>
          dsimp only at h
          split at h
          · rename_i n2 tt v hmul
            refine tryMultiOp_minusOk _ _ _ _ hmul ?_
            exact ih _ _ _ _ _ h
          · split at h
            · rename_i tt hsing
              rw [minusOk_cons_ne (opMapSingle_ne_minus ch tt hsing)]
              exact ih _ _ _ _ _ h
            · split at h
              · rename_i hd
                rw [show ch :: rest = (ch :: rest).takeWhile isDigitCh
                      ++ (ch :: rest).dropWhile isDigitCh from
                      (List.takeWhile_append_dropWhile _ _).symm]
                apply minusOk_append_clean _ _
                  (takeWhile_ne_minus isDigitCh isDigitCh_ne_minus _)
                split at h
                · split at h
                  · exact ih _ _ _ _ _ h
                  · exact ih _ _ _ _ _ h
                · exact ih _ _ _ _ _ h
              · split at h
                · rename_i ha
                  rw [show ch :: rest = (ch :: rest).takeWhile isIdentCh
                        ++ (ch :: rest).dropWhile isIdentCh from
                        (List.takeWhile_append_dropWhile _ _).symm]
                  apply minusOk_append_clean _ _
                    (takeWhile_ne_minus isIdentCh isIdentCh_ne_minus _)
                  exact ih _ _ _ _ _ h
                · cases h

/-- The tokenize() step with the negative-number pop branch removed; used to
    state that the branch is unreachable. -/
def tokenizeStepNoNeg
    (next : List Char → Nat → Nat → List Token → Except TokenizerError (List Token))
    (cs : List Char) (line col : Nat) (acc : List Token) :
    Except TokenizerError (List Token) :=
  let s := skipWs cs line col
  match hm : s.1 with
  | [] => .ok (acc ++ [⟨.eof, "", s.2.1, s.2.2⟩])
  | ch :: rest =>
      match hmul : tryMultiOp (ch :: rest) with
      | some (n, tt, v) =>
          let p := advancePos ((ch :: rest).take n) s.2.1 s.2.2
          next ((ch :: rest).drop n) p.1 p.2
            (acc ++ [⟨tt, v, s.2.1, s.2.2⟩])
      | none =>
          match opMapSingle ch with
          | some tt =>
              next rest s.2.1 (s.2.2 + 1)
                (acc ++ [⟨tt, String.singleton ch, s.2.1, s.2.2⟩])
          | none =>
              if hd : isDigitCh ch then
                let buf := (ch :: rest).takeWhile isDigitCh
                let rest' := (ch :: rest).dropWhile isDigitCh
                let p := advancePos buf s.2.1 s.2.2
                next rest' p.1 p.2
                  (acc ++ [⟨.num, String.mk buf, s.2.1, s.2.2⟩])
              else if ha : isAlphaUnd ch then
                let buf := (ch :: rest).takeWhile isIdentCh
                let rest' := (ch :: rest).dropWhile isIdentCh
                let p := advancePos buf s.2.1 s.2.2
                next rest' p.1 p.2
                  (acc ++ [⟨if isVarName buf then .var else .ident, String.mk buf,
                            s.2.1, s.2.2⟩])
              else
                .error ⟨"Unexpected character: " ++ jsonStringifyChar ch, s.2.1, s.2.2⟩


/-- The tokenize() loop over the pop-free step. -/
def tokenizeGoNoNeg (fuel : Nat) (cs : List Char) (line col : Nat) (acc : List Token) :
    Except TokenizerError (List Token) :=
  match fuel with
  | 0 => .error ⟨"out of fuel", 0, 0⟩
  | fuel + 1 => tokenizeStepNoNeg (tokenizeGoNoNeg fuel) cs line col acc

theorem tokenizeGoNoNeg_succ (n : Nat) (cs : List Char) (l c : Nat) (acc : List Token) :
    tokenizeGoNoNeg (n + 1) cs l c acc = tokenizeStepNoNeg (tokenizeGoNoNeg n) cs l c acc := rfl

theorem getLast?_mem_tok : ∀ (l : List Token) (t : Token), l.getLast? = some t → t ∈ l := by
  intro l
  induction l with
  | nil => intro t h; cases h
  | cons a rest ih =>
      intro t h
      cases rest with
      | nil =>
          simp [List.getLast?] at h
          simp [h]
      | cons b rest2 =>
          rw [List.getLast?_cons_cons] at h
          exact List.mem_cons_of_mem a (ih t h)

theorem mkStr_ne_minus (c : Char) (cs : List Char) (h : ¬ c = '-') :
    ¬ String.mk (c :: cs) = "-" := by
  intro he
  have hd := congrArg String.data he
  simp only at hd
  cases hd
  exact h rfl

theorem singleton_ne_minus (c : Char) (h : ¬ c = '-') : ¬ String.singleton c = "-" := by
  intro he
  have hd := congrArg String.data he
  simp only [String.singleton] at hd
  cases hd
  exact h rfl

theorem tryMultiOp_value_ne_minus (cs : List Char) (n : Nat) (tt : TokenType) (v : String)
    (h : tryMultiOp cs = some (n, tt, v)) : ¬ v = "-" := by
  unfold tryMultiOp at h
  repeat' split at h
  all_goals first
    | exact Option.noConfusion h
    | (injection h with h2; injection h2 with ha hb; injection hb with hb1 hb2; subst hb2
       decide)

theorem accInv_push (acc : List Token) (tok : Token)
    (hacc : ∀ t ∈ acc, ¬ t.value = "-") (htok : ¬ tok.value = "-") :
    ∀ t ∈ acc ++ [tok], ¬ t.value = "-" := by
  intro t ht
  rcases List.mem_append.mp ht with h | h
  · exact hacc t h
  · simp at h
    subst h
    exact htok

theorem tokenizeGo_noNeg : ∀ (fuel : Nat) (cs : List Char) (l c : Nat) (acc : List Token),
    (∀ t ∈ acc, ¬ t.value = "-") →
    tokenizeGo fuel cs l c acc = tokenizeGoNoNeg fuel cs l c acc := by
  intro fuel
  induction fuel with
  | zero => intro cs l c acc hacc; rfl
  | succ n ih =>
      intro cs l c acc hacc
      rw [tokenizeGo_succ, tokenizeGoNoNeg_succ]
      unfold tokenizeStep tokenizeStepNoNeg
      dsimp only
      split
      · rfl
      · rename_i ch rest hm
        split
        · rename_i n2 tt v hmul
          exact ih _ _ _ _ (accInv_push acc _ hacc
            (by exact tryMultiOp_value_ne_minus _ _ _ _ hmul))
        · split
          · rename_i tt hsing
            exact ih _ _ _ _ (accInv_push acc _ hacc
              (singleton_ne_minus ch (opMapSingle_ne_minus ch tt hsing)))
          · split
            · rename_i hd
              have hbuf : (ch :: rest).takeWhile isDigitCh = ch :: rest.takeWhile isDigitCh := by
                rw [List.takeWhile_cons_of_pos hd]
              cases hl : acc.getLast? with
              | none =>
                  dsimp only
                  exact ih _ _ _ _ (accInv_push acc _ hacc
                    (by rw [hbuf]; exact mkStr_ne_minus ch _ (isDigitCh_ne_minus ch hd)))
              | some t =>
                  have ht : ¬ t.value = "-" := hacc t (getLast?_mem_tok acc t hl)
                  dsimp only
                  rw [if_neg ht]
                  exact ih _ _ _ _ (accInv_push acc _ hacc
                    (by rw [hbuf]; exact mkStr_ne_minus ch _ (isDigitCh_ne_minus ch hd)))
            · split
              · rename_i ha
                have hid : isIdentCh ch = true := by
                  unfold isIdentCh
                  rw [ha]
                  rfl
                have hbuf : (ch :: rest).takeWhile isIdentCh = ch :: rest.takeWhile isIdentCh := by
                  rw [List.takeWhile_cons_of_pos hid]
                exact ih _ _ _ _ (accInv_push acc _ hacc
                  (by rw [hbuf]; exact mkStr_ne_minus ch _ (isIdentCh_ne_minus ch hid)))
              · rfl

/-- C10: any successful tokenization forces every minus character of the
    input to be immediately followed by a greater-than sign (the arrow
    spelling); a bare negative literal is rejected with an error at its
    minus; and the negative-number pop branch is unreachable from the entry
    accumulator: the loop equals its pop-free twin. -/
theorem C10_lone_minus_rejected :
    (∀ (s : String) (ts : List Token), tokenize s = .ok ts → minusOk s.data = true) ∧
    (tokenize "-5" = .error ⟨"Unexpected character: \"-\"", 1, 1⟩) ∧
    (∀ (fuel : Nat) (cs : List Char) (l c : Nat),
      tokenizeGo fuel cs l c [] = tokenizeGoNoNeg fuel cs l c []) := by
  refine ⟨?_, by rfl, ?_⟩
  · intro s ts h
    exact tokenizeGo_ok_minusOk _ _ _ _ _ _ h
  · intro fuel cs l c
    exact tokenizeGo_noNeg fuel cs l c [] (by intro t ht; cases ht)

/-- C10 counterexample: with an unexpected character before the minus, the
    error is thrown at that earlier character (column 1), not at the minus
    (which sits at column 2), refuting the at-that-character reading. -/
theorem C10_error_position_counterexample :
    tokenize "^-5" = .error ⟨"Unexpected character: \"^\"", 1, 1⟩ ∧
    "^-5".data.get? 1 = some (Char.ofNat 45) ∧ (1 : Nat) ≠ 2 :=
  ⟨rfl, rfl, by decide⟩

/-- C10 witness: the success clause applied to the arrow input, whose minus
    is followed by a greater-than sign. -/
theorem C10_lone_minus_witness :
    tokenize "->" = .ok [⟨.impl, "->", 1, 1⟩, ⟨.eof, "", 1, 3⟩] ∧
    minusOk "->".data = true :=
  ⟨rfl, C10_lone_minus_rejected.1 "->" [⟨.impl, "->", 1, 1⟩, ⟨.eof, "", 1, 3⟩] rfl⟩

/-! ### C1 support: the printable fragment and its token spelling

The round-trip analysis needs the class of ASTs whose printed form
re-tokenizes and re-parses to the same tree: quantifiers and relations over
variable, numeral, function and parenthesis terms, with names that the
tokenizer reads back as single tokens.  Each definition below describes the
token list the printer output spells, ignoring source positions.
-/

/-- A name the tokenizer reads back as one identifier token: nonempty, a
    letter or underscore first, identifier characters throughout, and no
    forall or exists spelling as a prefix. -/
def goodName (s : String) : Bool :=
  (match s.data with
   | [] => false
   | ch :: rest => isAlphaUnd ch && rest.all isIdentCh) &&
  !(hasPrefixCh s.data "forall".data) && !(hasPrefixCh s.data "exists".data)

mutual

/-- Terms whose printed form re-parses to the same term. -/
def goodTerm : Term → Bool
  | .var n => goodName n
  | .num _ => true
  | .const _ => false
  | .func n args => goodName n && !(isVarName n.data) && goodTermList args
  | .paren t => goodTerm t

/-- goodTerm over an argument list. -/
def goodTermList : List Term → Bool
  | [] => true
  | t :: rest => goodTerm t && goodTermList rest

end

/-- Terms accepted on the left of a relation: the atom dispatch needs a
    var, num or lparen token first (canStartTerm), and a bare variable must
    carry a variable-shaped name. -/
def canStartGood : Term → Bool
  | .var n => isVarName n.data
  | .num _ => true
  | .paren _ => true
  | _ => false

/-- The relation operators and their token types. -/
def relOpTok : String → Option TokenType
  | "<" => some .lt
  | "≤" => some .le
  | ">" => some .gt
  | "≥" => some .ge
  | "=" => some .eq
  | "≠" => some .ne
  | "∈" => some .member
  | "∉" => some .notmember
  | _ => none

/-- The domain symbols of the tokenizer. -/
def goodDomain : Option Domain → Bool
  | none => true
  | some d => ["ℝ", "ℤ", "ℚ", "ℕ", "ℂ"].contains d.name

/-- Expressions whose printed form re-parses to the same tree.  Predicates,
    negations, binaries and constants are excluded: their printed forms do
    not survive the round trip. -/
def goodExpr : Expr → Bool
  | .relation op l r =>
      (relOpTok op).isSome && goodTerm l && goodTerm r && canStartGood l
  | .quantifier _ v dom body =>
      goodName v && isVarName v.data && goodDomain dom && goodExpr body
  | _ => false

mutual

/-- The (type, value) spelling of a printed term. -/
def termSpec : Term → List (TokenType × String)
  | .var n => [(if isVarName n.data then .var else .ident, n)]
  | .num k => [(.num, natDigitsStr k)]
  | .const n => [(.ident, n)]
  | .func n args =>
      (.ident, n) :: (.lparen, "(") :: (termSpecList args ++ [(.rparen, ")")])
  | .paren t => (.lparen, "(") :: (termSpec t ++ [(.rparen, ")")])

/-- The spelling of a comma-separated argument list. -/
def termSpecList : List Term → List (TokenType × String)
  | [] => []
  | [t] => termSpec t
  | t :: rest => termSpec t ++ [(.comma, ",")] ++ termSpecList rest

end

/-- The (type, value) spelling of a printed expression of the fragment. -/
def exprSpec : Expr → List (TokenType × String)
  | .relation op l r =>
      termSpec l ++ [((relOpTok op).getD .eof, op)] ++ termSpec r
  | .quantifier q v dom body =>
      (if q = QuantifierKind.fa then (TokenType.forallQ, "∀") else (TokenType.existsQ, "∃")) ::
      (TokenType.var, v) ::
      ((match dom with
        | some d => [(TokenType.member, "∈"), (TokenType.domain, d.name)]
        | none => []) ++
       ((TokenType.lparen, "(") :: (exprSpec body ++ [(TokenType.rparen, ")")])))
  | _ => []

/-- The projection of a token compared against the spelling. -/
def tvOf (t : Token) : TokenType × String := (t.type, t.value)

/-- The character the tokenizer may see right after a printed chunk: end of
    input, or a character that neither extends an identifier or number nor
    turns a relation glyph into a two-character operator. -/
def boundaryOk : List Char → Bool
  | [] => true
  | c :: _ => !(isIdentCh c) && !(c = '-') && !(c = '=') && !(c = '>')

theorem skipWs_nows (ch : Char) (cs : List Char) (l c : Nat)
    (h : jsWhitespace ch = false) : skipWs (ch :: cs) l c = (ch :: cs, l, c) := by
  unfold skipWs
  rw [h]
  rfl

theorem tgn_done (fuel : Nat) (l c : Nat) (acc : List Token) :
    tokenizeGoNoNeg (fuel + 1) [] l c acc = .ok (acc ++ [⟨.eof, "", l, c⟩]) := rfl

theorem tgn_space (fuel : Nat) (cs : List Char) (l c : Nat) (acc : List Token) :
    tokenizeGoNoNeg fuel (' ' :: cs) l c acc = tokenizeGoNoNeg fuel cs l (c + 1) acc := by
  cases fuel with
  | zero => rfl
  | succ n => rfl

theorem tgn_single (ch : Char) (tt : TokenType) (fuel : Nat) (cs : List Char) (l c : Nat)
    (acc : List Token) (hws : jsWhitespace ch = false)
    (hmul : tryMultiOp (ch :: cs) = none) (hsing : opMapSingle ch = some tt) :
    tokenizeGoNoNeg (fuel + 1) (ch :: cs) l c acc
      = tokenizeGoNoNeg fuel cs l (c + 1) (acc ++ [⟨tt, String.singleton ch, l, c⟩]) := by
  rw [tokenizeGoNoNeg_succ]
  unfold tokenizeStepNoNeg
  rw [skipWs_nows ch cs l c hws]
  dsimp only
  split
  · rename_i n2 tt2 v2 heq
    rw [hmul] at heq
    cases heq
  · split
    · rename_i tt2 heq
      rw [hsing] at heq
      injection heq with heq2
      subst heq2
      rfl
    · rename_i heq
      rw [hsing] at heq
      cases heq

theorem alpha_identCh (c : Char) (h : isAlphaUnd c = true) : isIdentCh c = true := by
  unfold isIdentCh
  rw [h]
  rfl

theorem digit_identCh (c : Char) (h : isDigitCh c = true) : isIdentCh c = true := by
  unfold isIdentCh
  rw [h]
  simp

theorem alpha_not_digitCh (c : Char) (h : isAlphaUnd c = true) : isDigitCh c = false := by
  unfold isAlphaUnd at h
  unfold isDigitCh
  simp only [Bool.or_eq_true, Bool.and_eq_true, decide_eq_true_eq, UInt32.le_def,
    BitVec.le_def, UInt32.ext_iff, BitVec.toNat_eq] at h
  simp only [Bool.and_eq_false_iff, decide_eq_false_iff_not, UInt32.le_def,
    BitVec.le_def]
  simp [UInt32.size, UInt32.toNat] at h ⊢
  rcases h with (h | h) | h <;> omega

theorem identCh_not_ws (c : Char) (h : isIdentCh c = true) : jsWhitespace c = false := by
  unfold isIdentCh isAlphaUnd isDigitCh at h
  unfold jsWhitespace
  simp only [Bool.or_eq_true, Bool.and_eq_true, decide_eq_true_eq, UInt32.le_def,
    BitVec.le_def, UInt32.ext_iff, BitVec.toNat_eq] at h
  simp only [Bool.or_eq_false_iff, Bool.and_eq_false_iff, decide_eq_false_iff_not,
    UInt32.le_def, BitVec.le_def, UInt32.ext_iff, BitVec.toNat_eq]
  simp [UInt32.size, UInt32.toNat] at h ⊢
  rcases h with ((h | h) | h) | h <;> omega

theorem hasPrefix_first_ne (c p : Char) (xs ps : List Char) (h : ¬ c = p) :
    hasPrefixCh (c :: xs) (p :: ps) = false := by
  unfold hasPrefixCh
  simp [h]

theorem tryMultiOp_none_first (c : Char) (cs : List Char)
    (h1 : ¬ c = 'f') (h2 : ¬ c = 'e') (h3 : ¬ c = '<') (h4 : ¬ c = '-')
    (h5 : ¬ c = '>') (h6 : ¬ c = '!') : tryMultiOp (c :: cs) = none := by
  unfold tryMultiOp
  rw [show ("forall".data : List Char) = 'f' :: "orall".data from rfl,
      show ("exists".data : List Char) = 'e' :: "xists".data from rfl,
      show ("<->".data : List Char) = '<' :: "->".data from rfl,
      show ("->".data : List Char) = '-' :: ">".data from rfl,
      show ("<=".data : List Char) = '<' :: "=".data from rfl,
      show (">=".data : List Char) = '>' :: "=".data from rfl,
      show ("!=".data : List Char) = '!' :: "=".data from rfl]
  rw [hasPrefix_first_ne c 'f' _ _ h1, hasPrefix_first_ne c 'e' _ _ h2,
      hasPrefix_first_ne c '<' _ _ h3, hasPrefix_first_ne c '-' _ _ h4,
      hasPrefix_first_ne c '<' _ _ h3, hasPrefix_first_ne c '>' _ _ h5,
      hasPrefix_first_ne c '!' _ _ h6]
  rfl

theorem tryMultiOp_none_digit (c : Char) (cs : List Char) (h : isDigitCh c = true) :
    tryMultiOp (c :: cs) = none := by
  apply tryMultiOp_none_first <;> (intro he; subst he; revert h; decide)

theorem opMapSingle_ident_none (c : Char) (h : isIdentCh c = true) : opMapSingle c = none := by
  unfold opMapSingle
  repeat rw [if_neg (by intro he; subst he; revert h; decide)]

theorem hasPrefix_through_ident : ∀ (sp m rest : List Char),
    sp.all isIdentCh = true → boundaryOk rest = true →
    hasPrefixCh (m ++ rest) sp = true → hasPrefixCh m sp = true := by
  intro sp
  induction sp with
  | nil => intro m rest _ _ _; cases m <;> rfl
  | cons p ps ih =>
      intro m rest hsp hb h
      cases m with
      | nil =>
          simp only [List.nil_append] at h
          cases rest with
          | nil => cases h
          | cons r rs =>
              simp only [hasPrefixCh, Bool.and_eq_true, decide_eq_true_eq] at h
              obtain ⟨rfl, -⟩ := h
              simp only [List.all_cons, Bool.and_eq_true] at hsp
              simp only [boundaryOk, Bool.and_eq_true, Bool.not_eq_true'] at hb
              rw [hsp.1] at hb
              cases hb.1.1.1
      | cons x m2 =>
          simp only [List.cons_append, hasPrefixCh, Bool.and_eq_true] at h ⊢
          simp only [List.all_cons, Bool.and_eq_true] at hsp
          exact ⟨h.1, ih m2 rest hsp.2 hb h.2⟩

theorem tryMultiOp_none_goodName (n : String) (rest : List Char)
    (hg : goodName n = true) (hb : boundaryOk rest = true) :
    tryMultiOp (n.data ++ rest) = none := by
  unfold goodName at hg
  simp only [Bool.and_eq_true, Bool.not_eq_true'] at hg
  obtain ⟨⟨hshape, hf⟩, he⟩ := hg
  have hfa : hasPrefixCh (n.data ++ rest) "forall".data = false := by
    cases hq : hasPrefixCh (n.data ++ rest) "forall".data
    · rfl
    · rw [hasPrefix_through_ident "forall".data n.data rest (by decide) hb hq] at hf
      cases hf
  have hex : hasPrefixCh (n.data ++ rest) "exists".data = false := by
    cases hq : hasPrefixCh (n.data ++ rest) "exists".data
    · rfl
    · rw [hasPrefix_through_ident "exists".data n.data rest (by decide) hb hq] at he
      cases he
  match hnd : n.data with
  | [] => rw [hnd] at hshape; cases hshape
  | ch :: m =>
      rw [hnd] at hshape hfa hex
      simp only [Bool.and_eq_true] at hshape
      have hna : isAlphaUnd ch = true := hshape.1
      unfold tryMultiOp
      rw [hfa, hex]
      simp only [List.cons_append]
      simp only [hasPrefix_first_ne ch '<' (m ++ rest) _
          (by intro he2; subst he2; revert hna; decide),
        hasPrefix_first_ne ch '-' (m ++ rest) _
          (by intro he2; subst he2; revert hna; decide),
        hasPrefix_first_ne ch '>' (m ++ rest) _
          (by intro he2; subst he2; revert hna; decide),
        hasPrefix_first_ne ch '!' (m ++ rest) _
          (by intro he2; subst he2; revert hna; decide)]
      rfl

theorem takeWhile_append_of_all (p : Char → Bool) : ∀ (m rest : List Char),
    m.all p = true → (∀ r rs, rest = r :: rs → p r = false) →
    (m ++ rest).takeWhile p = m ∧ (m ++ rest).dropWhile p = rest := by
  intro m
  induction m with
  | nil =>
      intro rest _ hr
      cases rest with
      | nil => exact ⟨rfl, rfl⟩
      | cons r rs =>
          constructor
          · simp [List.takeWhile_cons, hr r rs rfl]
          · simp [List.dropWhile_cons, hr r rs rfl]
  | cons x m2 ih =>
      intro rest hm hr
      simp only [List.all_cons, Bool.and_eq_true] at hm
      obtain ⟨ih1, ih2⟩ := ih rest hm.2 hr
      constructor
      · simp [List.takeWhile_cons, hm.1, ih1]
      · simp [List.dropWhile_cons, hm.1, ih2]

theorem boundary_head_not_ident (rest : List Char) (hb : boundaryOk rest = true) :
    ∀ r rs, rest = r :: rs → isIdentCh r = false := by
  intro r rs he
  subst he
  simp only [boundaryOk, Bool.and_eq_true, Bool.not_eq_true'] at hb
  exact hb.1.1.1

theorem boundary_head_not_digit (rest : List Char) (hb : boundaryOk rest = true) :
    ∀ r rs, rest = r :: rs → isDigitCh r = false := by
  intro r rs he
  have hi := boundary_head_not_ident rest hb r rs he
  cases hq : isDigitCh r
  · rfl
  · rw [digit_identCh r hq] at hi
    cases hi

theorem digitChar_isDigit (d : Nat) (h : d < 10) : isDigitCh (digitChar d) = true := by
  interval_cases d <;> decide

theorem natDigitsAux_all_digit : ∀ (fuel n : Nat),
    (natDigitsAux fuel n).all isDigitCh = true := by
  intro fuel
  induction fuel with
  | zero => intro n; rfl
  | succ f ih =>
      intro n
      unfold natDigitsAux
      split
      · simp [digitChar_isDigit n (by omega)]
      · rename_i hn
        simp only [List.all_append, Bool.and_eq_true]
        exact ⟨ih (n / 10), by simp [digitChar_isDigit (n % 10) (by omega)]⟩

theorem natDigitsAux_ne_nil (fuel n : Nat) (h : 0 < fuel) : natDigitsAux fuel n ≠ [] := by
  match fuel with
  | f + 1 =>
      unfold natDigitsAux
      split
      · simp
      · simp

theorem natDigits_shape (n : Nat) : ∃ ch m, natDigits n = ch :: m ∧ isDigitCh ch = true ∧
    m.all isDigitCh = true := by
  have h1 := natDigitsAux_all_digit (n + 1) n
  have h2 := natDigitsAux_ne_nil (n + 1) n (by omega)
  unfold natDigits
  match hd : natDigitsAux (n + 1) n with
  | [] => exact absurd hd h2
  | ch :: m =>
      rw [hd] at h1
      simp only [List.all_cons, Bool.and_eq_true] at h1
      exact ⟨ch, m, rfl, h1.1, h1.2⟩

theorem tgn_name (ch : Char) (m rest : List Char) (fuel : Nat) (l c : Nat)
    (acc : List Token)
    (hmul : tryMultiOp (ch :: (m ++ rest)) = none)
    (ha : isAlphaUnd ch = true)
    (hm : m.all isIdentCh = true)
    (hb : boundaryOk rest = true) :
    tokenizeGoNoNeg (fuel + 1) (ch :: (m ++ rest)) l c acc
      = tokenizeGoNoNeg fuel rest
          (advancePos (ch :: m) l c).1 (advancePos (ch :: m) l c).2
          (acc ++ [⟨if isVarName (ch :: m) then .var else .ident, String.mk (ch :: m), l, c⟩]) := by
  have hid : isIdentCh ch = true := alpha_identCh ch ha
  have htd : (ch :: (m ++ rest)).takeWhile isIdentCh = ch :: m ∧
      (ch :: (m ++ rest)).dropWhile isIdentCh = rest := by
    have h0 := takeWhile_append_of_all isIdentCh m rest hm
      (fun r rs he => boundary_head_not_ident rest hb r rs he)
    constructor
    · rw [List.takeWhile_cons_of_pos hid, h0.1]
    · rw [List.dropWhile_cons_of_pos hid, h0.2]
  rw [tokenizeGoNoNeg_succ]
  unfold tokenizeStepNoNeg
  rw [skipWs_nows ch (m ++ rest) l c (identCh_not_ws ch hid)]
  dsimp only
  split
  · rename_i n2 tt2 v2 heq
    rw [hmul] at heq
    cases heq
  · split
    · rename_i tt2 heq
      rw [opMapSingle_ident_none ch hid] at heq
      cases heq
    · split
      · rename_i hdig
        rw [alpha_not_digitCh ch ha] at hdig
        cases hdig
      · simp only [htd.1, htd.2]

theorem tgn_num (ch : Char) (m rest : List Char) (fuel : Nat) (l c : Nat)
    (acc : List Token)
    (hd : isDigitCh ch = true)
    (hm : m.all isDigitCh = true)
    (hb : boundaryOk rest = true) :
    tokenizeGoNoNeg (fuel + 1) (ch :: (m ++ rest)) l c acc
      = tokenizeGoNoNeg fuel rest
          (advancePos (ch :: m) l c).1 (advancePos (ch :: m) l c).2
          (acc ++ [⟨.num, String.mk (ch :: m), l, c⟩]) := by
  have hid : isIdentCh ch = true := digit_identCh ch hd
  have htd : (ch :: (m ++ rest)).takeWhile isDigitCh = ch :: m ∧
      (ch :: (m ++ rest)).dropWhile isDigitCh = rest := by
    have h0 := takeWhile_append_of_all isDigitCh m rest hm
      (fun r rs he => boundary_head_not_digit rest hb r rs he)
    constructor
    · rw [List.takeWhile_cons_of_pos hd, h0.1]
    · rw [List.dropWhile_cons_of_pos hd, h0.2]
  rw [tokenizeGoNoNeg_succ]
  unfold tokenizeStepNoNeg
  rw [skipWs_nows ch (m ++ rest) l c (identCh_not_ws ch hid)]
  dsimp only
  split
  · rename_i n2 tt2 v2 heq
    rw [tryMultiOp_none_digit ch (m ++ rest) hd] at heq
    cases heq
  · split
    · rename_i tt2 heq
      rw [opMapSingle_ident_none ch hid] at heq
      cases heq
    · split
      · rw [htd.1, htd.2]
      · rename_i hnd
        rw [hd] at hnd
        exact absurd rfl hnd

theorem sfoldl_append : ∀ (l : List String) (x y : String),
    List.foldl (fun r s2 => r ++ s2) (x ++ y) l = x ++ List.foldl (fun r s2 => r ++ s2) y l := by
  intro l
  induction l with
  | nil => intro x y; rfl
  | cons z l2 ih =>
      intro x y
      show List.foldl (fun r s2 => r ++ s2) (x ++ y ++ z) l2 = _
      rw [String.append_assoc x y z, ih x (y ++ z)]
      rfl

theorem igo (s : String) : ∀ (l : List String) (acc : String),
    String.intercalate.go acc s l =
      acc ++ List.foldl (fun r s2 => r ++ s2) "" (l.map (fun x => s ++ x)) := by
  intro l
  induction l with
  | nil => intro acc; simp [String.intercalate.go]
  | cons b l2 ih =>
      intro acc
      rw [String.intercalate.go, ih (acc ++ s ++ b)]
      simp only [List.map_cons, List.foldl_cons]
      rw [show ("" ++ (s ++ b) : String) = (s ++ b) ++ "" by simp]
      rw [sfoldl_append (l2.map (fun x => s ++ x)) (s ++ b) ""]
      simp [String.append_assoc]

theorem intercalate_cons₂ (s a b : String) (l : List String) :
    String.intercalate s (a :: b :: l) = a ++ s ++ String.intercalate s (b :: l) := by
  show String.intercalate.go a s (b :: l) = a ++ s ++ String.intercalate.go b s l
  rw [igo, igo]
  simp only [List.map_cons, List.foldl_cons]
  rw [show ("" ++ (s ++ b) : String) = (s ++ b) ++ "" by simp]
  rw [sfoldl_append (l.map (fun x => s ++ x)) (s ++ b) ""]
  simp [String.append_assoc]

/-- The printed chunk re-tokenizes, in any boundary-safe context, to tokens
    spelling spec, consuming one unit of fuel per token. -/
def Emits (chunk : List Char) (spec : List (TokenType × String)) : Prop :=
  ∀ (fuel : Nat) (rest : List Char) (l c : Nat) (acc : List Token),
    boundaryOk rest = true →
    ∃ l2 c2 toks,
      tokenizeGoNoNeg (fuel + spec.length) (chunk ++ rest) l c acc
        = tokenizeGoNoNeg fuel rest l2 c2 (acc ++ toks)
      ∧ toks.map tvOf = spec

/-- Nonempty chunks whose first character may follow any printed chunk. -/
def headBoundary : List Char → Bool
  | [] => false
  | c :: _ => !(isIdentCh c) && !(c = '-') && !(c = '=') && !(c = '>')

theorem boundaryOk_of_head (ch2 rest : List Char) (h : headBoundary ch2 = true) :
    boundaryOk (ch2 ++ rest) = true := by
  cases ch2 with
  | nil => cases h
  | cons c x => exact h

theorem Emits.appendEE {ch1 ch2 : List Char} {sp1 sp2 : List (TokenType × String)}
    (h1 : Emits ch1 sp1) (h2 : Emits ch2 sp2) (hb2 : headBoundary ch2 = true) :
    Emits (ch1 ++ ch2) (sp1 ++ sp2) := by
  intro fuel rest l c acc hb
  obtain ⟨l2, c2, toks1, he1, hm1⟩ :=
    h1 (fuel + sp2.length) (ch2 ++ rest) l c acc (boundaryOk_of_head ch2 rest hb2)
  obtain ⟨l3, c3, toks2, he2, hm2⟩ := h2 fuel rest l2 c2 (acc ++ toks1) hb
  refine ⟨l3, c3, toks1 ++ toks2, ?_, ?_⟩
  · rw [show fuel + (sp1 ++ sp2).length = fuel + sp2.length + sp1.length from by
        simp [List.length_append]; omega]
    rw [List.append_assoc ch1 ch2 rest, he1, he2, List.append_assoc]
  · simp [hm1, hm2]

theorem Emits.empty : Emits [] [] := by
  intro fuel rest l c acc hb
  exact ⟨l, c, [], by simp, rfl⟩

theorem Emits.space : Emits [' '] [] := by
  intro fuel rest l c acc hb
  refine ⟨l, c + 1, [], ?_, rfl⟩
  show tokenizeGoNoNeg (fuel + 0) (' ' :: rest) l c acc = _
  rw [tgn_space]
  simp

theorem tryMultiOp_none_glyph (ch : Char) (rest : List Char)
    (h1 : ¬ ch = 'f') (h2 : ¬ ch = 'e') (h3 : ¬ ch = '-') (h4 : ¬ ch = '!')
    (hb : boundaryOk rest = true) : tryMultiOp (ch :: rest) = none := by
  have harrow : hasPrefixCh (ch :: rest) "<->".data = false := by
    cases hq : hasPrefixCh (ch :: rest) "<->".data
    · rfl
    · exfalso
      cases rest with
      | nil => simp [hasPrefixCh] at hq
      | cons r rs =>
          simp only [show ("<->".data : List Char) = '<' :: '-' :: '>' :: [] from rfl,
            hasPrefixCh, Bool.and_eq_true, decide_eq_true_eq] at hq
          simp only [boundaryOk, Bool.and_eq_true, Bool.not_eq_true',
            decide_eq_false_iff_not] at hb
          exact hb.1.1.2 hq.2.1
  have hle : hasPrefixCh (ch :: rest) "<=".data = false := by
    cases hq : hasPrefixCh (ch :: rest) "<=".data
    · rfl
    · exfalso
      cases rest with
      | nil => simp [hasPrefixCh] at hq
      | cons r rs =>
          simp only [show ("<=".data : List Char) = '<' :: '=' :: [] from rfl,
            hasPrefixCh, Bool.and_eq_true, decide_eq_true_eq] at hq
          simp only [boundaryOk, Bool.and_eq_true, Bool.not_eq_true',
            decide_eq_false_iff_not] at hb
          exact hb.1.2 hq.2.1
  have hge : hasPrefixCh (ch :: rest) ">=".data = false := by
    cases hq : hasPrefixCh (ch :: rest) ">=".data
    · rfl
    · exfalso
      cases rest with
      | nil => simp [hasPrefixCh] at hq
      | cons r rs =>
          simp only [show (">=".data : List Char) = '>' :: '=' :: [] from rfl,
            hasPrefixCh, Bool.and_eq_true, decide_eq_true_eq] at hq
          simp only [boundaryOk, Bool.and_eq_true, Bool.not_eq_true',
            decide_eq_false_iff_not] at hb
          exact hb.1.2 hq.2.1
  unfold tryMultiOp
  rw [show ("forall".data : List Char) = 'f' :: "orall".data from rfl,
      show ("exists".data : List Char) = 'e' :: "xists".data from rfl,
      show ("->".data : List Char) = '-' :: ">".data from rfl,
      show ("!=".data : List Char) = '!' :: "=".data from rfl]
  rw [hasPrefix_first_ne ch 'f' _ _ h1, hasPrefix_first_ne ch 'e' _ _ h2,
      hasPrefix_first_ne ch '-' _ _ h3, hasPrefix_first_ne ch '!' _ _ h4]
  rw [harrow, hle, hge]
  rfl

theorem Emits.single (ch : Char) (tt : TokenType)
    (h1 : ¬ ch = 'f') (h2 : ¬ ch = 'e') (h3 : ¬ ch = '-') (h4 : ¬ ch = '!')
    (hws : jsWhitespace ch = false) (hsing : opMapSingle ch = some tt) :
    Emits [ch] [(tt, String.singleton ch)] := by
  intro fuel rest l c acc hb
  refine ⟨l, c + 1, [⟨tt, String.singleton ch, l, c⟩], ?_, by simp [tvOf]⟩
  show tokenizeGoNoNeg (fuel + 1) (ch :: rest) l c acc = _
  rw [tgn_single ch tt fuel rest l c acc hws
      (tryMultiOp_none_glyph ch rest h1 h2 h3 h4 hb) hsing]

theorem Emits.name (n : String) (hg : goodName n = true) :
    Emits n.data [(if isVarName n.data then .var else .ident, n)] := by
  intro fuel rest l c acc hb
  have hg2 := hg
  unfold goodName at hg2
  simp only [Bool.and_eq_true, Bool.not_eq_true'] at hg2
  obtain ⟨⟨hshape, -⟩, -⟩ := hg2
  match hnd : n.data with
  | [] => rw [hnd] at hshape; cases hshape
  | ch :: m =>
      rw [hnd] at hshape
      simp only [Bool.and_eq_true] at hshape
      refine ⟨(advancePos (ch :: m) l c).1, (advancePos (ch :: m) l c).2,
        [⟨if isVarName (ch :: m) then .var else .ident, String.mk (ch :: m), l, c⟩], ?_, ?_⟩
      · show tokenizeGoNoNeg (fuel + 1) (ch :: (m ++ rest)) l c acc = _
        rw [tgn_name ch m rest fuel l c acc
            (by rw [show ch :: (m ++ rest) = (ch :: m) ++ rest from rfl, ← hnd]
                exact tryMultiOp_none_goodName n rest hg hb)
            hshape.1 hshape.2 hb]
      · simp only [List.map_cons, List.map_nil, tvOf]
        rw [show String.mk (ch :: m) = n from by rw [← hnd]]

/-- The printed chunk re-tokenizes in every context, with no boundary
    requirement on what follows (chunks ending in a self-delimiting
    character). -/
def EmitsF (chunk : List Char) (spec : List (TokenType × String)) : Prop :=
  ∀ (fuel : Nat) (rest : List Char) (l c : Nat) (acc : List Token),
    ∃ l2 c2 toks,
      tokenizeGoNoNeg (fuel + spec.length) (chunk ++ rest) l c acc
        = tokenizeGoNoNeg fuel rest l2 c2 (acc ++ toks)
      ∧ toks.map tvOf = spec

theorem EmitsF.toE {ch : List Char} {sp : List (TokenType × String)}
    (h : EmitsF ch sp) : Emits ch sp :=
  fun fuel rest l c acc _ => h fuel rest l c acc

theorem EmitsF.appendFF {ch1 ch2 : List Char} {sp1 sp2 : List (TokenType × String)}
    (h1 : EmitsF ch1 sp1) (h2 : EmitsF ch2 sp2) : EmitsF (ch1 ++ ch2) (sp1 ++ sp2) := by
  intro fuel rest l c acc
  obtain ⟨l2, c2, toks1, he1, hm1⟩ := h1 (fuel + sp2.length) (ch2 ++ rest) l c acc
  obtain ⟨l3, c3, toks2, he2, hm2⟩ := h2 fuel rest l2 c2 (acc ++ toks1)
  refine ⟨l3, c3, toks1 ++ toks2, ?_, ?_⟩
  · rw [show fuel + (sp1 ++ sp2).length = fuel + sp2.length + sp1.length from by
        simp [List.length_append]; omega]
    rw [List.append_assoc ch1 ch2 rest, he1, he2, List.append_assoc]
  · simp [hm1, hm2]

theorem EmitsF.appendE {ch1 ch2 : List Char} {sp1 sp2 : List (TokenType × String)}
    (h1 : EmitsF ch1 sp1) (h2 : Emits ch2 sp2) : Emits (ch1 ++ ch2) (sp1 ++ sp2) := by
  intro fuel rest l c acc hb
  obtain ⟨l2, c2, toks1, he1, hm1⟩ := h1 (fuel + sp2.length) (ch2 ++ rest) l c acc
  obtain ⟨l3, c3, toks2, he2, hm2⟩ := h2 fuel rest l2 c2 (acc ++ toks1) hb
  refine ⟨l3, c3, toks1 ++ toks2, ?_, ?_⟩
  · rw [show fuel + (sp1 ++ sp2).length = fuel + sp2.length + sp1.length from by
        simp [List.length_append]; omega]
    rw [List.append_assoc ch1 ch2 rest, he1, he2, List.append_assoc]
  · simp [hm1, hm2]

theorem Emits.appendF {ch1 ch2 : List Char} {sp1 sp2 : List (TokenType × String)}
    (h1 : Emits ch1 sp1) (h2 : EmitsF ch2 sp2) (hb2 : headBoundary ch2 = true) :
    EmitsF (ch1 ++ ch2) (sp1 ++ sp2) := by
  intro fuel rest l c acc
  obtain ⟨l2, c2, toks1, he1, hm1⟩ :=
    h1 (fuel + sp2.length) (ch2 ++ rest) l c acc (boundaryOk_of_head ch2 rest hb2)
  obtain ⟨l3, c3, toks2, he2, hm2⟩ := h2 fuel rest l2 c2 (acc ++ toks1)
  refine ⟨l3, c3, toks1 ++ toks2, ?_, ?_⟩
  · rw [show fuel + (sp1 ++ sp2).length = fuel + sp2.length + sp1.length from by
        simp [List.length_append]; omega]
    rw [List.append_assoc ch1 ch2 rest, he1, he2, List.append_assoc]
  · simp [hm1, hm2]

theorem Emits.congrE {ch1 ch2 : List Char} {sp1 sp2 : List (TokenType × String)}
    (hc : ch1 = ch2) (hs : sp1 = sp2) (h : Emits ch1 sp1) : Emits ch2 sp2 := hc ▸ hs ▸ h

theorem EmitsF.congrF {ch1 ch2 : List Char} {sp1 sp2 : List (TokenType × String)}
    (hc : ch1 = ch2) (hs : sp1 = sp2) (h : EmitsF ch1 sp1) : EmitsF ch2 sp2 := hc ▸ hs ▸ h

theorem EmitsF.spaceF : EmitsF [' '] [] := by
  intro fuel rest l c acc
  refine ⟨l, c + 1, [], ?_, rfl⟩
  show tokenizeGoNoNeg (fuel + 0) (' ' :: rest) l c acc = _
  rw [tgn_space]
  simp

theorem tryMultiOp_none_glyphF (ch : Char) (rest : List Char)
    (h1 : ¬ ch = 'f') (h2 : ¬ ch = 'e') (h3 : ¬ ch = '-') (h4 : ¬ ch = '!')
    (h5 : ¬ ch = '<') (h6 : ¬ ch = '>') : tryMultiOp (ch :: rest) = none := by
  unfold tryMultiOp
  rw [show ("forall".data : List Char) = 'f' :: "orall".data from rfl,
      show ("exists".data : List Char) = 'e' :: "xists".data from rfl,
      show ("<->".data : List Char) = '<' :: "->".data from rfl,
      show ("->".data : List Char) = '-' :: ">".data from rfl,
      show ("<=".data : List Char) = '<' :: "=".data from rfl,
      show (">=".data : List Char) = '>' :: "=".data from rfl,
      show ("!=".data : List Char) = '!' :: "=".data from rfl]
  rw [hasPrefix_first_ne ch 'f' _ _ h1, hasPrefix_first_ne ch 'e' _ _ h2,
      hasPrefix_first_ne ch '<' _ _ h5, hasPrefix_first_ne ch '-' _ _ h3,
      hasPrefix_first_ne ch '<' _ _ h5, hasPrefix_first_ne ch '>' _ _ h6,
      hasPrefix_first_ne ch '!' _ _ h4]
  rfl

theorem EmitsF.singleF (ch : Char) (tt : TokenType)
    (h1 : ¬ ch = 'f') (h2 : ¬ ch = 'e') (h3 : ¬ ch = '-') (h4 : ¬ ch = '!')
    (h5 : ¬ ch = '<') (h6 : ¬ ch = '>')
    (hws : jsWhitespace ch = false) (hsing : opMapSingle ch = some tt) :
    EmitsF [ch] [(tt, String.singleton ch)] := by
  intro fuel rest l c acc
  refine ⟨l, c + 1, [⟨tt, String.singleton ch, l, c⟩], ?_, by simp [tvOf]⟩
  show tokenizeGoNoNeg (fuel + 1) (ch :: rest) l c acc = _
  rw [tgn_single ch tt fuel rest l c acc hws
      (tryMultiOp_none_glyphF ch rest h1 h2 h3 h4 h5 h6) hsing]

/-- A relation glyph framed by spaces: the trailing space shields the
    two-character lookahead, so no boundary condition is needed. -/
theorem EmitsF.spOpSp (ch : Char) (tt : TokenType)
    (h1 : ¬ ch = 'f') (h2 : ¬ ch = 'e') (h3 : ¬ ch = '-') (h4 : ¬ ch = '!')
    (hws : jsWhitespace ch = false) (hsing : opMapSingle ch = some tt) :
    EmitsF [' ', ch, ' '] [(tt, String.singleton ch)] := by
  intro fuel rest l c acc
  refine ⟨l, c + 3, [⟨tt, String.singleton ch, l, c + 1⟩], ?_, by simp [tvOf]⟩
  show tokenizeGoNoNeg (fuel + 1) (' ' :: ch :: ' ' :: rest) l c acc = _
  rw [tgn_space, tgn_single ch tt fuel (' ' :: rest) l (c + 1) acc hws
      (tryMultiOp_none_glyph ch (' ' :: rest) h1 h2 h3 h4 rfl) hsing, tgn_space]

theorem Emits.num (k : Nat) : Emits (natDigitsStr k).data [(.num, natDigitsStr k)] := by
  intro fuel rest l c acc hb
  obtain ⟨ch, m, hsh, hd, hm⟩ := natDigits_shape k
  refine ⟨(advancePos (ch :: m) l c).1, (advancePos (ch :: m) l c).2,
    [⟨.num, String.mk (ch :: m), l, c⟩], ?_, ?_⟩
  · show tokenizeGoNoNeg (fuel + 1) ((natDigitsStr k).data ++ rest) l c acc = _
    rw [show ((natDigitsStr k).data : List Char) = natDigits k from rfl, hsh]
    exact tgn_num ch m rest fuel l c acc hd hm hb
  · simp only [List.map_cons, List.map_nil, tvOf]
    rw [show String.mk (ch :: m) = natDigitsStr k from by unfold natDigitsStr; rw [hsh]]

theorem string_data_append (a b : String) : (a ++ b).data = a.data ++ b.data := rfl

mutual

theorem termTok : ∀ (t : Term), goodTerm t = true → Emits (termToString t).data (termSpec t)
  | .var n, hg => by
      unfold goodTerm at hg
      exact Emits.name n hg
  | .num k, _ => Emits.num k
  | .const _, hg => by unfold goodTerm at hg; cases hg
  | .func n args, hg => by
      unfold goodTerm at hg
      simp only [Bool.and_eq_true, Bool.not_eq_true'] at hg
      obtain ⟨⟨h1, h2⟩, h3⟩ := hg
      have hname : Emits n.data [(TokenType.ident, n)] :=
        Emits.congrE rfl (by rw [h2]; rfl) (Emits.name n h1)
      have hargs := termListTok args h3
      have hrp : Emits [')'] [(TokenType.rparen, ")")] :=
        EmitsF.toE (EmitsF.singleF ')' .rparen (by decide) (by decide) (by decide)
          (by decide) (by decide) (by decide) (by decide) (by decide))
      have h4 : Emits ((String.intercalate ", " (termToStringMap args)).data ++ [')'])
          (termSpecList args ++ [(TokenType.rparen, ")")]) :=
        Emits.appendEE hargs hrp (by decide)
      have h5 : Emits ('(' :: ((String.intercalate ", " (termToStringMap args)).data ++ [')']))
          ((TokenType.lparen, "(") :: (termSpecList args ++ [(TokenType.rparen, ")")])) :=
        EmitsF.appendE (EmitsF.singleF '(' .lparen (by decide) (by decide) (by decide)
          (by decide) (by decide) (by decide) (by decide) (by decide)) h4
      have h6 := Emits.appendEE hname h5 rfl
      refine Emits.congrE ?_ rfl h6
      show n.data ++ _ = (n ++ "(" ++ String.intercalate ", " (termToStringMap args) ++ ")").data
      simp [string_data_append, show ("(".data : List Char) = ['('] from rfl,
        show (")".data : List Char) = [')'] from rfl]
  | .paren t, hg => by
      unfold goodTerm at hg
      have h4 : Emits ((termToString t).data ++ [')'])
          (termSpec t ++ [(TokenType.rparen, ")")]) :=
        Emits.appendEE (termTok t hg)
          (EmitsF.toE (EmitsF.singleF ')' .rparen (by decide) (by decide) (by decide)
            (by decide) (by decide) (by decide) (by decide) (by decide)))
          (by decide)
      have h5 : Emits ('(' :: ((termToString t).data ++ [')']))
          ((TokenType.lparen, "(") :: (termSpec t ++ [(TokenType.rparen, ")")])) :=
        EmitsF.appendE (EmitsF.singleF '(' .lparen (by decide) (by decide) (by decide)
          (by decide) (by decide) (by decide) (by decide) (by decide)) h4
      refine Emits.congrE ?_ rfl h5
      show _ = ("(" ++ termToString t ++ ")").data
      simp [string_data_append, show ("(".data : List Char) = ['('] from rfl,
        show (")".data : List Char) = [')'] from rfl]

theorem termListTok : ∀ (l : List Term), goodTermList l = true →
    Emits (String.intercalate ", " (termToStringMap l)).data (termSpecList l)
  | [], _ => Emits.empty
  | [t], hg => by
      simp only [goodTermList, Bool.and_eq_true] at hg
      exact termTok t hg.1
  | t :: t2 :: rest, hg => by
      simp only [goodTermList, Bool.and_eq_true] at hg
      obtain ⟨h1, h2a, h2b⟩ := hg
      have h2 : goodTermList (t2 :: rest) = true := by
        simp only [goodTermList, Bool.and_eq_true]
        exact ⟨h2a, h2b⟩
      have hcomma : EmitsF [',', ' '] [(TokenType.comma, ",")] :=
        EmitsF.appendFF (EmitsF.singleF ',' .comma (by decide) (by decide) (by decide)
          (by decide) (by decide) (by decide) (by decide) (by decide)) EmitsF.spaceF
      have htail := termListTok (t2 :: rest) h2
      have hbig := Emits.appendEE (termTok t h1) (EmitsF.appendE hcomma htail) rfl
      refine Emits.congrE ?_ ?_ hbig
      · rw [show termToStringMap (t :: t2 :: rest)
              = termToString t :: termToString t2 :: termToStringMap rest from rfl,
            intercalate_cons₂]
        show (termToString t).data ++ _ = (termToString t ++ ", "
          ++ String.intercalate ", " (termToString t2 :: termToStringMap rest)).data
        simp [string_data_append, show (", ".data : List Char) = [',', ' '] from rfl]
        rw [show termToStringMap (t2 :: rest)
              = termToString t2 :: termToStringMap rest from rfl]
      · show termSpec t ++ ([(TokenType.comma, ",")] ++ termSpecList (t2 :: rest))
          = (termSpec t ++ [(TokenType.comma, ",")]) ++ termSpecList (t2 :: rest)
        rw [List.append_assoc]

end

theorem relChunk (l r : Term) (opc : Char) (tt : TokenType)
    (h1 : ¬ opc = 'f') (h2 : ¬ opc = 'e') (h3 : ¬ opc = '-') (h4 : ¬ opc = '!')
    (hws : jsWhitespace opc = false) (hsing : opMapSingle opc = some tt)
    (hl : Emits (termToString l).data (termSpec l))
    (hr : Emits (termToString r).data (termSpec r)) :
    Emits (termToString l ++ " " ++ String.singleton opc ++ " " ++ termToString r).data
      (termSpec l ++ [(tt, String.singleton opc)] ++ termSpec r) := by
  have hmid := EmitsF.spOpSp opc tt h1 h2 h3 h4 hws hsing
  have hbig := Emits.appendEE hl (EmitsF.appendE hmid hr) rfl
  refine Emits.congrE ?_ ?_ hbig
  · simp [string_data_append, show (" ".data : List Char) = [' '] from rfl,
      show (String.singleton opc).data = [opc] from rfl]
  · simp [List.append_assoc]

theorem quantAssemble (gc : Char) (gtt : TokenType)
    (g1 : ¬ gc = 'f') (g2 : ¬ gc = 'e') (g3 : ¬ gc = '-') (g4 : ¬ gc = '!')
    (g5 : ¬ gc = '<') (g6 : ¬ gc = '>')
    (gws : jsWhitespace gc = false) (gsing : opMapSingle gc = some gtt)
    (v : String) (hv : goodName v = true) (hvn : isVarName v.data = true)
    (domChars : List Char) (domSpec : List (TokenType × String))
    (hdomF : EmitsF domChars domSpec)
    (bchunk : List Char) (bspec : List (TokenType × String)) (hbody : Emits bchunk bspec)
    (hdb : headBoundary (domChars ++ ('(' :: ' ' :: (bchunk ++ [' ', ')']))) = true) :
    Emits (gc :: (v.data ++ (domChars ++ ('(' :: ' ' :: (bchunk ++ [' ', ')'])))))
      ((gtt, String.singleton gc) :: ((TokenType.var, v) :: (domSpec
        ++ ((TokenType.lparen, "(") :: (bspec ++ [(TokenType.rparen, ")")]))))) := by
  have hend : EmitsF [' ', ')'] [(TokenType.rparen, ")")] :=
    EmitsF.appendFF EmitsF.spaceF (EmitsF.singleF ')' .rparen (by decide) (by decide)
      (by decide) (by decide) (by decide) (by decide) (by decide) (by decide))
  have hb2 := Emits.appendEE hbody (EmitsF.toE hend) rfl
  have hlp : EmitsF ['(', ' '] [(TokenType.lparen, "(")] :=
    EmitsF.appendFF (EmitsF.singleF '(' .lparen (by decide) (by decide) (by decide)
      (by decide) (by decide) (by decide) (by decide) (by decide)) EmitsF.spaceF
  have hb3 := EmitsF.appendE hlp hb2
  have hname : Emits v.data [(TokenType.var, v)] :=
    Emits.congrE rfl (by simp [hvn]) (Emits.name v hv)
  have hvt := Emits.appendEE hname (EmitsF.appendE hdomF hb3) hdb
  have whole := EmitsF.appendE
    (EmitsF.singleF gc gtt g1 g2 g3 g4 g5 g6 gws gsing) hvt
  exact whole

theorem exprTok : ∀ (e : Expr), goodExpr e = true → Emits (exprToString e).data (exprSpec e)
  | .relation op l r, hg => by
      simp only [goodExpr, Bool.and_eq_true] at hg
      obtain ⟨⟨⟨hop, hl⟩, hr⟩, -⟩ := hg
      have hL := termTok l hl
      have hR := termTok r hr
      unfold relOpTok at hop
      split at hop
      · exact relChunk l r '<' .lt (by decide) (by decide) (by decide)
          (by decide) (by decide) (by decide) hL hR
      · exact relChunk l r '≤' .le (by decide) (by decide) (by decide)
          (by decide) (by decide) (by decide) hL hR
      · exact relChunk l r '>' .gt (by decide) (by decide) (by decide)
          (by decide) (by decide) (by decide) hL hR
      · exact relChunk l r '≥' .ge (by decide) (by decide) (by decide)
          (by decide) (by decide) (by decide) hL hR
      · exact relChunk l r '=' .eq (by decide) (by decide) (by decide)
          (by decide) (by decide) (by decide) hL hR
      · exact relChunk l r '≠' .ne (by decide) (by decide) (by decide)
          (by decide) (by decide) (by decide) hL hR
      · exact relChunk l r '∈' .member (by decide) (by decide) (by decide)
          (by decide) (by decide) (by decide) hL hR
      · exact relChunk l r '∉' .notmember (by decide) (by decide) (by decide)
          (by decide) (by decide) (by decide) hL hR
      · simp at hop
  | .quantifier q v dom body, hg => by
      simp only [goodExpr, Bool.and_eq_true] at hg
      obtain ⟨⟨⟨hv, hvn⟩, hd⟩, hb⟩ := hg
      have hbody := exprTok body hb
      cases dom with
      | none =>
          have hdomF : EmitsF ([] : List Char) ([] : List (TokenType × String)) := by
            intro fuel rest l c acc
            exact ⟨l, c, [], by simp, rfl⟩
          cases q with
          | fa =>
              refine Emits.congrE ?_ rfl
                (quantAssemble '∀' .forallQ (by decide) (by decide) (by decide) (by decide)
                  (by decide) (by decide) (by decide) (by decide) v hv hvn [] [] hdomF
                  (exprToString body).data (exprSpec body) hbody rfl)
              simp [exprToString, string_data_append,
                show ("∀".data : List Char) = ['∀'] from rfl,
                show ("( ".data : List Char) = ['(', ' '] from rfl,
                show (" )".data : List Char) = [' ', ')'] from rfl,
                show ("".data : List Char) = [] from rfl]
          | ex =>
              refine Emits.congrE ?_ rfl
                (quantAssemble '∃' .existsQ (by decide) (by decide) (by decide) (by decide)
                  (by decide) (by decide) (by decide) (by decide) v hv hvn [] [] hdomF
                  (exprToString body).data (exprSpec body) hbody rfl)
              simp [exprToString, string_data_append,
                show ("∃".data : List Char) = ['∃'] from rfl,
                show ("( ".data : List Char) = ['(', ' '] from rfl,
                show (" )".data : List Char) = [' ', ')'] from rfl,
                show ("".data : List Char) = [] from rfl]
      | some d =>
          obtain ⟨dn⟩ := d
          simp only [goodDomain, List.contains_cons, Bool.or_eq_true, beq_iff_eq,
            List.contains_nil, Bool.or_false] at hd
          have hassem : ∀ (dc : Char), dn = String.singleton dc →
              opMapSingle dc = some TokenType.domain →
              (¬ dc = 'f') → (¬ dc = 'e') → (¬ dc = '-') → (¬ dc = '!') →
              (¬ dc = '<') → (¬ dc = '>') → jsWhitespace dc = false →
              (¬ isIdentCh dc = true) →
              Emits (exprToString (Expr.quantifier q v (some ⟨dn⟩) body)).data
                (exprSpec (Expr.quantifier q v (some ⟨dn⟩) body)) := by
            intro dc hdn hdc d1 d2 d3 d4 d5 d6 d7 d8
            subst hdn
            have hdomF : EmitsF ['∈', dc, ' ']
                [(TokenType.member, "∈"), (TokenType.domain, String.singleton dc)] :=
              EmitsF.appendFF (EmitsF.appendFF
                (EmitsF.singleF '∈' .member (by decide) (by decide) (by decide) (by decide)
                  (by decide) (by decide) (by decide) (by decide))
                (EmitsF.singleF dc .domain d1 d2 d3 d4 d5 d6 d7 hdc)) EmitsF.spaceF
            cases q with
            | fa =>
                refine Emits.congrE ?_ rfl
                  (quantAssemble '∀' .forallQ (by decide) (by decide) (by decide) (by decide)
                    (by decide) (by decide) (by decide) (by decide) v hv hvn _ _ hdomF
                    (exprToString body).data (exprSpec body) hbody rfl)
                simp [exprToString, string_data_append,
                  show ("∀".data : List Char) = ['∀'] from rfl,
                  show ("∈".data : List Char) = ['∈'] from rfl,
                  show ((String.singleton dc).data : List Char) = [dc] from rfl,
                  show (" ".data : List Char) = [' '] from rfl,
                  show ("( ".data : List Char) = ['(', ' '] from rfl,
                  show (" )".data : List Char) = [' ', ')'] from rfl]
            | ex =>
                refine Emits.congrE ?_ rfl
                  (quantAssemble '∃' .existsQ (by decide) (by decide) (by decide) (by decide)
                    (by decide) (by decide) (by decide) (by decide) v hv hvn _ _ hdomF
                    (exprToString body).data (exprSpec body) hbody rfl)
                simp [exprToString, string_data_append,
                  show ("∃".data : List Char) = ['∃'] from rfl,
                  show ("∈".data : List Char) = ['∈'] from rfl,
                  show ((String.singleton dc).data : List Char) = [dc] from rfl,
                  show (" ".data : List Char) = [' '] from rfl,
                  show ("( ".data : List Char) = ['(', ' '] from rfl,
                  show (" )".data : List Char) = [' ', ')'] from rfl]
          rcases hd with hd | hd | hd | hd | hd
          · exact hassem 'ℝ' (by rw [hd]; rfl) (by decide) (by decide) (by decide)
              (by decide) (by decide) (by decide) (by decide) (by decide) (by decide)
          · exact hassem 'ℤ' (by rw [hd]; rfl) (by decide) (by decide) (by decide)
              (by decide) (by decide) (by decide) (by decide) (by decide) (by decide)
          · exact hassem 'ℚ' (by rw [hd]; rfl) (by decide) (by decide) (by decide)
              (by decide) (by decide) (by decide) (by decide) (by decide) (by decide)
          · exact hassem 'ℕ' (by rw [hd]; rfl) (by decide) (by decide) (by decide)
              (by decide) (by decide) (by decide) (by decide) (by decide) (by decide)
          · exact hassem 'ℂ' (by rw [hd]; rfl) (by decide) (by decide) (by decide)
              (by decide) (by decide) (by decide) (by decide) (by decide) (by decide)
  | .negation _, hg => by unfold goodExpr at hg; cases hg
  | .binary _ _ _, hg => by unfold goodExpr at hg; cases hg
  | .predicate _ _, hg => by unfold goodExpr at hg; cases hg

theorem goodName_len (s : String) (h : goodName s = true) : 1 ≤ s.data.length := by
  unfold goodName at h
  simp only [Bool.and_eq_true] at h
  obtain ⟨⟨hs, -⟩, -⟩ := h
  cases hd : s.data with
  | nil => rw [hd] at hs; cases hs
  | cons c m => simp

mutual

theorem termSpec_le : ∀ (t : Term), goodTerm t = true →
    (termSpec t).length ≤ (termToString t).data.length
  | .var n, hg => by
      unfold goodTerm at hg
      have := goodName_len n hg
      simp only [termSpec, List.length_cons, List.length_nil]
      exact this
  | .num k, _ => by
      obtain ⟨ch, m, hsh, -, -⟩ := natDigits_shape k
      show 1 ≤ (natDigits k).length
      rw [hsh]
      simp
  | .const _, hg => by unfold goodTerm at hg; cases hg
  | .func n args, hg => by
      unfold goodTerm at hg
      simp only [Bool.and_eq_true, Bool.not_eq_true'] at hg
      obtain ⟨⟨h1, -⟩, h3⟩ := hg
      have ha := termSpecList_le args h3
      have hn := goodName_len n h1
      show ((TokenType.ident, n) :: (TokenType.lparen, "(") ::
        (termSpecList args ++ [(TokenType.rparen, ")")])).length
        ≤ ((n ++ "(" ++ String.intercalate ", " (termToStringMap args) ++ ")").data).length
      simp only [List.length_cons, List.length_append, List.length_nil,
        string_data_append, show ("(".data : List Char) = ['('] from rfl,
        show (")".data : List Char) = [')'] from rfl]
      omega
  | .paren t, hg => by
      unfold goodTerm at hg
      have := termSpec_le t hg
      show ((TokenType.lparen, "(") :: (termSpec t ++ [(TokenType.rparen, ")")])).length
        ≤ (("(" ++ termToString t ++ ")").data).length
      simp only [List.length_cons, List.length_append, List.length_nil, string_data_append,
        show ("(".data : List Char) = ['('] from rfl,
        show (")".data : List Char) = [')'] from rfl]
      omega

theorem termSpecList_le : ∀ (l : List Term), goodTermList l = true →
    (termSpecList l).length ≤ (String.intercalate ", " (termToStringMap l)).data.length
  | [], _ => by simp [termSpecList]
  | [t], hg => by
      simp only [goodTermList, Bool.and_eq_true] at hg
      exact termSpec_le t hg.1
  | t :: t2 :: rest, hg => by
      simp only [goodTermList, Bool.and_eq_true] at hg
      obtain ⟨h1, h2a, h2b⟩ := hg
      have ht := termSpec_le t h1
      have htl := termSpecList_le (t2 :: rest) (by
        simp only [goodTermList, Bool.and_eq_true]
        exact ⟨h2a, h2b⟩)
      rw [show termToStringMap (t :: t2 :: rest)
            = termToString t :: termToString t2 :: termToStringMap rest from rfl,
          intercalate_cons₂,
          show termSpecList (t :: t2 :: rest)
            = termSpec t ++ [(TokenType.comma, ",")] ++ termSpecList (t2 :: rest) from rfl]
      rw [show termToString t2 :: termToStringMap rest
            = termToStringMap (t2 :: rest) from rfl] at *
      simp only [List.length_append, List.length_cons, List.length_nil, string_data_append,
        show (", ".data : List Char) = [',', ' '] from rfl]
      omega

end

theorem exprSpec_le : ∀ (e : Expr), goodExpr e = true →
    (exprSpec e).length ≤ (exprToString e).data.length
  | .relation op l r, hg => by
      simp only [goodExpr, Bool.and_eq_true] at hg
      obtain ⟨⟨⟨-, hl⟩, hr⟩, -⟩ := hg
      have h1 := termSpec_le l hl
      have h2 := termSpec_le r hr
      show (termSpec l ++ [((relOpTok op).getD .eof, op)] ++ termSpec r).length
        ≤ ((termToString l ++ " " ++ op ++ " " ++ termToString r).data).length
      simp only [List.length_append, List.length_cons, List.length_nil, string_data_append,
        show (" ".data : List Char) = [' '] from rfl]
      omega
  | .quantifier q v dom body, hg => by
      simp only [goodExpr, Bool.and_eq_true] at hg
      obtain ⟨⟨⟨hv, -⟩, -⟩, hb⟩ := hg
      have h1 := exprSpec_le body hb
      have h2 := goodName_len v hv
      cases dom with
      | none =>
          show ((if q = QuantifierKind.fa then (TokenType.forallQ, "∀")
              else (TokenType.existsQ, "∃")) :: (TokenType.var, v) :: ([]
              ++ ((TokenType.lparen, "(") :: (exprSpec body ++ [(TokenType.rparen, ")")])))).length
            ≤ (((match q with | .fa => "∀" | .ex => "∃") ++ v ++ ""
                ++ "( " ++ exprToString body ++ " )").data).length
          cases q <;>
            (simp only [List.length_cons, List.nil_append, List.length_append, List.length_nil,
              string_data_append,
              show ("∀".data : List Char) = ['∀'] from rfl,
              show ("∃".data : List Char) = ['∃'] from rfl,
              show ("".data : List Char) = [] from rfl,
              show ("( ".data : List Char) = ['(', ' '] from rfl,
              show (" )".data : List Char) = [' ', ')'] from rfl, List.length_cons]
             omega)
      | some d =>
          show ((if q = QuantifierKind.fa then (TokenType.forallQ, "∀")
              else (TokenType.existsQ, "∃")) :: (TokenType.var, v)
              :: ([(TokenType.member, "∈"), (TokenType.domain, d.name)]
              ++ ((TokenType.lparen, "(") :: (exprSpec body ++ [(TokenType.rparen, ")")])))).length
            ≤ (((match q with | .fa => "∀" | .ex => "∃") ++ v ++ ("∈" ++ d.name ++ " ")
                ++ "( " ++ exprToString body ++ " )").data).length
          cases q <;>
            (simp only [List.length_cons, List.cons_append, List.nil_append, List.length_append,
              List.length_nil, string_data_append,
              show ("∀".data : List Char) = ['∀'] from rfl,
              show ("∃".data : List Char) = ['∃'] from rfl,
              show ("∈".data : List Char) = ['∈'] from rfl,
              show (" ".data : List Char) = [' '] from rfl,
              show ("( ".data : List Char) = ['(', ' '] from rfl,
              show (" )".data : List Char) = [' ', ')'] from rfl, List.length_cons]
             omega)
  | .negation _, hg => by unfold goodExpr at hg; cases hg
  | .binary _ _ _, hg => by unfold goodExpr at hg; cases hg
  | .predicate _ _, hg => by unfold goodExpr at hg; cases hg

theorem tokenize_good (e : Expr) (hg : goodExpr e = true) :
    ∃ (toks : List Token) (l2 c2 : Nat),
      tokenize (exprToString e) = .ok (toks ++ [⟨TokenType.eof, "", l2, c2⟩])
      ∧ toks.map tvOf = exprSpec e := by
  have hE := exprTok e hg
  have hlen := exprSpec_le e hg
  obtain ⟨k, hk⟩ : ∃ k, (exprToString e).data.length + 1 - (exprSpec e).length = k + 1 :=
    ⟨(exprToString e).data.length - (exprSpec e).length, by omega⟩
  obtain ⟨l2, c2, toks, heq, hmap⟩ := hE (k + 1) [] 1 1 [] rfl
  rw [List.append_nil, List.nil_append] at heq
  have hfuel : k + 1 + (exprSpec e).length = (exprToString e).data.length + 1 := by omega
  rw [hfuel] at heq
  refine ⟨toks, l2, c2, ?_, hmap⟩
  unfold tokenize
  rw [tokenizeGo_noNeg _ _ _ _ [] (by intro t ht; cases ht), heq, tgn_done]

theorem takeWhile_all {α : Type} (p : α → Bool) :
    ∀ (l : List α), l.all p = true → l.takeWhile p = l := by
  intro l
  induction l with
  | nil => intro h; rfl
  | cons a m ih =>
      intro h
      simp only [List.all_cons, Bool.and_eq_true] at h
      rw [List.takeWhile_cons_of_pos h.1, ih h.2]

theorem digitChar_toNat (d : Nat) (h : d < 10) : (digitChar d).toNat - 48 = d := by
  interval_cases d <;> decide

theorem natDigitsAux_foldl : ∀ (fuel n acc : Nat), n < 10 ^ fuel →
    (natDigitsAux fuel n).foldl (fun a c => a * 10 + (c.toNat - 48)) acc
      = acc * 10 ^ (natDigitsAux fuel n).length + n := by
  intro fuel
  induction fuel with
  | zero =>
      intro n acc h
      simp only [pow_zero, Nat.lt_one_iff] at h
      subst h
      simp [natDigitsAux]
  | succ f ih =>
      intro n acc h
      unfold natDigitsAux
      split
      · rename_i h10
        simp only [List.foldl_cons, List.foldl_nil, List.length_cons, List.length_nil]
        rw [digitChar_toNat n h10]
        simp [pow_one]
      · rename_i h10
        rw [List.foldl_append, ih (n / 10) acc (by
          rw [Nat.div_lt_iff_lt_mul (by omega)]
          calc n < 10 ^ (f + 1) := h
            _ = 10 ^ f * 10 := by rw [pow_succ]
            _ ≤ 10 ^ f * 10 := le_refl _)]
        simp only [List.foldl_cons, List.foldl_nil, List.length_append, List.length_cons,
          List.length_nil]
        rw [digitChar_toNat (n % 10) (Nat.mod_lt n (by omega))]
        rw [pow_succ]
        have := Nat.div_add_mod n 10
        ring_nf
        omega

theorem jsParseFloat_natDigits (k : Nat) :
    LogicParser.jsParseFloatDigits (natDigitsStr k) = k := by
  unfold LogicParser.jsParseFloatDigits
  rw [show (natDigitsStr k).data = natDigits k from rfl,
      show natDigits k = natDigitsAux (k + 1) k from rfl,
      takeWhile_all _ _ (natDigitsAux_all_digit (k + 1) k),
      natDigitsAux_foldl (k + 1) k 0 (lt_of_lt_of_le (Nat.lt_pow_self (by norm_num) k)
        (Nat.pow_le_pow_right (by norm_num) (by omega)))]
  simp

theorem except_bind_ok {ε α β : Type} (a : α) (f : α → Except ε β) :
    (Except.ok a >>= f : Except ε β) = f a := rfl

theorem except_pure {ε α : Type} (a : α) : (pure a : Except ε α) = Except.ok a := rfl

theorem map_tvOf_cons {pre : List Token} {a : TokenType} {b : String}
    {l : List (TokenType × String)} (h : pre.map tvOf = (a, b) :: l) :
    ∃ tk pre2, pre = tk :: pre2 ∧ tk.type = a ∧ tk.value = b ∧ pre2.map tvOf = l := by
  cases pre with
  | nil => cases h
  | cons tk pre2 =>
      simp only [List.map_cons, List.cons.injEq, tvOf, Prod.mk.injEq] at h
      exact ⟨tk, pre2, rfl, h.1.1, h.1.2, h.2⟩

theorem map_tvOf_nil {pre : List Token} (h : pre.map tvOf = []) : pre = [] := by
  cases pre with
  | nil => rfl
  | cons tk pre2 => cases h

theorem map_tvOf_append {s1 : List (TokenType × String)} :
    ∀ {pre : List Token} {s2 : List (TokenType × String)},
      pre.map tvOf = s1 ++ s2 →
      ∃ p1 p2, pre = p1 ++ p2 ∧ p1.map tvOf = s1 ∧ p2.map tvOf = s2 := by
  induction s1 with
  | nil => intro pre s2 h; exact ⟨[], pre, rfl, rfl, h⟩
  | cons x l ih =>
      intro pre s2 h
      obtain ⟨a, b⟩ := x
      obtain ⟨tk, pre2, hpre, ht, hv, hm⟩ := map_tvOf_cons h
      obtain ⟨p1, p2, hp, h1, h2⟩ := ih hm
      refine ⟨tk :: p1, p2, by rw [hpre, hp]; rfl, ?_, h2⟩
      simp [tvOf, ht, hv, h1]

theorem adv_cons (tk : Token) (x : List Token) (h : ¬ tk.type = TokenType.eof) :
    LogicParser.adv (tk :: x) = x := by
  unfold LogicParser.adv
  rw [if_neg (show ¬ (LogicParser.curTok (tk :: x)).type = TokenType.eof from h)]
  rfl

theorem expect_good (tt : TokenType) (alts : Option (List TokenType)) (tk : Token)
    (ts : List Token) (ht : tk.type = tt) (hne : ¬ tt = TokenType.eof) :
    ∃ res : LogicParser.KRes (tk :: ts).length,
      LogicParser.expect tt alts (tk :: ts) = .ok res ∧ res.tk = tk ∧ res.rest = ts := by
  refine ⟨⟨LogicParser.curTok (tk :: ts), LogicParser.adv (tk :: ts),
    LogicParser.adv_len_le _⟩, ?_, rfl, ?_⟩
  · unfold LogicParser.expect
    dsimp only
    rw [if_pos (show (LogicParser.curTok (tk :: ts)).type = tt from ht)]
  · show LogicParser.adv (tk :: ts) = ts
    exact adv_cons tk ts (by rw [ht]; exact hne)

/-- The comma-led continuation of a printed argument list after its first
    argument. -/
def termTailSpec : List Term → List (TokenType × String)
  | [] => []
  | t :: ts => (TokenType.comma, ",") :: (termSpec t ++ termTailSpec ts)

theorem termSpecList_decomp : ∀ (t : Term) (ts : List Term),
    termSpecList (t :: ts) = termSpec t ++ termTailSpec ts
  | _, [] => by simp [termSpecList, termTailSpec]
  | t, t2 :: ts2 => by
      rw [show termSpecList (t :: t2 :: ts2)
            = termSpec t ++ [(TokenType.comma, ",")] ++ termSpecList (t2 :: ts2) from rfl,
          termSpecList_decomp t2 ts2]
      simp [termTailSpec, List.append_assoc]

theorem termSpec_head : ∀ (a : Term), goodTerm a = true →
    ∃ x l, termSpec a = x :: l
      ∧ ¬ (x : TokenType × String).1 = TokenType.rparen
      ∧ ¬ x.1 = TokenType.comma := by
  intro a hg
  match a with
  | .var n =>
      refine ⟨_, _, rfl, ?_, ?_⟩ <;> cases hvn : isVarName n.data <;> simp [hvn]
  | .num k => exact ⟨_, _, rfl, by simp, by simp⟩
  | .const _ => exact absurd hg (by simp [goodTerm])
  | .func n args => exact ⟨_, _, rfl, by simp, by simp⟩
  | .paren t => exact ⟨_, _, rfl, by simp, by simp⟩

theorem curTok_of_spec (p rest2 : List Token) (a : TokenType) (b : String)
    (l : List (TokenType × String)) (hm : p.map tvOf = (a, b) :: l) :
    (LogicParser.curTok (p ++ rest2)).type = a := by
  obtain ⟨tk, p2, hp, ht, -, -⟩ := map_tvOf_cons hm
  rw [hp]
  exact ht

theorem curTok_tail_spec (more : List Term) (pmore rest : List Token)
    (hm : pmore.map tvOf = termTailSpec more)
    (hr : (LogicParser.curTok rest).type = TokenType.rparen) :
    ¬ (LogicParser.curTok (pmore ++ rest)).type = TokenType.lparen := by
  cases more with
  | nil =>
      have h0 : pmore = [] := map_tvOf_nil hm
      subst h0
      rw [List.nil_append, hr]
      decide
  | cons a m =>
      rw [curTok_of_spec pmore rest _ _ _ hm]
      decide


theorem tres_ok_eq {n : Nat} (a b : Term) (r1 r2 : List Token)
    (h1 : r1.length ≤ n) (h2 : r2.length ≤ n) (ha : a = b) (hr : r1 = r2) :
    (Except.ok ⟨a, r1, h1⟩ : Except LogicParser.ParseError (LogicParser.TRes n))
      = .ok ⟨b, r2, h2⟩ := by
  subst ha
  subst hr
  rfl

theorem tlres_ok_eq {n : Nat} (a b : List Term) (r1 r2 : List Token)
    (h1 : r1.length ≤ n) (h2 : r2.length ≤ n) (ha : a = b) (hr : r1 = r2) :
    (Except.ok ⟨a, r1, h1⟩ : Except LogicParser.ParseError (LogicParser.TLRes n))
      = .ok ⟨b, r2, h2⟩ := by
  subst ha
  subst hr
  rfl

theorem pres_ok_eq {n : Nat} (a b : Expr) (r1 r2 : List Token)
    (h1 : r1.length ≤ n) (h2 : r2.length ≤ n) (ha : a = b) (hr : r1 = r2) :
    (Except.ok ⟨a, r1, h1⟩ : Except LogicParser.ParseError (LogicParser.PRes n))
      = .ok ⟨b, r2, h2⟩ := by
  subst ha
  subst hr
  rfl




mutual

theorem parseTermGood : ∀ (t : Term), goodTerm t = true →
    ∀ (fuel : Nat) (pre rest : List Token),
      pre.map tvOf = termSpec t →
      ¬ (LogicParser.curTok rest).type = TokenType.lparen →
      (termSpec t).length < fuel →
      ∃ res : LogicParser.TRes (pre ++ rest).length,
        LogicParser.parseTerm fuel (pre ++ rest) = .ok res ∧ res.t = t ∧ res.rest = rest
  | .var n, hg => by
      intro fuel pre rest hmap hnext hfuel
      cases fuel with
      | zero => omega
      | succ f =>
          rw [show termSpec (.var n) = [(if isVarName n.data then TokenType.var
              else TokenType.ident, n)] from rfl] at hmap
          by_cases hvn : isVarName n.data = true
          · rw [if_pos hvn] at hmap
            obtain ⟨tk, pre2, hpre, ht, hv, hm2⟩ := map_tvOf_cons hmap
            have hpre2 := map_tvOf_nil hm2
            subst hpre2
            subst hpre
            refine ⟨⟨.var n, rest, by simp only [List.length_append, List.length_cons, List.length_nil]; omega⟩, ?_, rfl, rfl⟩
            show LogicParser.parseTerm (f + 1) (tk :: rest) = _
            unfold LogicParser.parseTerm
            rw [if_pos (show (LogicParser.curTok (tk :: rest)).type = TokenType.var from ht)]
            exact tres_ok_eq _ _ _ _ _ _
              (by show Term.var tk.value = Term.var n; rw [hv])
              (adv_cons tk rest (by rw [ht]; decide))
          · rw [if_neg hvn] at hmap
            obtain ⟨tk, pre2, hpre, ht, hv, hm2⟩ := map_tvOf_cons hmap
            have hpre2 := map_tvOf_nil hm2
            subst hpre2
            subst hpre
            refine ⟨⟨.var n, rest, by simp only [List.length_append, List.length_cons, List.length_nil]; omega⟩, ?_, rfl, rfl⟩
            show LogicParser.parseTerm (f + 1) (tk :: rest) = _
            unfold LogicParser.parseTerm
            rw [if_neg (show ¬ (LogicParser.curTok (tk :: rest)).type = TokenType.var from
                  by show ¬ tk.type = TokenType.var; rw [ht]; decide),
                if_neg (show ¬ (LogicParser.curTok (tk :: rest)).type = TokenType.num from
                  by show ¬ tk.type = TokenType.num; rw [ht]; decide),
                dif_neg (show ¬ (LogicParser.curTok (tk :: rest)).type = TokenType.lparen from
                  by show ¬ tk.type = TokenType.lparen; rw [ht]; decide),
                dif_pos (show (LogicParser.curTok (tk :: rest)).type = TokenType.ident from ht)]
            dsimp only
            rw [if_neg hnext]
            exact tres_ok_eq _ _ _ _ _ _
              (by show Term.var tk.value = Term.var n; rw [hv]) rfl
  | .num k, _ => by
      intro fuel pre rest hmap hnext hfuel
      cases fuel with
      | zero => omega
      | succ f =>
          rw [show termSpec (.num k) = [(TokenType.num, natDigitsStr k)] from rfl] at hmap
          obtain ⟨tk, pre2, hpre, ht, hv, hm2⟩ := map_tvOf_cons hmap
          have hpre2 := map_tvOf_nil hm2
          subst hpre2
          subst hpre
          refine ⟨⟨.num k, rest, by simp only [List.length_append, List.length_cons, List.length_nil]; omega⟩, ?_, rfl, rfl⟩
          show LogicParser.parseTerm (f + 1) (tk :: rest) = _
          unfold LogicParser.parseTerm
          rw [if_neg (show ¬ (LogicParser.curTok (tk :: rest)).type = TokenType.var from
                by show ¬ tk.type = TokenType.var; rw [ht]; decide),
              if_pos (show (LogicParser.curTok (tk :: rest)).type = TokenType.num from ht)]
          exact tres_ok_eq _ _ _ _ _ _
            (by show Term.num (LogicParser.jsParseFloatDigits tk.value) = Term.num k
                rw [hv, jsParseFloat_natDigits])
            (adv_cons tk rest (by rw [ht]; decide))
  | .const _, hg => by
      intro fuel pre rest hmap hnext hfuel
      exact absurd hg (by simp [goodTerm])
  | .func n args, hg => by
      intro fuel pre rest hmap hnext hfuel
      unfold goodTerm at hg
      simp only [Bool.and_eq_true, Bool.not_eq_true'] at hg
      obtain ⟨⟨hgn, hnv⟩, hga⟩ := hg
      cases fuel with
      | zero => omega
      | succ f =>
          rw [show termSpec (.func n args) = (TokenType.ident, n) :: (TokenType.lparen, "(")
              :: (termSpecList args ++ [(TokenType.rparen, ")")]) from rfl] at hmap hfuel
          simp only [List.length_cons, List.length_append, List.length_nil] at hfuel
          obtain ⟨tk1, pre1, hpre1, ht1, hv1, hm1⟩ := map_tvOf_cons hmap
          obtain ⟨tk2, pre2, hpre2, ht2, hv2, hm2⟩ := map_tvOf_cons hm1
          obtain ⟨pmid, prp, hpm, hmm, hmr⟩ := map_tvOf_append hm2
          obtain ⟨tkr, pnil, hprp, htr, hvr, hm3⟩ := map_tvOf_cons hmr
          have hpn : pnil = [] := map_tvOf_nil hm3
          subst hpn
          subst hprp
          subst hpm
          subst hpre2
          subst hpre1
          cases args with
          | nil =>
              have hpmid : pmid = [] := map_tvOf_nil hmm
              subst hpmid
              rw [show (tk1 :: tk2 :: (([] : List Token) ++ [tkr])) ++ rest
                    = tk1 :: tk2 :: tkr :: rest from by simp]
              refine ⟨⟨.func n [], rest, by simp only [List.length_append, List.length_cons, List.length_nil]; omega⟩, ?_, rfl, rfl⟩
              show LogicParser.parseTerm (f + 1) (tk1 :: tk2 :: tkr :: rest) = _
              unfold LogicParser.parseTerm
              rw [if_neg (show ¬ (LogicParser.curTok (tk1 :: tk2 :: tkr :: rest)).type
                    = TokenType.var from by
                    show ¬ tk1.type = TokenType.var; rw [ht1]; decide),
                  if_neg (show ¬ (LogicParser.curTok (tk1 :: tk2 :: tkr :: rest)).type
                    = TokenType.num from by
                    show ¬ tk1.type = TokenType.num; rw [ht1]; decide),
                  dif_neg (show ¬ (LogicParser.curTok (tk1 :: tk2 :: tkr :: rest)).type
                    = TokenType.lparen from by
                    show ¬ tk1.type = TokenType.lparen; rw [ht1]; decide),
                  dif_pos (show (LogicParser.curTok (tk1 :: tk2 :: tkr :: rest)).type
                    = TokenType.ident from ht1)]
              dsimp only
              rw [if_pos (show (LogicParser.curTok (tk2 :: tkr :: rest)).type
                    = TokenType.lparen from ht2)]
              have hadv : LogicParser.adv (tk2 :: tkr :: rest) = tkr :: rest :=
                adv_cons _ _ (by rw [ht2]; decide)
              rw [dif_pos (show (LogicParser.curTok (LogicParser.adv (tk2 :: tkr :: rest))).type
                    = TokenType.rparen from by rw [hadv]; exact htr)]
              have hexp : ∃ res : LogicParser.KRes (LogicParser.adv (tk2 :: tkr :: rest)).length,
                  LogicParser.expect TokenType.rparen none (LogicParser.adv (tk2 :: tkr :: rest))
                    = .ok res ∧ res.tk = tkr ∧ res.rest = rest := by
                rw [hadv]
                exact expect_good TokenType.rparen none tkr rest htr (by decide)
              obtain ⟨kres, hke, hktk, hkrest⟩ := hexp
              rw [hke, except_bind_ok]
              try dsimp only
              exact tres_ok_eq _ _ _ _ _ _ (by rw [hv1]) hkrest
          | cons a more =>
              rw [termSpecList_decomp a more] at hmm
              obtain ⟨pa, pmore, hpm2, hma, hmt⟩ := map_tvOf_append hmm
              subst hpm2
              simp only [goodTermList, Bool.and_eq_true] at hga
              obtain ⟨hgaa, hgam⟩ := hga
              have hlen2 : (termSpecList (a :: more)).length
                  = (termSpec a).length + (termTailSpec more).length := by
                rw [termSpecList_decomp]
                simp
              obtain ⟨⟨xa, xb⟩, xl, hxs, hxrp, hxc⟩ := termSpec_head a hgaa
              rw [show (tk1 :: tk2 :: ((pa ++ pmore) ++ [tkr])) ++ rest
                    = tk1 :: tk2 :: (pa ++ (pmore ++ tkr :: rest)) from by simp]
              refine ⟨⟨.func n (a :: more), rest, by simp only [List.length_append, List.length_cons, List.length_nil]; omega⟩, ?_, rfl, rfl⟩
              show LogicParser.parseTerm (f + 1)
                (tk1 :: tk2 :: (pa ++ (pmore ++ tkr :: rest))) = _
              unfold LogicParser.parseTerm
              rw [if_neg (show ¬ (LogicParser.curTok (tk1 :: tk2 :: (pa ++ (pmore
                    ++ tkr :: rest)))).type = TokenType.var from by
                    show ¬ tk1.type = TokenType.var; rw [ht1]; decide),
                  if_neg (show ¬ (LogicParser.curTok (tk1 :: tk2 :: (pa ++ (pmore
                    ++ tkr :: rest)))).type = TokenType.num from by
                    show ¬ tk1.type = TokenType.num; rw [ht1]; decide),
                  dif_neg (show ¬ (LogicParser.curTok (tk1 :: tk2 :: (pa ++ (pmore
                    ++ tkr :: rest)))).type = TokenType.lparen from by
                    show ¬ tk1.type = TokenType.lparen; rw [ht1]; decide),
                  dif_pos (show (LogicParser.curTok (tk1 :: tk2 :: (pa ++ (pmore
                    ++ tkr :: rest)))).type = TokenType.ident from ht1)]
              dsimp only
              rw [if_pos (show (LogicParser.curTok (tk2 :: (pa ++ (pmore
                    ++ tkr :: rest)))).type = TokenType.lparen from ht2)]
              have hadv : LogicParser.adv (tk2 :: (pa ++ (pmore ++ tkr :: rest)))
                  = pa ++ (pmore ++ tkr :: rest) :=
                adv_cons _ _ (by rw [ht2]; decide)
              rw [← hma] at hxs
              rw [dif_neg (show ¬ (LogicParser.curTok (LogicParser.adv (tk2 :: (pa ++ (pmore
                    ++ tkr :: rest))))).type = TokenType.rparen from by
                  rw [hadv, curTok_of_spec pa (pmore ++ tkr :: rest) xa xb xl hxs]
                  exact hxrp)]
              have hnext2 : ¬ (LogicParser.curTok (pmore ++ tkr :: rest)).type
                  = TokenType.lparen :=
                curTok_tail_spec more pmore (tkr :: rest) hmt htr
              have hpt : ∃ res : LogicParser.TRes
                    (LogicParser.adv (tk2 :: (pa ++ (pmore ++ tkr :: rest)))).length,
                  LogicParser.parseTerm f (LogicParser.adv (tk2 :: (pa ++ (pmore
                    ++ tkr :: rest)))) = .ok res ∧ res.t = a ∧ res.rest = pmore ++ tkr :: rest := by
                rw [hadv]
                exact parseTermGood a hgaa f pa (pmore ++ tkr :: rest) hma hnext2 (by omega)
              obtain ⟨⟨art, arrest, arle⟩, hae, hat, har⟩ := hpt
              have hat2 : art = a := hat
              have har2 : arrest = pmore ++ tkr :: rest := har
              rw [hae, except_bind_ok]
              try dsimp only
              have hloop : ∃ res : LogicParser.TLRes arrest.length,
                  LogicParser.termArgsLoop f [art] arrest = .ok res
                    ∧ res.args = [art] ++ more ∧ res.rest = tkr :: rest := by
                rw [har2]
                exact termArgsLoopGood more hgam [art] f pmore (tkr :: rest) hmt htr (by omega)
              obtain ⟨⟨largs, lrest, lle⟩, hle2, hla, hlr⟩ := hloop
              have hla2 : largs = [art] ++ more := hla
              have hlr2 : lrest = tkr :: rest := hlr
              rw [hle2, except_bind_ok]
              try dsimp only
              have hexp : ∃ res : LogicParser.KRes lrest.length,
                  LogicParser.expect TokenType.rparen none lrest
                    = .ok res ∧ res.tk = tkr ∧ res.rest = rest := by
                rw [hlr2]
                exact expect_good TokenType.rparen none tkr rest htr (by decide)
              obtain ⟨kres, hke, hktk, hkrest⟩ := hexp
              rw [hke, except_bind_ok]
              try dsimp only
              refine tres_ok_eq _ _ _ _ _ _ ?_ hkrest
              rw [hv1, hla2, hat2]
              rfl
  | .paren t, hg => by
      intro fuel pre rest hmap hnext hfuel
      unfold goodTerm at hg
      cases fuel with
      | zero => omega
      | succ f =>
          rw [show termSpec (.paren t) = (TokenType.lparen, "(")
              :: (termSpec t ++ [(TokenType.rparen, ")")]) from rfl] at hmap hfuel
          simp only [List.length_cons, List.length_append, List.length_nil] at hfuel
          obtain ⟨tk1, pre1, hpre1, ht1, hv1, hm1⟩ := map_tvOf_cons hmap
          obtain ⟨pt, prp, hpm, hmt, hmr⟩ := map_tvOf_append hm1
          obtain ⟨tkr, pnil, hprp, htr, hvr, hm3⟩ := map_tvOf_cons hmr
          have hpn : pnil = [] := map_tvOf_nil hm3
          subst hpn
          subst hprp
          subst hpm
          subst hpre1
          rw [show (tk1 :: (pt ++ [tkr])) ++ rest = tk1 :: (pt ++ tkr :: rest) from by simp]
          refine ⟨⟨.paren t, rest, by simp only [List.length_append, List.length_cons, List.length_nil]; omega⟩, ?_, rfl, rfl⟩
          show LogicParser.parseTerm (f + 1) (tk1 :: (pt ++ tkr :: rest)) = _
          unfold LogicParser.parseTerm
          rw [if_neg (show ¬ (LogicParser.curTok (tk1 :: (pt ++ tkr :: rest))).type
                = TokenType.var from by
                show ¬ tk1.type = TokenType.var; rw [ht1]; decide),
              if_neg (show ¬ (LogicParser.curTok (tk1 :: (pt ++ tkr :: rest))).type
                = TokenType.num from by
                show ¬ tk1.type = TokenType.num; rw [ht1]; decide),
              dif_pos (show (LogicParser.curTok (tk1 :: (pt ++ tkr :: rest))).type
                = TokenType.lparen from ht1)]
          dsimp only
          obtain ⟨⟨irt, irrest, irle⟩, hie, hit, hir⟩ := parseTermGood t hg f pt
            (tkr :: rest) hmt
            (by show ¬ (LogicParser.curTok (tkr :: rest)).type = TokenType.lparen
                show ¬ tkr.type = TokenType.lparen
                rw [htr]
                decide)
            (by omega)
          have hit2 : irt = t := hit
          have hir2 : irrest = tkr :: rest := hir
          rw [hie, except_bind_ok]
          try dsimp only
          have hexp : ∃ res : LogicParser.KRes irrest.length,
              LogicParser.expect TokenType.rparen none irrest
                = .ok res ∧ res.tk = tkr ∧ res.rest = rest := by
            rw [hir2]
            exact expect_good TokenType.rparen none tkr rest htr (by decide)
          obtain ⟨kres, hke, hktk, hkrest⟩ := hexp
          rw [hke, except_bind_ok]
          try dsimp only
          exact tres_ok_eq _ _ _ _ _ _ (by rw [hit2]) hkrest

theorem termArgsLoopGood : ∀ (args : List Term), goodTermList args = true →
    ∀ (acc : List Term) (fuel : Nat) (pre rest : List Token),
      pre.map tvOf = termTailSpec args →
      (LogicParser.curTok rest).type = TokenType.rparen →
      (termTailSpec args).length < fuel →
      ∃ res : LogicParser.TLRes (pre ++ rest).length,
        LogicParser.termArgsLoop fuel acc (pre ++ rest) = .ok res
          ∧ res.args = acc ++ args ∧ res.rest = rest
  | [], _ => by
      intro acc fuel pre rest hmap hr hfuel
      have h0 : pre = [] := map_tvOf_nil hmap
      subst h0
      cases fuel with
      | zero => omega
      | succ f =>
          refine ⟨⟨acc, rest, le_refl _⟩, ?_, by simp, rfl⟩
          show LogicParser.termArgsLoop (f + 1) acc rest = _
          unfold LogicParser.termArgsLoop
          rw [dif_neg (show ¬ (LogicParser.curTok rest).type = TokenType.comma from
            by rw [hr]; decide)]
  | a :: more, hga => by
      intro acc fuel pre rest hmap hr hfuel
      simp only [goodTermList, Bool.and_eq_true] at hga
      obtain ⟨hgaa, hgam⟩ := hga
      cases fuel with
      | zero => omega
      | succ f =>
          rw [show termTailSpec (a :: more) = (TokenType.comma, ",")
              :: (termSpec a ++ termTailSpec more) from rfl] at hmap hfuel
          simp only [List.length_cons, List.length_append] at hfuel
          obtain ⟨tkc, pre1, hpre1, htc, hvc, hm1⟩ := map_tvOf_cons hmap
          obtain ⟨pa, pmore, hpm, hma, hmt⟩ := map_tvOf_append hm1
          subst hpm
          subst hpre1
          rw [show (tkc :: (pa ++ pmore)) ++ rest = tkc :: (pa ++ (pmore ++ rest))
                from by simp]
          refine ⟨⟨acc ++ (a :: more), rest, by simp only [List.length_append, List.length_cons, List.length_nil]; omega⟩, ?_, rfl, rfl⟩
          show LogicParser.termArgsLoop (f + 1) acc (tkc :: (pa ++ (pmore ++ rest))) = _
          unfold LogicParser.termArgsLoop
          rw [dif_pos (show (LogicParser.curTok (tkc :: (pa ++ (pmore ++ rest)))).type
                = TokenType.comma from htc)]
          dsimp only
          obtain ⟨⟨art, arrest, arle⟩, hae, hat, har⟩ := parseTermGood a hgaa f pa
            (pmore ++ rest) hma (curTok_tail_spec more pmore rest hmt hr) (by omega)
          have hat2 : art = a := hat
          have har2 : arrest = pmore ++ rest := har
          rw [hae, except_bind_ok]
          try dsimp only
          have hloop : ∃ res : LogicParser.TLRes arrest.length,
              LogicParser.termArgsLoop f (acc ++ [art]) arrest = .ok res
                ∧ res.args = (acc ++ [art]) ++ more ∧ res.rest = rest := by
            rw [har2]
            exact termArgsLoopGood more hgam (acc ++ [art]) f pmore rest hmt hr (by omega)
          obtain ⟨⟨largs, lrest, lle⟩, hle2, hla, hlr⟩ := hloop
          have hla2 : largs = (acc ++ [art]) ++ more := hla
          have hlr2 : lrest = rest := hlr
          rw [hle2, except_bind_ok]
          try dsimp only
          refine tlres_ok_eq _ _ _ _ _ _ ?_ hlr2
          rw [hla2, hat2, List.append_assoc]
          rfl

end

theorem stopTok_not (rest : List Token) (tt : TokenType)
    (hr : (LogicParser.curTok rest).type = TokenType.rparen
        ∨ (LogicParser.curTok rest).type = TokenType.eof)
    (h1 : ¬ TokenType.rparen = tt) (h2 : ¬ TokenType.eof = tt) :
    ¬ (LogicParser.curTok rest).type = tt := by
  rcases hr with hr | hr <;> rw [hr] <;> assumption

theorem iffLoop_stop (fuel : Nat) (acc : Expr) (rest : List Token)
    (hr : (LogicParser.curTok rest).type = TokenType.rparen
        ∨ (LogicParser.curTok rest).type = TokenType.eof)
    (hf : 0 < fuel) :
    ∃ res : LogicParser.PRes rest.length,
      LogicParser.iffLoop fuel acc rest = .ok res ∧ res.e = acc ∧ res.rest = rest := by
  cases fuel with
  | zero => omega
  | succ f =>
      refine ⟨⟨acc, rest, le_refl _⟩, ?_, rfl, rfl⟩
      unfold LogicParser.iffLoop
      rw [dif_neg (stopTok_not rest TokenType.iff hr (by decide) (by decide))]

theorem impLoop_stop (fuel : Nat) (acc : Expr) (rest : List Token)
    (hr : (LogicParser.curTok rest).type = TokenType.rparen
        ∨ (LogicParser.curTok rest).type = TokenType.eof)
    (hf : 0 < fuel) :
    ∃ res : LogicParser.PRes rest.length,
      LogicParser.impLoop fuel acc rest = .ok res ∧ res.e = acc ∧ res.rest = rest := by
  cases fuel with
  | zero => omega
  | succ f =>
      refine ⟨⟨acc, rest, le_refl _⟩, ?_, rfl, rfl⟩
      unfold LogicParser.impLoop
      rw [dif_neg (stopTok_not rest TokenType.impl hr (by decide) (by decide))]

theorem orLoop_stop (fuel : Nat) (acc : Expr) (rest : List Token)
    (hr : (LogicParser.curTok rest).type = TokenType.rparen
        ∨ (LogicParser.curTok rest).type = TokenType.eof)
    (hf : 0 < fuel) :
    ∃ res : LogicParser.PRes rest.length,
      LogicParser.orLoop fuel acc rest = .ok res ∧ res.e = acc ∧ res.rest = rest := by
  cases fuel with
  | zero => omega
  | succ f =>
      refine ⟨⟨acc, rest, le_refl _⟩, ?_, rfl, rfl⟩
      unfold LogicParser.orLoop
      rw [dif_neg (stopTok_not rest TokenType.or hr (by decide) (by decide))]

theorem andLoop_stop (fuel : Nat) (acc : Expr) (rest : List Token)
    (hr : (LogicParser.curTok rest).type = TokenType.rparen
        ∨ (LogicParser.curTok rest).type = TokenType.eof)
    (hf : 0 < fuel) :
    ∃ res : LogicParser.PRes rest.length,
      LogicParser.andLoop fuel acc rest = .ok res ∧ res.e = acc ∧ res.rest = rest := by
  cases fuel with
  | zero => omega
  | succ f =>
      refine ⟨⟨acc, rest, le_refl _⟩, ?_, rfl, rfl⟩
      unfold LogicParser.andLoop
      rw [dif_neg (stopTok_not rest TokenType.and hr (by decide) (by decide))]

theorem parseRelOp_spec (op : String) (tt : TokenType) (h : relOpTok op = some tt)
    (tk : Token) (zs : List Token) (ht : tk.type = tt) (hv : tk.value = op) :
    LogicParser.parseRelOp (tk :: zs) = (some op, zs)
      ∧ ¬ tt = TokenType.lparen ∧ ¬ tt = TokenType.eof
      ∧ ¬ tt = TokenType.forallQ ∧ ¬ tt = TokenType.existsQ := by
  unfold relOpTok at h
  split at h <;>
    first
    | (injection h with h2
       subst h2
       refine ⟨?_, by decide, by decide, by decide, by decide⟩
       unfold LogicParser.parseRelOp
       simp only [LogicParser.curTok, ht, reduceIte]
       rw [adv_cons tk zs (by rw [ht]; decide)]
       repeat rw [if_neg (by decide)])
    | cases h

theorem parseQuantDomain_some (dn : String) (mTok dTok : Token) (zs : List Token)
    (htm : mTok.type = TokenType.member) (htd : dTok.type = TokenType.domain)
    (hvd : dTok.value = dn) :
    LogicParser.parseQuantDomain (mTok :: dTok :: zs) = .ok (some ⟨dn⟩, zs) := by
  unfold LogicParser.parseQuantDomain
  rw [if_pos (show (LogicParser.curTok (mTok :: dTok :: zs)).type = TokenType.member from htm)]
  have hadv : LogicParser.adv (mTok :: dTok :: zs) = dTok :: zs :=
    adv_cons _ _ (by rw [htm]; decide)
  rw [hadv]
  rw [if_pos (show (LogicParser.curTok (dTok :: zs)).type = TokenType.domain from htd)]
  rw [show (LogicParser.curTok (dTok :: zs)).value = dn from hvd,
      adv_cons dTok zs (by rw [htd]; decide)]

theorem parseQuantDomain_none (zs : List Token)
    (h : ¬ (LogicParser.curTok zs).type = TokenType.member) :
    LogicParser.parseQuantDomain zs = .ok (none, zs) := by
  unfold LogicParser.parseQuantDomain
  rw [if_neg h]


theorem exprSpec_head : ∀ (e : Expr), goodExpr e = true →
    ∃ x l, exprSpec e = x :: l ∧
      ((x : TokenType × String).1 = TokenType.var ∨ x.1 = TokenType.num
        ∨ x.1 = TokenType.lparen ∨ x.1 = TokenType.forallQ ∨ x.1 = TokenType.existsQ) := by
  intro e hg
  match e, hg with
  | .relation op l r, hg =>
      simp only [goodExpr, Bool.and_eq_true] at hg
      obtain ⟨⟨⟨-, -⟩, -⟩, hcs⟩ := hg
      match l, hcs with
      | .var n, hcs =>
          refine ⟨(TokenType.var, n),
            [((relOpTok op).getD TokenType.eof, op)] ++ termSpec r, ?_, by simp⟩
          show termSpec (.var n) ++ [((relOpTok op).getD TokenType.eof, op)] ++ termSpec r = _
          rw [show termSpec (.var n) = [(if isVarName n.data then TokenType.var
              else TokenType.ident, n)] from rfl,
              if_pos (show isVarName n.data = true from hcs)]
          rfl
      | .num k, _ => exact ⟨(TokenType.num, natDigitsStr k), _, rfl, by simp⟩
      | .paren t, _ => exact ⟨(TokenType.lparen, "("), _, rfl, by simp⟩
      | .const n, hcs => simp [canStartGood] at hcs
      | .func n args, hcs => simp [canStartGood] at hcs
  | .quantifier q v dom body, _ =>
      cases q with
      | fa => exact ⟨(TokenType.forallQ, "∀"), _, rfl, by simp⟩
      | ex => exact ⟨(TokenType.existsQ, "∃"), _, rfl, by simp⟩
  | .negation b, hg => simp [goodExpr] at hg
  | .binary o a b, hg => simp [goodExpr] at hg
  | .predicate n args, hg => simp [goodExpr] at hg

theorem map_tvOf_cons2 {pre : List Token} {x : TokenType × String}
    {l : List (TokenType × String)} (h : pre.map tvOf = x :: l) :
    ∃ tk pre2, pre = tk :: pre2 ∧ tk.type = x.1 ∧ tk.value = x.2 ∧ pre2.map tvOf = l := by
  obtain ⟨a, b⟩ := x
  exact map_tvOf_cons h

theorem termSpec_head_start : ∀ (l : Term), canStartGood l = true →
    ∃ x xs, termSpec l = x :: xs ∧ ((x : TokenType × String).1 = TokenType.var
      ∨ x.1 = TokenType.num ∨ x.1 = TokenType.lparen) := by
  intro l hcs
  match l, hcs with
  | .var n, hcs =>
      refine ⟨(TokenType.var, n), [], ?_, by simp⟩
      show [(if isVarName n.data then TokenType.var else TokenType.ident, n)] = _
      rw [if_pos (show isVarName n.data = true from hcs)]
  | .num k, _ => exact ⟨(TokenType.num, natDigitsStr k), _, rfl, by simp⟩
  | .paren t, _ => exact ⟨(TokenType.lparen, "("), _, rfl, by simp⟩
  | .const n, hcs => simp [canStartGood] at hcs
  | .func n args, hcs => simp [canStartGood] at hcs


theorem cascadeGood : ∀ (fuel : Nat) (e : Expr), goodExpr e = true →
    ∀ (pre rest : List Token),
      pre.map tvOf = exprSpec e →
      ((LogicParser.curTok rest).type = TokenType.rparen
        ∨ (LogicParser.curTok rest).type = TokenType.eof) →
      ((8 * (exprSpec e).length + 1 < fuel →
        ∃ res : LogicParser.PRes (pre ++ rest).length,
          LogicParser.parseAtom fuel (pre ++ rest) = .ok res ∧ res.e = e ∧ res.rest = rest)
      ∧ (8 * (exprSpec e).length + 2 < fuel →
        ∃ res : LogicParser.PRes (pre ++ rest).length,
          LogicParser.parseNot fuel (pre ++ rest) = .ok res ∧ res.e = e ∧ res.rest = rest)
      ∧ (8 * (exprSpec e).length + 3 < fuel →
        ∃ res : LogicParser.PRes (pre ++ rest).length,
          LogicParser.parseAnd fuel (pre ++ rest) = .ok res ∧ res.e = e ∧ res.rest = rest)
      ∧ (8 * (exprSpec e).length + 4 < fuel →
        ∃ res : LogicParser.PRes (pre ++ rest).length,
          LogicParser.parseOr fuel (pre ++ rest) = .ok res ∧ res.e = e ∧ res.rest = rest)
      ∧ (8 * (exprSpec e).length + 5 < fuel →
        ∃ res : LogicParser.PRes (pre ++ rest).length,
          LogicParser.parseImp fuel (pre ++ rest) = .ok res ∧ res.e = e ∧ res.rest = rest)
      ∧ (8 * (exprSpec e).length + 6 < fuel →
        ∃ res : LogicParser.PRes (pre ++ rest).length,
          LogicParser.parseIff fuel (pre ++ rest) = .ok res ∧ res.e = e ∧ res.rest = rest)
      ∧ (8 * (exprSpec e).length + 7 < fuel →
        ∃ res : LogicParser.PRes (pre ++ rest).length,
          LogicParser.parseExpr fuel (pre ++ rest) = .ok res ∧ res.e = e ∧ res.rest = rest))
  | 0 => by
      intro e hg pre rest hmap hrest
      refine ⟨?_, ?_, ?_, ?_, ?_, ?_, ?_⟩ <;> (intro h; omega)
  | fuel + 1 => by
      intro e hg pre rest hmap hrest
      refine ⟨?_, ?_, ?_, ?_, ?_, ?_, ?_⟩
      · -- parseAtom
        intro hf
        cases e with
        | relation op l r =>
            have hg2 := hg
            simp only [goodExpr, Bool.and_eq_true] at hg2
            obtain ⟨⟨⟨hopS, hgl⟩, hgr⟩, hcs⟩ := hg2
            obtain ⟨opTT, hopT⟩ := Option.isSome_iff_exists.mp hopS
            rw [show exprSpec (.relation op l r) = termSpec l
                  ++ ([((relOpTok op).getD TokenType.eof, op)] ++ termSpec r) from by
                show termSpec l ++ [((relOpTok op).getD TokenType.eof, op)] ++ termSpec r = _
                rw [List.append_assoc]] at hmap
            obtain ⟨pl, prest1, hp1, hml, hm1⟩ := map_tvOf_append hmap
            obtain ⟨opTok, pr0, hp2, htop, hvop, hm2⟩ := map_tvOf_cons hm1
            subst hp2
            subst hp1
            have htop2 : opTok.type = opTT := by rw [htop, hopT]; rfl
            have hm2b : pr0.map tvOf = termSpec r := hm2
            have hplen : pl.length = (termSpec l).length := by rw [← hml, List.length_map]
            have hrlen : pr0.length = (termSpec r).length := by rw [← hm2b, List.length_map]
            obtain ⟨hrel, hnlp, hneof, hnfa, hnex⟩ :=
              parseRelOp_spec op opTT hopT opTok (pr0 ++ rest) htop2 hvop
            obtain ⟨⟨xa, xb⟩, xl, hxs, hxor⟩ := termSpec_head_start l hcs
            rw [← hml] at hxs
            rw [show (pl ++ (opTok :: pr0)) ++ rest = pl ++ (opTok :: (pr0 ++ rest))
                  from by simp]
            have hcur := curTok_of_spec pl (opTok :: (pr0 ++ rest)) xa xb xl hxs
            refine ⟨⟨.relation op l r, rest, by simp only [List.length_append, List.length_cons, List.length_nil]; omega⟩, ?_, rfl, rfl⟩
            show LogicParser.parseAtom (fuel + 1) (pl ++ (opTok :: (pr0 ++ rest))) = _
            unfold LogicParser.parseAtom
            rw [dif_neg (show ¬ ((LogicParser.curTok (pl ++ (opTok :: (pr0
                  ++ rest)))).type = TokenType.forallQ ∨ (LogicParser.curTok (pl
                  ++ (opTok :: (pr0 ++ rest)))).type = TokenType.existsQ) from by
                rw [hcur]
                rintro (hcon | hcon) <;>
                  (rcases hxor with h | h | h <;> subst h <;> cases hcon))]
            rw [dif_pos (show LogicParser.canStartTerm (pl ++ (opTok :: (pr0 ++ rest)))
                  = true from by
                unfold LogicParser.canStartTerm
                rw [hcur]
                rcases hxor with h | h | h <;> subst h <;> rfl)]
            obtain ⟨⟨lt, lrest, lle⟩, hae, hat, har⟩ := parseTermGood l hgl
              ((pl ++ (opTok :: (pr0 ++ rest))).length + 1) pl (opTok :: (pr0 ++ rest)) hml
              (show ¬ (LogicParser.curTok (opTok :: (pr0 ++ rest))).type
                  = TokenType.lparen from by
                show ¬ opTok.type = TokenType.lparen
                rw [htop2]
                exact hnlp)
              (by simp only [List.length_append, List.length_cons]; omega)
            have hat2 : lt = l := hat
            have har2 : lrest = opTok :: (pr0 ++ rest) := har
            subst har2
            rw [hae, except_bind_ok]
            try dsimp only
            split
            · rename_i op2 ts1 heq
              rw [hrel] at heq
              simp only [Prod.mk.injEq, Option.some.injEq] at heq
              obtain ⟨hop2, hts1⟩ := heq
              subst hop2
              subst hts1
              obtain ⟨⟨rt, rrest, rle⟩, hae2, hat3, har3⟩ := parseTermGood r hgr
                ((pr0 ++ rest).length + 1) pr0 rest hm2b
                (stopTok_not rest TokenType.lparen hrest (by decide) (by decide))
                (by simp only [List.length_append]; omega)
              have hat4 : rt = r := hat3
              have har4 : rrest = rest := har3
              rw [hae2, except_bind_ok]
              try dsimp only
              exact pres_ok_eq _ _ _ _ _ _ (by rw [hat2, hat4]) har4
            · rename_i ts1 heq
              rw [hrel] at heq
              simp at heq
        | quantifier q v dom body =>
            have hg2 := hg
            simp only [goodExpr, Bool.and_eq_true] at hg2
            obtain ⟨⟨⟨hgv, hvnm⟩, hgd⟩, hgb⟩ := hg2
            cases dom with
            | none =>
                rw [show exprSpec (.quantifier q v none body)
                      = (if q = QuantifierKind.fa then (TokenType.forallQ, "∀")
                          else (TokenType.existsQ, "∃")) :: ((TokenType.var, v)
                        :: ((TokenType.lparen, "(") :: (exprSpec body
                          ++ [(TokenType.rparen, ")")]))) from rfl] at hmap hf
                obtain ⟨gTok, p1, hq1, htg, hvg, hmg1⟩ := map_tvOf_cons2 hmap
                obtain ⟨vTok, p2, hq2e, htv, hvv, hmg2⟩ := map_tvOf_cons hmg1
                have htg2 : gTok.type = (if q = QuantifierKind.fa then TokenType.forallQ
                    else TokenType.existsQ) := by
                  cases q <;> simpa using htg
                obtain ⟨lpTok, p3, hq3, htlp, hvlp, hmg3⟩ := map_tvOf_cons hmg2
                obtain ⟨pbody, prp, hq4, hmb, hmr⟩ := map_tvOf_append hmg3
                obtain ⟨rpTok, pnil, hq5, htrp, hvrp, hmg5⟩ := map_tvOf_cons hmr
                have hpn : pnil = [] := map_tvOf_nil hmg5
                subst hpn
                subst hq5
                subst hq4
                subst hq3
                subst hq2e
                subst hq1
                rw [show (gTok :: vTok :: lpTok :: (pbody ++ [rpTok])) ++ rest
                      = gTok :: vTok :: lpTok :: (pbody ++ (rpTok :: rest)) from by simp]
                simp only [List.length_cons, List.length_append, List.length_nil,
                  List.nil_append] at hf
                refine ⟨⟨.quantifier q v none body, rest, by simp only [List.length_append, List.length_cons, List.length_nil]; omega⟩, ?_, rfl, rfl⟩
                show LogicParser.parseAtom (fuel + 1)
                  (gTok :: vTok :: lpTok :: (pbody ++ (rpTok :: rest))) = _
                unfold LogicParser.parseAtom
                rw [dif_pos (show (LogicParser.curTok (gTok :: vTok :: lpTok
                      :: (pbody ++ (rpTok :: rest)))).type = TokenType.forallQ
                    ∨ (LogicParser.curTok (gTok :: vTok :: lpTok
                      :: (pbody ++ (rpTok :: rest)))).type = TokenType.existsQ from by
                    show gTok.type = _ ∨ gTok.type = _
                    rw [htg2]
                    cases q <;> simp)]
                dsimp only
                obtain ⟨⟨vtk, vrest, vhle⟩, hve, hvtk, hvrest⟩ :=
                  expect_good TokenType.var none vTok
                    (lpTok :: (pbody ++ (rpTok :: rest))) htv (by decide)
                rw [hve, except_bind_ok]
                try dsimp only
                have hvtk2 : vtk = vTok := hvtk
                have hvrest2 : vrest = lpTok :: (pbody ++ (rpTok :: rest)) := hvrest
                subst hvrest2
                have hpd : LogicParser.parseQuantDomain (lpTok :: (pbody
                    ++ (rpTok :: rest))) = .ok (none, lpTok :: (pbody ++ (rpTok :: rest))) :=
                  parseQuantDomain_none _ (by
                    show ¬ lpTok.type = TokenType.member
                    rw [htlp]
                    decide)
                split
                · rename_i e2 heq
                  rw [hpd] at heq
                  simp at heq
                · rename_i domain ts2 heq
                  rw [hpd] at heq
                  simp only [Except.ok.injEq, Prod.mk.injEq] at heq
                  obtain ⟨hdom, hts2⟩ := heq
                  subst hdom
                  subst hts2
                  rw [dif_pos (show (LogicParser.curTok (lpTok :: (pbody
                        ++ (rpTok :: rest)))).type = TokenType.lparen from htlp)]
                  try dsimp only
                  have hIH := (cascadeGood fuel body hgb pbody (rpTok :: rest) hmb
                    (Or.inl (show (LogicParser.curTok (rpTok :: rest)).type
                      = TokenType.rparen from htrp))).2.2.2.2.2.2
                  obtain ⟨⟨be, brest, bhle⟩, hbe, hbeq, hbrest⟩ := hIH (by omega)
                  have hbeq2 : be = body := hbeq
                  have hbrest2 : brest = rpTok :: rest := hbrest
                  subst hbrest2
                  rw [hbe, except_bind_ok]
                  try dsimp only
                  obtain ⟨kres, hke, hktk, hkrest⟩ :=
                    expect_good TokenType.rparen none rpTok rest htrp (by decide)
                  rw [hke, except_bind_ok]
                  try dsimp only
                  refine pres_ok_eq _ _ _ _ _ _ ?_ hkrest
                  have hqeq : (if (LogicParser.curTok (gTok :: vTok :: lpTok :: (pbody
                        ++ (rpTok :: rest)))).type = TokenType.forallQ
                      then QuantifierKind.fa else QuantifierKind.ex) = q := by
                    show (if gTok.type = TokenType.forallQ
                      then QuantifierKind.fa else QuantifierKind.ex) = q
                    rw [htg2]
                    cases q <;> simp
                  rw [hqeq, hvtk2, hvv, hbeq2]
            | some d =>
                obtain ⟨dn⟩ := d
                rw [show exprSpec (.quantifier q v (some ⟨dn⟩) body)
                      = (if q = QuantifierKind.fa then (TokenType.forallQ, "∀")
                          else (TokenType.existsQ, "∃")) :: ((TokenType.var, v)
                        :: ((TokenType.member, "∈") :: ((TokenType.domain, dn)
                          :: ((TokenType.lparen, "(") :: (exprSpec body
                            ++ [(TokenType.rparen, ")")]))))) from rfl] at hmap hf
                obtain ⟨gTok, p1, hq1, htg, hvg, hmg1⟩ := map_tvOf_cons2 hmap
                obtain ⟨vTok, p2, hq2e, htv, hvv, hmg2⟩ := map_tvOf_cons hmg1
                have htg2 : gTok.type = (if q = QuantifierKind.fa then TokenType.forallQ
                    else TokenType.existsQ) := by
                  cases q <;> simpa using htg
                obtain ⟨mTok, p3, hq3, htm, hvm, hmg3⟩ := map_tvOf_cons hmg2
                obtain ⟨dTok, p4, hq4, htd, hvd, hmg4⟩ := map_tvOf_cons hmg3
                obtain ⟨lpTok, p5, hq5, htlp, hvlp, hmg5⟩ := map_tvOf_cons hmg4
                obtain ⟨pbody, prp, hq6, hmb, hmr⟩ := map_tvOf_append hmg5
                obtain ⟨rpTok, pnil, hq7, htrp, hvrp, hmg7⟩ := map_tvOf_cons hmr
                have hpn : pnil = [] := map_tvOf_nil hmg7
                subst hpn
                subst hq7
                subst hq6
                subst hq5
                subst hq4
                subst hq3
                subst hq2e
                subst hq1
                rw [show (gTok :: vTok :: mTok :: dTok :: lpTok :: (pbody ++ [rpTok])) ++ rest
                      = gTok :: vTok :: mTok :: dTok :: lpTok :: (pbody ++ (rpTok :: rest))
                    from by simp]
                simp only [List.length_cons, List.length_append, List.length_nil,
                  List.cons_append, List.nil_append] at hf
                refine ⟨⟨.quantifier q v (some ⟨dn⟩) body, rest, by simp only [List.length_append, List.length_cons, List.length_nil]; omega⟩, ?_, rfl, rfl⟩
                show LogicParser.parseAtom (fuel + 1)
                  (gTok :: vTok :: mTok :: dTok :: lpTok :: (pbody ++ (rpTok :: rest))) = _
                unfold LogicParser.parseAtom
                rw [dif_pos (show (LogicParser.curTok (gTok :: vTok :: mTok :: dTok :: lpTok
                      :: (pbody ++ (rpTok :: rest)))).type = TokenType.forallQ
                    ∨ (LogicParser.curTok (gTok :: vTok :: mTok :: dTok :: lpTok
                      :: (pbody ++ (rpTok :: rest)))).type = TokenType.existsQ from by
                    show gTok.type = _ ∨ gTok.type = _
                    rw [htg2]
                    cases q <;> simp)]
                dsimp only
                obtain ⟨⟨vtk, vrest, vhle⟩, hve, hvtk, hvrest⟩ :=
                  expect_good TokenType.var none vTok
                    (mTok :: dTok :: lpTok :: (pbody ++ (rpTok :: rest))) htv (by decide)
                rw [hve, except_bind_ok]
                try dsimp only
                have hvtk2 : vtk = vTok := hvtk
                have hvrest2 : vrest = mTok :: dTok :: lpTok :: (pbody ++ (rpTok :: rest)) :=
                  hvrest
                subst hvrest2
                have hpd : LogicParser.parseQuantDomain (mTok :: dTok :: lpTok :: (pbody
                    ++ (rpTok :: rest))) = .ok (some ⟨dn⟩, lpTok :: (pbody
                    ++ (rpTok :: rest))) :=
                  parseQuantDomain_some dn mTok dTok _ htm htd hvd
                split
                · rename_i e2 heq
                  rw [hpd] at heq
                  simp at heq
                · rename_i domain ts2 heq
                  rw [hpd] at heq
                  simp only [Except.ok.injEq, Prod.mk.injEq] at heq
                  obtain ⟨hdom, hts2⟩ := heq
                  subst hdom
                  subst hts2
                  rw [dif_pos (show (LogicParser.curTok (lpTok :: (pbody
                        ++ (rpTok :: rest)))).type = TokenType.lparen from htlp)]
                  try dsimp only
                  have hIH := (cascadeGood fuel body hgb pbody (rpTok :: rest) hmb
                    (Or.inl (show (LogicParser.curTok (rpTok :: rest)).type
                      = TokenType.rparen from htrp))).2.2.2.2.2.2
                  obtain ⟨⟨be, brest, bhle⟩, hbe, hbeq, hbrest⟩ := hIH (by omega)
                  have hbeq2 : be = body := hbeq
                  have hbrest2 : brest = rpTok :: rest := hbrest
                  subst hbrest2
                  rw [hbe, except_bind_ok]
                  try dsimp only
                  obtain ⟨kres, hke, hktk, hkrest⟩ :=
                    expect_good TokenType.rparen none rpTok rest htrp (by decide)
                  rw [hke, except_bind_ok]
                  try dsimp only
                  refine pres_ok_eq _ _ _ _ _ _ ?_ hkrest
                  have hqeq : (if (LogicParser.curTok (gTok :: vTok :: mTok :: dTok :: lpTok
                        :: (pbody ++ (rpTok :: rest)))).type = TokenType.forallQ
                      then QuantifierKind.fa else QuantifierKind.ex) = q := by
                    show (if gTok.type = TokenType.forallQ
                      then QuantifierKind.fa else QuantifierKind.ex) = q
                    rw [htg2]
                    cases q <;> simp
                  rw [hqeq, hvtk2, hvv, hbeq2]
        | negation b => simp [goodExpr] at hg
        | binary o a b => simp [goodExpr] at hg
        | predicate nm args => simp [goodExpr] at hg
      · -- parseNot
        intro hf
        obtain ⟨⟨xa, xb⟩, xl, hxs, hxor⟩ := exprSpec_head e hg
        have hxs2 : pre.map tvOf = (xa, xb) :: xl := by rw [hmap, hxs]
        have hcur := curTok_of_spec pre rest xa xb xl hxs2
        obtain ⟨res, h1, h2, h3⟩ := (cascadeGood fuel e hg pre rest hmap hrest).1 (by omega)
        refine ⟨res, ?_, h2, h3⟩
        show LogicParser.parseNot (fuel + 1) (pre ++ rest) = _
        unfold LogicParser.parseNot
        rw [dif_neg (show ¬ (LogicParser.curTok (pre ++ rest)).type = TokenType.not from by
            rw [hcur]
            rcases hxor with h | h | h | h | h <;> subst h <;> decide)]
        exact h1
      · -- parseAnd
        intro hf
        obtain ⟨⟨ne2, nrest, nhle⟩, h1, h2, h3⟩ :=
          (cascadeGood fuel e hg pre rest hmap hrest).2.1 (by omega)
        have h2b : ne2 = e := h2
        have h3b : nrest = rest := h3
        refine ⟨⟨e, rest, by simp only [List.length_append]; omega⟩, ?_, rfl, rfl⟩
        show LogicParser.parseAnd (fuel + 1) (pre ++ rest) = _
        unfold LogicParser.parseAnd
        rw [h1, except_bind_ok]
        try dsimp only
        have hloop : ∃ res2 : LogicParser.PRes nrest.length,
            LogicParser.andLoop fuel ne2 nrest = .ok res2 ∧ res2.e = ne2 ∧ res2.rest = rest := by
          rw [h3b]
          exact andLoop_stop fuel ne2 rest hrest (by omega)
        obtain ⟨⟨ae, arest, ahle⟩, h4, h5, h6⟩ := hloop
        have h5b : ae = ne2 := h5
        have h6b : arest = rest := h6
        rw [h4, except_bind_ok]
        try dsimp only
        exact pres_ok_eq _ _ _ _ _ _ (by rw [h5b, h2b]) h6b
      · -- parseOr
        intro hf
        obtain ⟨⟨ne2, nrest, nhle⟩, h1, h2, h3⟩ :=
          (cascadeGood fuel e hg pre rest hmap hrest).2.2.1 (by omega)
        have h2b : ne2 = e := h2
        have h3b : nrest = rest := h3
        refine ⟨⟨e, rest, by simp only [List.length_append]; omega⟩, ?_, rfl, rfl⟩
        show LogicParser.parseOr (fuel + 1) (pre ++ rest) = _
        unfold LogicParser.parseOr
        rw [h1, except_bind_ok]
        try dsimp only
        have hloop : ∃ res2 : LogicParser.PRes nrest.length,
            LogicParser.orLoop fuel ne2 nrest = .ok res2 ∧ res2.e = ne2 ∧ res2.rest = rest := by
          rw [h3b]
          exact orLoop_stop fuel ne2 rest hrest (by omega)
        obtain ⟨⟨ae, arest, ahle⟩, h4, h5, h6⟩ := hloop
        have h5b : ae = ne2 := h5
        have h6b : arest = rest := h6
        rw [h4, except_bind_ok]
        try dsimp only
        exact pres_ok_eq _ _ _ _ _ _ (by rw [h5b, h2b]) h6b
      · -- parseImp
        intro hf
        obtain ⟨⟨ne2, nrest, nhle⟩, h1, h2, h3⟩ :=
          (cascadeGood fuel e hg pre rest hmap hrest).2.2.2.1 (by omega)
        have h2b : ne2 = e := h2
        have h3b : nrest = rest := h3
        refine ⟨⟨e, rest, by simp only [List.length_append]; omega⟩, ?_, rfl, rfl⟩
        show LogicParser.parseImp (fuel + 1) (pre ++ rest) = _
        unfold LogicParser.parseImp
        rw [h1, except_bind_ok]
        try dsimp only
        have hloop : ∃ res2 : LogicParser.PRes nrest.length,
            LogicParser.impLoop fuel ne2 nrest = .ok res2 ∧ res2.e = ne2 ∧ res2.rest = rest := by
          rw [h3b]
          exact impLoop_stop fuel ne2 rest hrest (by omega)
        obtain ⟨⟨ae, arest, ahle⟩, h4, h5, h6⟩ := hloop
        have h5b : ae = ne2 := h5
        have h6b : arest = rest := h6
        rw [h4, except_bind_ok]
        try dsimp only
        exact pres_ok_eq _ _ _ _ _ _ (by rw [h5b, h2b]) h6b
      · -- parseIff
        intro hf
        obtain ⟨⟨ne2, nrest, nhle⟩, h1, h2, h3⟩ :=
          (cascadeGood fuel e hg pre rest hmap hrest).2.2.2.2.1 (by omega)
        have h2b : ne2 = e := h2
        have h3b : nrest = rest := h3
        refine ⟨⟨e, rest, by simp only [List.length_append]; omega⟩, ?_, rfl, rfl⟩
        show LogicParser.parseIff (fuel + 1) (pre ++ rest) = _
        unfold LogicParser.parseIff
        rw [h1, except_bind_ok]
        try dsimp only
        have hloop : ∃ res2 : LogicParser.PRes nrest.length,
            LogicParser.iffLoop fuel ne2 nrest = .ok res2 ∧ res2.e = ne2 ∧ res2.rest = rest := by
          rw [h3b]
          exact iffLoop_stop fuel ne2 rest hrest (by omega)
        obtain ⟨⟨ae, arest, ahle⟩, h4, h5, h6⟩ := hloop
        have h5b : ae = ne2 := h5
        have h6b : arest = rest := h6
        rw [h4, except_bind_ok]
        try dsimp only
        exact pres_ok_eq _ _ _ _ _ _ (by rw [h5b, h2b]) h6b
      · -- parseExpr
        intro hf
        obtain ⟨res, h1, h2, h3⟩ :=
          (cascadeGood fuel e hg pre rest hmap hrest).2.2.2.2.2.1 (by omega)
        refine ⟨res, ?_, h2, h3⟩
        show LogicParser.parseExpr (fuel + 1) (pre ++ rest) = _
        unfold LogicParser.parseExpr
        exact h1

theorem parse_good (e : Expr) (hg : goodExpr e = true) :
    (LogicParser.parse (exprToString e)).map Prod.fst = .ok e := by
  obtain ⟨toks, l2, c2, htok, hmap⟩ := tokenize_good e hg
  have hlen : toks.length = (exprSpec e).length := by rw [← hmap, List.length_map]
  unfold LogicParser.parse
  rw [htok]
  try dsimp only
  obtain ⟨⟨pe, prest, ple⟩, hpe, hpeq, hprest⟩ :=
    (cascadeGood (((toks ++ ([⟨TokenType.eof, "", l2, c2⟩] : List Token)).length + 1) * 16)
      e hg toks ([⟨TokenType.eof, "", l2, c2⟩] : List Token) hmap (Or.inr rfl)).2.2.2.2.2.2
      (by simp only [List.length_append, List.length_cons, List.length_nil]; omega)
  rw [hpe]
  try dsimp only
  have hpeq2 : pe = e := hpeq
  have hprest2 : prest = [⟨TokenType.eof, "", l2, c2⟩] := hprest
  have hexp : ∃ res : LogicParser.KRes prest.length,
      LogicParser.expect TokenType.eof none prest = .ok res := by
    rw [hprest2]
    exact ⟨⟨LogicParser.curTok [⟨TokenType.eof, "", l2, c2⟩],
      LogicParser.adv [⟨TokenType.eof, "", l2, c2⟩], LogicParser.adv_len_le _⟩, rfl⟩
  obtain ⟨kres, hke⟩ := hexp
  rw [hke]
  try dsimp only
  simp only [Except.map]
  rw [hpeq2]

/-- C1: the parse-print round trip.  On the printable fragment — quantifier
    headers over tokenizer-readable names and domain symbols around a single
    relation whose terms are variables, numerals, function applications or
    parenthesised terms — parse inverts exprToString exactly. -/
theorem C1_roundtrip_restricted : ∀ (e : Expr), goodExpr e = true →
    (LogicParser.parse (exprToString e)).map Prod.fst = .ok e :=
  fun e hg => parse_good e hg

/-- C1 witness: the round trip evaluated on ∀x∈ℝ ( x < 5 ). -/
theorem C1_roundtrip_witness :
    goodExpr (Expr.quantifier .fa "x" (some ⟨"ℝ"⟩)
      (Expr.relation "<" (Term.var "x") (Term.num 5))) = true
    ∧ (LogicParser.parse (exprToString (Expr.quantifier .fa "x" (some ⟨"ℝ"⟩)
        (Expr.relation "<" (Term.var "x") (Term.num 5))))).map Prod.fst
      = .ok (Expr.quantifier .fa "x" (some ⟨"ℝ"⟩)
        (Expr.relation "<" (Term.var "x") (Term.num 5))) :=
  ⟨by rfl, C1_roundtrip_restricted (Expr.quantifier .fa "x" (some ⟨"ℝ"⟩)
    (Expr.relation "<" (Term.var "x") (Term.num 5))) (by rfl)⟩

/-- C1 counterexample: a predicate whose argument is a structured Term does
    not round-trip — the parser rebuilds the argument as a plain string
    (PredArg.str), so the reparsed tree differs from the original. -/
theorem C1_roundtrip_counterexample :
    exprToString (Expr.predicate "P" [PredArg.term (Term.var "x")]) = "P(x)"
    ∧ (LogicParser.parse "P(x)").map Prod.fst
        = .ok (Expr.predicate "P" [PredArg.str "x"])
    ∧ ¬ (Expr.predicate "P" [PredArg.str "x"]
        = Expr.predicate "P" [PredArg.term (Term.var "x")]) := by
  refine ⟨rfl, ?_, by decide⟩
  have h1 : tokenize "P(x)" = .ok [⟨.var, "P", 1, 1⟩, ⟨.lparen, "(", 1, 2⟩,
      ⟨.var, "x", 1, 3⟩, ⟨.rparen, ")", 1, 4⟩, ⟨.eof, "", 1, 5⟩] := by rfl
  unfold LogicParser.parse
  rw [h1]
  rfl
